import Mathlib

/-!
Shallow embedding of the build-aux Python scripts of the rnote repository:
`inno_build.py`, `cargo.py`, `cargo_build.py`, `cargo_build_win.py` and
`meson_post_install.py`.

A filesystem is modelled as a finite association list from paths (lists of
components) to file contents, together with a list of directory paths.
External commands (`ldd | grep | xargs cp` pipelines, `cp`,
`glib-compile-schemas`, `iscc`, `cargo`, ...) are modelled by an
environment record that supplies their observable results; the effect of
each shell command on the filesystem (the `cp` copies of the matched
files) is carried out explicitly, mirroring the command text.

The pipeline itself is a state machine over `St` (filesystem plus a trace
of the external commands that were invoked, with their exit statuses).
An outcome `Step` is `ok` (the script keeps running / exits 0), `exit1`
(the script called `sys.exit(1)` from `run_command`, after printing the
stage error message and the literal command to stderr - both recorded in
the constructor), or `exc` (an uncaught Python exception, process exit
status 1).
-/

namespace RnoteBuild

/-- A filesystem path, as its list of components. -/
abbrev Path := List String

/-- A filesystem: files as an association list from path to content,
plus the list of directories. -/
structure Fs where
  files : List (Path × String)
  dirs : List Path
deriving Repr, DecidableEq

/-- `isUnder d p`: the path `p` is `d` itself or lies below `d`
(component-wise prefix test). -/
def isUnder : Path → Path → Bool
  | [], _ => true
  | _ :: _, [] => false
  | a :: as, b :: bs => a == b && isUnder as bs

/-- Content of the file at `p`, if a file is recorded there. -/
def readFile (fs : Fs) (p : Path) : Option String :=
  (fs.files.find? (fun e => e.1 == p)).map (fun e => e.2)

/-- `p` is a directory of `fs`. -/
def isDir (fs : Fs) (p : Path) : Bool := fs.dirs.contains p

/-- `p` is a file of `fs`. -/
def isFile (fs : Fs) (p : Path) : Bool := fs.files.any (fun e => e.1 == p)

/-- `os.path.exists`: `p` is a directory or a file. -/
def pathExists (fs : Fs) (p : Path) : Bool := isDir fs p || isFile fs p

/-- Create or overwrite the file at `p` with content `c`. -/
def writeFile (fs : Fs) (p : Path) (c : String) : Fs :=
  ⟨(p, c) :: fs.files.filter (fun e => !(e.1 == p)), fs.dirs⟩

/-- Record directory `p`. -/
def addDir (fs : Fs) (p : Path) : Fs := ⟨fs.files, p :: fs.dirs⟩

/-- Remove every file and directory at or below `d` (`shutil.rmtree`). -/
def removeTree (fs : Fs) (d : Path) : Fs :=
  ⟨fs.files.filter (fun e => !(isUnder d e.1)),
   fs.dirs.filter (fun q => !(isUnder d q))⟩

/-- The names of the immediate entries below directory `d`
(`os.listdir` on a well-formed filesystem). -/
def childrenOf (fs : Fs) (d : Path) : List String :=
  ((fs.dirs ++ fs.files.map (fun e => e.1)).filterMap
    (fun p => if isUnder d p then (p.drop d.length).head? else none)).dedup

/-- Last component of a path (the file name). -/
def baseName (p : Path) : String := (p.getLast?).getD ""

/-- The files that are immediate children of `d` whose name matches
`pred` (a `glob.glob` over pattern `d/<pattern>`). -/
def globFiles (fs : Fs) (d : Path) (pred : String → Bool) : List Path :=
  fs.files.filterMap (fun e =>
    if !(e.1.isEmpty) && e.1.dropLast == d && pred (baseName e.1)
    then some e.1 else none)

/-- One record of the trace of external-command invocations: the literal
command line, the stage error message attached to it, and the exit
status the command returned. -/
structure TraceEntry where
  cmd : String
  msg : String
  status : Nat
deriving Repr, DecidableEq

/-- Script state: the filesystem and the trace of external commands
invoked so far. -/
structure St where
  fs : Fs
  trace : List TraceEntry
deriving Repr, DecidableEq

/-- Outcome of a (partial) run of a script. -/
inductive Step where
  /-- The script keeps running (or finished, process exit status 0). -/
  | ok (s : St)
  /-- `run_command` saw a non-zero status: it printed `msg` and the
  literal `cmd` to stderr and called `sys.exit(1)`. -/
  | exit1 (msg cmd : String) (s : St)
  /-- An uncaught Python exception: process exit status 1. -/
  | exc (s : St)
deriving Repr, DecidableEq

/-- The state carried by an outcome. -/
def Step.st : Step → St
  | .ok s => s
  | .exit1 _ _ s => s
  | .exc s => s

/-- Sequencing: later script lines run only while the script is `ok`. -/
def Step.bind : Step → (St → Step) → Step
  | .ok s, k => k s
  | r, _ => r

/-- Process exit status of an outcome (`0` on success, `1` on
`sys.exit(1)` and on an uncaught exception). -/
def pyExit : Step → Nat
  | .ok _ => 0
  | _ => 1

/-- A `for` loop over a list, each iteration a script fragment. -/
def forEach (f : α → St → Step) : List α → St → Step
  | [], s => .ok s
  | x :: xs, s => (f x s).bind (forEach f xs)

/-- `run_command` of `inno_build.py`: record the invocation, and on a
non-zero status print the error message and the literal command to
stderr and exit with status 1. -/
def run_command (status : Nat) (command error_message : String) (s : St) : Step :=
  let s' : St := ⟨s.fs, s.trace ++ [⟨command, error_message, status⟩]⟩
  if status == 0 then .ok s' else .exit1 error_message command s'

/-- `cp src dstDir`: copy the file `src` into directory `dstDir` under
its base name, overwriting; exit status 1 when `src` is unreadable. -/
def cpInto (fs : Fs) (src dstDir : Path) : Fs × Nat :=
  match readFile fs src with
  | some c => (writeFile fs (dstDir ++ [baseName src]) c, 0)
  | none => (fs, 1)

/-- Effect and exit status of `ldd BIN | grep ... -o | xargs -i cp ... DIR`:
each matched shared-library file is copied (unconditionally, `cp`
overwrites) into `dstDir`; the pipeline status is the status of `xargs`,
which is `0` when every `cp` succeeded (in particular on an empty match
list, where `cp` is never run) and non-zero (`123`) otherwise. -/
def lddCollect : List Path → Path → Fs → Fs × Nat
  | [], _, fs => (fs, 0)
  | src :: rest, dstDir, fs =>
      let r := cpInto fs src dstDir
      let r2 := lddCollect rest dstDir r.1
      (r2.1, if r.2 == 0 then r2.2 else 123)

/-- `os.mkdir p`: fails (exception) when `p` already exists or when the
parent is not a directory. -/
def mkdirM (p : Path) (s : St) : Step :=
  if pathExists s.fs p then .exc s
  else if isDir s.fs p.dropLast then .ok ⟨addDir s.fs p, s.trace⟩
  else .exc s

/-- `if os.path.exists(d): shutil.rmtree(d)` - the guarded cleanup used
for each working directory; `rmtree` on a non-directory raises. -/
def cleanTree (d : Path) (s : St) : Step :=
  if pathExists s.fs d then
    if isDir s.fs d then .ok ⟨removeTree s.fs d, s.trace⟩ else .exc s
  else .ok s

/-- `shutil.copy(src, dst)`: copy file `src` to `dst` (into `dst` under
the base name when `dst` is a directory); raises when `src` is not a
readable file. -/
def shutilCopy (src dst : Path) (s : St) : Step :=
  match readFile s.fs src with
  | some c =>
      if isDir s.fs dst then .ok ⟨writeFile s.fs (dst ++ [baseName src]) c, s.trace⟩
      else .ok ⟨writeFile s.fs dst c, s.trace⟩
  | none => .exc s

/-- The files a `copytree src dst` creates: every file below `src`,
relocated below `dst`. -/
def treeFiles (fs : Fs) (src dst : Path) : List (Path × String) :=
  fs.files.filterMap (fun e =>
    if isUnder src e.1 then some (dst ++ e.1.drop src.length, e.2) else none)

/-- The subdirectories a `copytree src dst` creates below `dst`. -/
def treeDirs (fs : Fs) (src dst : Path) : List Path :=
  fs.dirs.filterMap (fun q =>
    if isUnder src q && !(q == src) then some (dst ++ q.drop src.length) else none)

/-- The ancestors of `dst` that `os.makedirs` has to create. -/
def missingAnc (fs : Fs) (dst : Path) : List Path :=
  ((List.range dst.length).map (fun k => dst.take k)).filter (fun a => !(isDir fs a))

/-- `shutil.copytree(src, dst)`: raises when `dst` already exists or
`src` is not a directory; otherwise creates `dst` (and any missing
ancestors, via `os.makedirs`) and copies every file and subdirectory of
`src` below `dst`. -/
def copytreeM (src dst : Path) (s : St) : Step :=
  if pathExists s.fs dst then .exc s
  else if isDir s.fs src then
    .ok ⟨⟨treeFiles s.fs src dst ++ s.fs.files,
          missingAnc s.fs dst ++ [dst] ++ treeDirs s.fs src dst ++ s.fs.dirs⟩, s.trace⟩
  else .exc s

/-- Positional arguments of `inno_build.py`. -/
structure Config where
  source_root : Path
  build_root : Path
  build_environment_path : Path
  app_name : String
  app_name_capitalized : String
  app_id : String
  ui_output : Path
  inno_script : Path

/-- Results of the external tools that inspect state outside the model:
`ldd | grep` link inspection (the list of matched `/mingw...dll` paths
for a given binary), the schema compiler (as a function of the schema
directory contents, `none` meaning a non-zero exit, e.g. a malformed
schema), and the exit status of `iscc`. -/
structure Env where
  lddMatches : Path → List Path
  compileSchemas : List (Path × String) → Option String
  isccStatus : Nat

def dlls_dir (cfg : Config) : Path := cfg.build_root ++ ["dlls"]

def gschemas_dir (cfg : Config) : Path := cfg.build_root ++ ["gschemas"]

def locale_dir (cfg : Config) : Path := cfg.build_root ++ ["locale"]

def app_mo_dir (cfg : Config) : Path := cfg.build_root ++ ["crates", "rnote-ui", "po"]

def app_schema_src (cfg : Config) : Path :=
  cfg.build_root ++ ["crates", "rnote-ui", "data", cfg.app_id ++ ".gschema.xml"]

def app_binary (cfg : Config) : Path := cfg.build_root ++ cfg.ui_output

def loaders_dir (cfg : Config) : Path :=
  cfg.build_environment_path ++ ["lib", "gdk-pixbuf-2.0", "2.10.0", "loaders"]

def system_schemas_dir (cfg : Config) : Path :=
  cfg.build_environment_path ++ ["share", "glib-2.0", "schemas"]

def bin_dir (cfg : Config) : Path := cfg.build_environment_path ++ ["bin"]

def system_locale_dir (cfg : Config) (lang : String) : Path :=
  cfg.build_environment_path ++ ["share", "locale", lang, "LC_MESSAGES"]

/-- Render a path the way the Python f-strings interpolate it. -/
def pathStr (p : Path) : String := String.intercalate "/" p

/-- The literal `ldd ... | grep ... | xargs -i cp ...` command line. -/
def lddGrepCmd (binPath dst : Path) : String :=
  "ldd " ++ pathStr binPath ++ " | grep \x27\\/mingw.*\\.dll\x27 -o | xargs -i cp \x7b\x7d "
    ++ pathStr dst

def cpCmd (src dst : Path) : String := "cp " ++ pathStr src ++ " " ++ pathStr dst

def glibCmd (cfg : Config) : String := "glib-compile-schemas " ++ pathStr (gschemas_dir cfg)

def isccCmd (cfg : Config) : String := "iscc " ++ pathStr cfg.inno_script

/-- Character-list prefix test (kernel-reducible `str.startswith`). -/
def chListStarts : List Char → List Char → Bool
  | [], _ => true
  | _ :: _, [] => false
  | a :: as, b :: bs => a == b && chListStarts as bs

/-- `s` starts with `pre`. -/
def strStarts (pre s : String) : Bool := chListStarts pre.data s.data

/-- `s` ends with `suff`. -/
def strEnds (suff s : String) : Bool := chListStarts suff.data.reverse s.data.reverse

/-- Name filter of the `loaders/*.dll` glob. -/
def dllName (n : String) : Bool := strEnds ".dll" n

/-- Name filter of the `bin/libEGL*.dll` glob. -/
def eglName (n : String) : Bool := strStarts "libEGL" n && strEnds ".dll" n

/-- Name filter of the `bin/libGLES*.dll` glob. -/
def glesName (n : String) : Bool := strStarts "libGLES" n && strEnds ".dll" n

/-- Name filter of the `schemas/org.gtk.*` glob. -/
def orgGtkName (n : String) : Bool := strStarts "org.gtk." n

/-- The app-DLL collection command of stage 1. -/
def collectAppDlls (cfg : Config) (env : Env) (s : St) : Step :=
  let r := lddCollect (env.lddMatches (app_binary cfg)) (dlls_dir cfg) s.fs
  run_command r.2 (lddGrepCmd (app_binary cfg) (dlls_dir cfg))
    "Collecting app DLLs failed" ⟨r.1, s.trace⟩

/-- Body of the pixbuf-loader loop of stage 1. -/
def collectLoaderDlls (cfg : Config) (env : Env) (loader : Path) (s : St) : Step :=
  let r := lddCollect (env.lddMatches loader) (dlls_dir cfg) s.fs
  run_command r.2 (lddGrepCmd loader (dlls_dir cfg))
    ("Collecting pixbuf-loader (" ++ pathStr loader ++ ") DLLs failed") ⟨r.1, s.trace⟩

/-- Body of the angle-DLL loop of stage 1: copy the angle DLL itself,
then its own dependencies. -/
def collectAngleDll (cfg : Config) (env : Env) (angle : Path) (s : St) : Step :=
  (let r := cpInto s.fs angle (dlls_dir cfg)
   run_command r.2 (cpCmd angle (dlls_dir cfg))
     ("Collecting angle (" ++ pathStr angle ++ ") DLLs failed") ⟨r.1, s.trace⟩).bind
  (fun s =>
    let r := lddCollect (env.lddMatches angle) (dlls_dir cfg) s.fs
    run_command r.2 (lddGrepCmd angle (dlls_dir cfg))
      ("Collecting angle dependency (" ++ pathStr angle ++ ") DLLs failed") ⟨r.1, s.trace⟩)

/-- Stage 1, "Collecting DLLs...": clean and recreate `dlls/`, collect
the app DLLs, the pixbuf-loader DLLs and the angle DLLs. -/
def stageDlls (cfg : Config) (env : Env) (s : St) : Step :=
  (cleanTree (dlls_dir cfg) s).bind (fun s =>
  (mkdirM (dlls_dir cfg) s).bind (fun s =>
  (collectAppDlls cfg env s).bind (fun s =>
  (forEach (collectLoaderDlls cfg env) (globFiles s.fs (loaders_dir cfg) dllName) s).bind
  (fun s =>
  forEach (collectAngleDll cfg env)
    (globFiles s.fs (bin_dir cfg) eglName ++ globFiles s.fs (bin_dir cfg) glesName) s))))

/-- The files below the schema directory, as handed to the schema
compiler. -/
def schemaInput (fs : Fs) (d : Path) : List (Path × String) :=
  fs.files.filter (fun e => isUnder d e.1)

/-- Effect and exit status of `glib-compile-schemas DIR`: on success a
`gschemas.compiled` is produced in `DIR` (a deterministic function of the
schema files in `DIR`); `none` models a non-zero compiler exit. -/
def glibCompile (env : Env) (d : Path) (fs : Fs) : Fs × Nat :=
  match env.compileSchemas (schemaInput fs d) with
  | some c => (writeFile fs (d ++ ["gschemas.compiled"]) c, 0)
  | none => (fs, 1)

/-- Stage 2, "Collecting and compiling GSchemas...": clean and recreate
`gschemas/`, copy the `org.gtk.*` system schemas and the application
schema, then run the schema compiler. -/
def stageSchemas (cfg : Config) (env : Env) (s : St) : Step :=
  (cleanTree (gschemas_dir cfg) s).bind (fun s =>
  (mkdirM (gschemas_dir cfg) s).bind (fun s =>
  (forEach (fun src s => shutilCopy src (gschemas_dir cfg) s)
     (globFiles s.fs (system_schemas_dir cfg) orgGtkName) s).bind (fun s =>
  (shutilCopy (app_schema_src cfg) (gschemas_dir cfg) s).bind (fun s =>
  let r := glibCompile env (gschemas_dir cfg) s.fs
  run_command r.2 (glibCmd cfg) "Compiling schemas failed" ⟨r.1, s.trace⟩))))

/-- `if os.path.exists(src): shutil.copy(src, dst)` - the best-effort
copy of one system locale catalog. -/
def copyIfExists (src dst : Path) (s : St) : Step :=
  if pathExists s.fs src then shutilCopy src dst s else .ok s

/-- Body of the per-language loop of stage 3: create the
`locale/<lang>/LC_MESSAGES` directory when absent, then copy each of the
three well-known system catalogs that exists. -/
def localeLangStep (cfg : Config) (lang : String) (s : St) : Step :=
  ((if pathExists s.fs (locale_dir cfg ++ [lang, "LC_MESSAGES"]) then .ok s
    else mkdirM (locale_dir cfg ++ [lang, "LC_MESSAGES"]) s) : Step).bind (fun s =>
  (copyIfExists (system_locale_dir cfg lang ++ ["glib20.mo"])
      (locale_dir cfg ++ [lang, "LC_MESSAGES"]) s).bind (fun s =>
  (copyIfExists (system_locale_dir cfg lang ++ ["gtk40.mo"])
      (locale_dir cfg ++ [lang, "LC_MESSAGES"]) s).bind (fun s =>
  copyIfExists (system_locale_dir cfg lang ++ ["libadwaita.mo"])
      (locale_dir cfg ++ [lang, "LC_MESSAGES"]) s)))

/-- Stage 3, "Collecting locale...": clean `locale/`, copy the
application locale tree verbatim as the base, then iterate over the
application-supported language tags, adding the existing system
catalogs. -/
def stageLocale (cfg : Config) (s : St) : Step :=
  (cleanTree (locale_dir cfg) s).bind (fun s =>
  (copytreeM (app_mo_dir cfg) (locale_dir cfg) s).bind (fun s =>
  if isDir s.fs (app_mo_dir cfg) then
    forEach (localeLangStep cfg) (childrenOf s.fs (app_mo_dir cfg)) s
  else .exc s))

/-- Stage 4, "Running ISCC...": invoke the Inno Setup compiler on the
installer descriptor. -/
def stageIscc (cfg : Config) (env : Env) (s : St) : Step :=
  run_command env.isccStatus (isccCmd cfg) "Running ISCC failed" s

/-- Stages 1-3 of `inno_build.py`. -/
def first3 (cfg : Config) (env : Env) (s : St) : Step :=
  (stageDlls cfg env s).bind (fun s =>
  (stageSchemas cfg env s).bind (fun s =>
  stageLocale cfg s))

/-- The whole `inno_build.py` pipeline. -/
def inno_build (cfg : Config) (env : Env) (s : St) : Step :=
  (first3 cfg env s).bind (stageIscc cfg env)

/-! ### Spec-side comparator for claim C4

The spec describes the dependency collection as "skipping re-copy of an
already-present same-named file".  The following variant follows those
words (it is not a translation of the source, whose `cp` always copies
and overwrites): a matched file whose same-named target already exists
in the collection directory is skipped. -/

/-- Spec-side `cp` that skips when the same-named target is present. -/
def cpIntoSkip (fs : Fs) (src dstDir : Path) : Fs × Nat :=
  if pathExists fs (dstDir ++ [baseName src]) then (fs, 0)
  else cpInto fs src dstDir

/-- Spec-side collection loop built on `cpIntoSkip`. -/
def lddCollectSkip : List Path → Path → Fs → Fs × Nat
  | [], _, fs => (fs, 0)
  | src :: rest, dstDir, fs =>
      let r := cpIntoSkip fs src dstDir
      let r2 := lddCollectSkip rest dstDir r.1
      (r2.1, if r.2 == 0 then r2.2 else 123)

/-! ### The other build scripts -/

/-- Positional arguments of `cargo_build.py` (and of its
`cargo_build_win.py` variant, whose sixth argument is named
`cargo_generated_bin`). -/
structure CargoBuildArgs where
  project_build_root : String
  project_src_root : String
  cargo_env : String
  cargo_cmd : String
  cargo_options : String
  bin_output : String
  output_file : String

def cargo_call (a : CargoBuildArgs) : String :=
  "env " ++ a.cargo_env ++ " " ++ a.cargo_cmd ++ " build " ++ a.cargo_options

def cp_call (a : CargoBuildArgs) : String :=
  "cp " ++ a.bin_output ++ " " ++ a.output_file

/-- `cargo_build.py`: run the cargo call, abort with exit status 1 when
it returns non-zero; then run the cp call, abort with exit status 1 when
it returns non-zero; exit 0 otherwise.  `sysStatus` is the
`os.system` oracle; the returned trace lists the commands that were
actually invoked with their statuses. -/
def cargo_build_py (a : CargoBuildArgs) (sysStatus : String → Nat) :
    Nat × List (String × Nat) :=
  let r1 := sysStatus (cargo_call a)
  if r1 != 0 then (1, [(cargo_call a, r1)])
  else
    let r2 := sysStatus (cp_call a)
    if r2 != 0 then (1, [(cargo_call a, r1), (cp_call a, r2)])
    else (0, [(cargo_call a, r1), (cp_call a, r2)])

/-- `cargo_build_win.py`: the same two `os.system` calls, but neither
returned status is inspected - the script always runs both commands and
finishes with exit status 0. -/
def cargo_build_win_py (a : CargoBuildArgs) (sysStatus : String → Nat) :
    Nat × List (String × Nat) :=
  (0, [(cargo_call a, sysStatus (cargo_call a)), (cp_call a, sysStatus (cp_call a))])

/-- Positional arguments of `cargo.py`. -/
structure CargoArgs where
  meson_build_root : String
  meson_source_root : String
  output : String
  profile : String
  app_bin : String
  cwd : String

def cargoPyBuildCmd (a : CargoArgs) : List String :=
  if a.profile == "devel" then
    ["cargo", "build", "--manifest-path", a.meson_source_root ++ "/Cargo.toml"]
  else
    ["cargo", "build", "--manifest-path", a.meson_source_root ++ "/Cargo.toml", "--release"]

def cargoPyCpCmd (a : CargoArgs) : List String :=
  if a.profile == "devel" then
    ["cp", a.meson_build_root ++ "/target/debug/" ++ a.app_bin, a.cwd ++ "/" ++ a.output]
  else
    ["cp", a.meson_build_root ++ "/target/release/" ++ a.app_bin, a.cwd ++ "/" ++ a.output]

/-- `cargo.py`: two `subprocess.call` invocations whose returned
statuses are discarded; the script always runs both and finishes with
exit status 0. -/
def cargo_py (a : CargoArgs) (callStatus : List String → Nat) :
    Nat × List (List String × Nat) :=
  (0, [(cargoPyBuildCmd a, callStatus (cargoPyBuildCmd a)),
       (cargoPyCpCmd a, callStatus (cargoPyCpCmd a))])

/-- Positional arguments of `meson_post_install.py`. -/
structure PostInstallArgs where
  datadir : String
  bindir : String
  app_bin : String

/-- The desktop-integration commands `meson_post_install.py` issues on
each platform family. -/
def postInstallCmds (platform : String) (a : PostInstallArgs) : List (List String) :=
  if strStarts "linux" platform || strStarts "darwin" platform then
    [["gtk4-update-icon-cache", "-qtf", a.datadir ++ "/icons/hicolor"],
     ["glib-compile-schemas", a.datadir ++ "/glib-2.0/schemas"],
     ["update-desktop-database", a.datadir ++ "/applications"],
     ["update-mime-database", a.datadir ++ "/mime"],
     ["fc-cache", "-v", "-f"]]
  else if platform == "win32" then
    [["gtk-update-icon-cache.exe", "-qtf", a.datadir ++ "/icons/hicolor"],
     ["glib-compile-schemas.exe", a.datadir ++ "/glib-2.0/schemas"],
     ["update-desktop-database.exe", a.datadir ++ "/applications"],
     ["update-mime-database.exe", a.datadir ++ "/mime"],
     ["fc-cache.exe", "-v", "-f"]]
  else []

/-- `meson_post_install.py`: when `DESTDIR` is unset/empty, run the
platform's cache-refresh commands through `subprocess.call`, ignoring
every returned status; the script always finishes with exit status 0. -/
def meson_post_install_py (platform destdir : String) (a : PostInstallArgs)
    (callStatus : List String → Nat) : Nat × List (List String × Nat) :=
  if destdir == "" then
    (0, (postInstallCmds platform a).map (fun c => (c, callStatus c)))
  else (0, [])

/-! ### Concrete example data (used by the witnesses) -/

/-- Example configuration: build root `b`, msys environment `m`. -/
def cfgW : Config :=
  { source_root := ["s"]
    build_root := ["b"]
    build_environment_path := ["m"]
    app_name := "rnote"
    app_name_capitalized := "Rnote"
    app_id := "com.github.flxzt.rnote"
    ui_output := ["rnote.exe"]
    inno_script := ["s", "setup.iss"] }

/-- Example starting filesystem: built binary, application schema,
application locale tree with one language `de`, and a system tree with
catalogs for `de` and `fr`, one `org.gtk.*` schema and one angle DLL. -/
def fsW : Fs :=
  { files :=
      [ (["b", "rnote.exe"], "BIN")
      , (["b", "crates", "rnote-ui", "data", "com.github.flxzt.rnote.gschema.xml"], "SCHEMA")
      , (["b", "crates", "rnote-ui", "po", "de", "LC_MESSAGES", "rnote.mo"], "DE")
      , (["m", "share", "locale", "de", "LC_MESSAGES", "gtk40.mo"], "GTKDE")
      , (["m", "share", "locale", "fr", "LC_MESSAGES", "gtk40.mo"], "GTKFR")
      , (["m", "share", "glib-2.0", "schemas", "org.gtk.Settings.xml"], "ORGGTK")
      , (["m", "bin", "libEGL.dll"], "EGL")
      ]
    dirs :=
      [ [], ["b"], ["m"], ["m", "share"], ["m", "share", "locale"]
      , ["m", "share", "locale", "de"], ["m", "share", "locale", "de", "LC_MESSAGES"]
      , ["m", "share", "locale", "fr"], ["m", "share", "locale", "fr", "LC_MESSAGES"]
      , ["m", "share", "glib-2.0"], ["m", "share", "glib-2.0", "schemas"]
      , ["m", "bin"], ["m", "lib"]
      , ["b", "crates"], ["b", "crates", "rnote-ui"], ["b", "crates", "rnote-ui", "po"]
      , ["b", "crates", "rnote-ui", "po", "de"]
      , ["b", "crates", "rnote-ui", "po", "de", "LC_MESSAGES"]
      , ["b", "crates", "rnote-ui", "data"]
      ] }

/-- Example environment where every external tool succeeds and the
binary has no matched dependencies. -/
def envW : Env :=
  { lddMatches := fun _ => []
    compileSchemas := fun l => some (String.intercalate ";" (l.map (fun e => e.2)))
    isccStatus := 0 }

/-- Same as `envW` but `iscc` fails. -/
def envWIsccFail : Env :=
  { lddMatches := fun _ => []
    compileSchemas := fun l => some (String.intercalate ";" (l.map (fun e => e.2)))
    isccStatus := 1 }

/-- Same as `envW` but the schema compiler rejects its input
(malformed schema). -/
def envWSchemaFail : Env :=
  { lddMatches := fun _ => []
    compileSchemas := fun _ => none
    isccStatus := 0 }

/-- Example arguments for `cargo.py`. -/
def cargoArgsW : CargoArgs :=
  { meson_build_root := "bld"
    meson_source_root := "srcdir"
    output := "out"
    profile := "devel"
    app_bin := "rnote"
    cwd := "cwd" }

/-- `subprocess.call` oracle where the cargo build fails (status 1) and
everything else succeeds. -/
def cargoOracleW : List String → Nat :=
  fun c => if c == cargoPyBuildCmd cargoArgsW then 1 else 0

/-- Example arguments for `cargo_build.py` / `cargo_build_win.py`. -/
def cargoBuildArgsW : CargoBuildArgs :=
  { project_build_root := "pb"
    project_src_root := "ps"
    cargo_env := "X=1"
    cargo_cmd := "cargo"
    cargo_options := "--release"
    bin_output := "binout"
    output_file := "outf" }

/-- `os.system` oracle where the cargo call fails (status 1) and
everything else succeeds. -/
def sysFailCargoW : String → Nat :=
  fun c => if c == cargo_call cargoBuildArgsW then 1 else 0

/-- Like `fsW` but without any DLL in the runtime environment: nothing
for the dependency collection to match. -/
def fsW6 : Fs :=
  { files :=
      [ (["b", "rnote.exe"], "BIN")
      , (["b", "crates", "rnote-ui", "data", "com.github.flxzt.rnote.gschema.xml"], "SCHEMA")
      ]
    dirs := [ [], ["b"], ["m"], ["m", "bin"], ["m", "lib"], ["b", "crates"] ] }

/-- Application locale tree with one language and no system catalogs at
all (for the locale-stage witnesses). -/
def fsW8 : Fs :=
  { files := [ (["b", "crates", "rnote-ui", "po", "de", "LC_MESSAGES", "rnote.mo"], "DE") ]
    dirs := [ [], ["b"], ["m"], ["b", "crates"], ["b", "crates", "rnote-ui"]
      , ["b", "crates", "rnote-ui", "po"], ["b", "crates", "rnote-ui", "po", "de"]
      , ["b", "crates", "rnote-ui", "po", "de", "LC_MESSAGES"] ] }

/-- Working directory of the C4 counterexample. -/
def dllsDirX : Path := ["b", "dlls"]

/-- Filesystem of the C4 counterexample: two shared libraries with the
same base name `libfoo.dll` and different contents. -/
def fsX : Fs :=
  { files := [(["m", "a", "libfoo.dll"], "A"), (["m", "bb", "libfoo.dll"], "B")]
    dirs := [[], ["b"], ["b", "dlls"], ["m"], ["m", "a"], ["m", "bb"]] }

/-- Matched link-inspection output of the C4 counterexample. -/
def msX : List Path := [["m", "a", "libfoo.dll"], ["m", "bb", "libfoo.dll"]]

/-! ### Regions and relations used by the theorems -/

/-- `p` lies at or below one of the three working directories. -/
def under3 (cfg : Config) (p : Path) : Bool :=
  isUnder (dlls_dir cfg) p || isUnder (gschemas_dir cfg) p || isUnder (locale_dir cfg) p

/-- `p` lies at or below `gschemas/` or `locale/`. -/
def underGL (cfg : Config) (p : Path) : Bool :=
  isUnder (gschemas_dir cfg) p || isUnder (locale_dir cfg) p

/-- `p` lies at or below `locale/`. -/
def underL (cfg : Config) (p : Path) : Bool := isUnder (locale_dir cfg) p

/-- The three fixed system catalog names of the locale stage. -/
def sysCatalogNames : List String := ["glib20.mo", "gtk40.mo", "libadwaita.mo"]

/-- The base names the per-language locale loop can write (the three
system catalogs, plus the `LC_MESSAGES` path itself in the degenerate
case where it is not a directory). -/
def loopWriteNames : List String := ["glib20.mo", "gtk40.mo", "libadwaita.mo", "LC_MESSAGES"]

/-- A script fragment that stores new files or directories only inside
region `P` (it may freely rewrite what is already present). -/
def GrowsWithin (P : Path → Bool) (f : St → Step) : Prop :=
  ∀ s p, ((p ∈ (Step.st (f s)).fs.dirs → p ∈ s.fs.dirs ∨ P p = true)
       ∧ (isFile (Step.st (f s)).fs p = true → isFile s.fs p = true ∨ P p = true))

/-- Two filesystems agree (as raw lists) outside the region `P`. -/
def agreeOutside (P : Path → Bool) (fs g : Fs) : Prop :=
  fs.files.filter (fun e => !(P e.1)) = g.files.filter (fun e => !(P e.1)) ∧
  fs.dirs.filter (fun q => !(P q)) = g.dirs.filter (fun q => !(P q))

/-- Frame relation: going from `fs` to `fs'`, files outside region `P`
are untouched and directories outside `P` are never removed. -/
def framedBy (P : Path → Bool) (fs fs' : Fs) : Prop :=
  fs'.files.filter (fun e => !(P e.1)) = fs.files.filter (fun e => !(P e.1)) ∧
  ∀ p, P p = false → p ∈ fs.dirs → p ∈ fs'.dirs

/-- A script fragment whose filesystem effects are confined to region
`P`, whatever the outcome. -/
def Frames (P : Path → Bool) (f : St → Step) : Prop :=
  ∀ s, framedBy P s.fs (Step.st (f s)).fs

/-- The external-command trace produced by running fragment `r` from
state `s` is well-formed: successful prefixes record status 0, and an
`exit1` outcome records the failing command last, with its non-zero
status. -/
def GoodTrace (s : St) : Step → Prop
  | .ok s' => ∃ pre, s'.trace = s.trace ++ pre ∧ ∀ e ∈ pre, e.status = 0
  | .exit1 m c s' =>
      ∃ pre st, s'.trace = s.trace ++ pre ++ [⟨c, m, st⟩] ∧ st ≠ 0 ∧ ∀ e ∈ pre, e.status = 0
  | .exc s' => ∃ pre, s'.trace = s.trace ++ pre ∧ ∀ e ∈ pre, e.status = 0

/-- The working directory `r` is in a tidy state: if it exists it is a
directory, and if it does not exist nothing is recorded below it. -/
def tidyAt (fs : Fs) (r : Path) : Bool :=
  if pathExists fs r then isDir fs r
  else fs.files.all (fun e => !(isUnder r e.1)) && fs.dirs.all (fun q => !(isUnder r q))

/-- All three working directories are tidy. -/
def tidy3 (cfg : Config) (fs : Fs) : Bool :=
  tidyAt fs (dlls_dir cfg) && tidyAt fs (gschemas_dir cfg) && tidyAt fs (locale_dir cfg)

/-- The build root and all its ancestors exist as directories. -/
def ancChain (cfg : Config) (fs : Fs) : Bool :=
  (List.range (cfg.build_root.length + 1)).all (fun k => isDir fs (cfg.build_root.take k))

/-- The runtime-environment tree and the application binary are separate
from the three working directories. -/
def sepB (cfg : Config) : Bool :=
  ([dlls_dir cfg, gschemas_dir cfg, locale_dir cfg].all (fun r =>
    !(isUnder cfg.build_environment_path r) && !(isUnder r cfg.build_environment_path)))
  && !(under3 cfg (app_binary cfg))

/-! ## Path lemmas -/

theorem isUnder_refl (p : Path) : isUnder p p = true := by
  induction p with
  | nil => rfl
  | cons x xs ih => simp [isUnder, ih]

theorem isUnder_append (a b c : Path) : isUnder (a ++ b) (a ++ c) = isUnder b c := by
  induction a with
  | nil => rfl
  | cons x xs ih => simp [isUnder, ih]

theorem isUnder_self_append (a b : Path) : isUnder a (a ++ b) = true := by
  have h := isUnder_append a [] b
  simpa [isUnder] using h

theorem isUnder_trans : ∀ {a b c : Path},
    isUnder a b = true → isUnder b c = true → isUnder a c = true
  | [], _, _, _, _ => rfl
  | _ :: _, [], _, h, _ => by simp [isUnder] at h
  | _ :: _, _ :: _, [], _, h => by simp [isUnder] at h
  | x :: xs, y :: ys, z :: zs, h₁, h₂ => by
      simp only [isUnder, Bool.and_eq_true, beq_iff_eq] at h₁ h₂ ⊢
      exact ⟨h₁.1.trans h₂.1, isUnder_trans h₁.2 h₂.2⟩

theorem isUnder_comparable : ∀ {a b p : Path},
    isUnder a p = true → isUnder b p = true → isUnder a b = true ∨ isUnder b a = true
  | [], _, _, _, _ => Or.inl rfl
  | _ :: _, [], _, _, _ => Or.inr rfl
  | _ :: _, _ :: _, [], h, _ => by simp [isUnder] at h
  | x :: xs, y :: ys, z :: zs, h₁, h₂ => by
      simp only [isUnder, Bool.and_eq_true, beq_iff_eq] at h₁ h₂ ⊢
      rcases isUnder_comparable h₁.2 h₂.2 with h | h
      · exact Or.inl ⟨h₁.1.trans h₂.1.symm, h⟩
      · exact Or.inr ⟨h₂.1.trans h₁.1.symm, h⟩

/-- Two differently-headed extensions of the same root have disjoint
path regions. -/
theorem isUnder_disjoint {r : Path} {x y : String} (hxy : x ≠ y) {u v p : Path}
    (h₁ : isUnder (r ++ x :: u) p = true) (h₂ : isUnder (r ++ y :: v) p = true) : False := by
  rcases isUnder_comparable h₁ h₂ with h | h
  · rw [isUnder_append] at h
    simp only [isUnder, Bool.and_eq_true, beq_iff_eq] at h
    exact hxy h.1
  · rw [isUnder_append] at h
    simp only [isUnder, Bool.and_eq_true, beq_iff_eq] at h
    exact hxy h.1.symm

/-! ## Filter and search lemmas -/

theorem find?_filter_sub {α : Type} {r Q : α → Bool} (h : ∀ e, r e = true → Q e = true) :
    ∀ l : List α, l.find? r = (l.filter Q).find? r := by
  intro l
  induction l with
  | nil => rfl
  | cons a l ih =>
      cases hr : r a with
      | true =>
          have hQ : Q a = true := h a hr
          simp [List.find?, List.filter, hr, hQ]
      | false =>
          cases hQ : Q a with
          | true => simp [List.find?, List.filter, hr, hQ, ih]
          | false => simp [List.find?, List.filter, hr, hQ, ih]

theorem filterMap_filter_sub {α β : Type} {f : α → Option β} {Q : α → Bool}
    (h : ∀ e, (f e).isSome → Q e = true) :
    ∀ l : List α, l.filterMap f = (l.filter Q).filterMap f := by
  intro l
  induction l with
  | nil => rfl
  | cons a l ih =>
      cases hf : f a with
      | some b =>
          have hQ : Q a = true := h a (by simp [hf])
          simp [List.filterMap_cons, List.filter, hf, hQ, ih]
      | none =>
          cases hQ : Q a with
          | true => simp [List.filterMap_cons, List.filter, hf, hQ, ih]
          | false => simp [List.filterMap_cons, List.filter, hf, hQ, ih]

theorem filter_filter_sub {α : Type} {r Q : α → Bool} (h : ∀ e, r e = true → Q e = true)
    (l : List α) : l.filter r = (l.filter Q).filter r := by
  rw [List.filter_filter]
  refine (List.filter_congr ?_).symm
  intro a _
  cases hr : r a with
  | true => simp [h a hr]
  | false => rfl

theorem any_filter_sub {α : Type} {r Q : α → Bool} (h : ∀ e, r e = true → Q e = true)
    (l : List α) : l.any r = (l.filter Q).any r := by
  induction l with
  | nil => rfl
  | cons a l ih =>
      cases hr : r a with
      | true =>
          have hQ : Q a = true := h a hr
          simp [List.filter, hr, hQ]
      | false =>
          cases hQ : Q a with
          | true => simp [List.filter, hr, hQ, ih]
          | false => simp [List.filter, hr, hQ, ih]

/-! ## Reads are determined by the region outside `P` -/

theorem readFile_agree {P : Path → Bool} {fs g : Fs} (h : agreeOutside P fs g) {p : Path}
    (hp : P p = false) : readFile fs p = readFile g p := by
  have hc : ∀ e : Path × String, (e.1 == p) = true → (!(P e.1)) = true := by
    intro e he
    have : e.1 = p := by simpa [beq_iff_eq] using he
    simp [this, hp]
  unfold readFile
  rw [find?_filter_sub hc fs.files, h.1, ← find?_filter_sub hc g.files]

theorem isFile_agree {P : Path → Bool} {fs g : Fs} (h : agreeOutside P fs g) {p : Path}
    (hp : P p = false) : isFile fs p = isFile g p := by
  have hc : ∀ e : Path × String, (e.1 == p) = true → (!(P e.1)) = true := by
    intro e he
    have : e.1 = p := by simpa [beq_iff_eq] using he
    simp [this, hp]
  unfold isFile
  rw [any_filter_sub hc fs.files, h.1, ← any_filter_sub hc g.files]

theorem mem_dirs_agree {P : Path → Bool} {fs g : Fs} (h : agreeOutside P fs g) {p : Path}
    (hp : P p = false) : p ∈ fs.dirs ↔ p ∈ g.dirs := by
  constructor
  · intro hm
    have h1 : p ∈ fs.dirs.filter (fun q => !(P q)) := List.mem_filter.2 ⟨hm, by simp [hp]⟩
    rw [h.2] at h1
    exact (List.mem_filter.1 h1).1
  · intro hm
    have h1 : p ∈ g.dirs.filter (fun q => !(P q)) := List.mem_filter.2 ⟨hm, by simp [hp]⟩
    rw [← h.2] at h1
    exact (List.mem_filter.1 h1).1

theorem isDir_agree {P : Path → Bool} {fs g : Fs} (h : agreeOutside P fs g) {p : Path}
    (hp : P p = false) : isDir fs p = isDir g p := by
  have hmm := mem_dirs_agree h hp
  unfold isDir
  cases h1 : fs.dirs.contains p with
  | true =>
      have h2 : p ∈ g.dirs := hmm.1 (List.elem_iff.1 h1)
      exact (List.elem_iff.2 h2).symm
  | false =>
      cases h2 : g.dirs.contains p with
      | true =>
          have h3 : p ∈ fs.dirs := hmm.2 (List.elem_iff.1 h2)
          have h4 : List.elem p fs.dirs = true := List.elem_iff.2 h3
          have h5 : List.elem p fs.dirs = false := h1
          rw [h5] at h4
          exact h4
      | false => rfl

theorem pathExists_agree {P : Path → Bool} {fs g : Fs} (h : agreeOutside P fs g) {p : Path}
    (hp : P p = false) : pathExists fs p = pathExists g p := by
  unfold pathExists
  rw [isDir_agree h hp, isFile_agree h hp]

/-- A non-empty path whose `dropLast` is `d` lies under `d`. -/
theorem isUnder_of_dropLast {p d : Path} (hne : p ≠ []) (hd : p.dropLast = d) :
    isUnder d p = true := by
  have h1 : d ++ [p.getLast hne] = p := by rw [← hd]; exact List.dropLast_append_getLast hne
  have := isUnder_self_append d [p.getLast hne]
  rwa [h1] at this

theorem globFiles_agree {P : Path → Bool} {fs g : Fs} (h : agreeOutside P fs g) {d : Path}
    {pred : String → Bool} (hreg : ∀ p, isUnder d p = true → P p = false) :
    globFiles fs d pred = globFiles g d pred := by
  have hc : ∀ e : Path × String,
      ((if !(e.1.isEmpty) && e.1.dropLast == d && pred (baseName e.1)
        then some e.1 else none).isSome) = true → (!(P e.1)) = true := by
    intro e he
    by_cases hcnd : (!(e.1.isEmpty) && e.1.dropLast == d && pred (baseName e.1)) = true
    · have h1 : e.1 ≠ [] := by
        intro hnil
        simp [hnil] at hcnd
      have h2 : e.1.dropLast = d := by
        have := hcnd
        simp only [Bool.and_eq_true, beq_iff_eq] at this
        exact this.1.2
      simp [hreg e.1 (isUnder_of_dropLast h1 h2)]
    · simp [hcnd] at he
  unfold globFiles
  rw [filterMap_filter_sub hc fs.files, h.1, ← filterMap_filter_sub hc g.files]

theorem childrenOf_agree {P : Path → Bool} {fs g : Fs} (h : agreeOutside P fs g) {d : Path}
    (hreg : ∀ p, isUnder d p = true → P p = false) :
    childrenOf fs d = childrenOf g d := by
  have hc : ∀ p : Path,
      ((if isUnder d p then (p.drop d.length).head? else none).isSome) = true →
        (!(P p)) = true := by
    intro p hp
    cases hu : isUnder d p with
    | true => simp [hreg p hu]
    | false => simp [hu] at hp
  unfold childrenOf
  congr 1
  rw [filterMap_filter_sub hc, filterMap_filter_sub hc (g.dirs ++ g.files.map (fun e => e.1))]
  congr 1
  rw [List.filter_append, List.filter_append, h.2, List.filter_map, List.filter_map]
  have hff : fs.files.filter ((fun q => !(P q)) ∘ (fun e => e.1))
      = g.files.filter ((fun q => !(P q)) ∘ (fun e => e.1)) := h.1
  rw [hff]

theorem schemaInput_agree {P : Path → Bool} {fs g : Fs} (h : agreeOutside P fs g) {d : Path}
    (hreg : ∀ p, isUnder d p = true → P p = false) :
    schemaInput fs d = schemaInput g d := by
  have hc : ∀ e : Path × String, (isUnder d e.1) = true → (!(P e.1)) = true := by
    intro e he
    simp [hreg e.1 he]
  unfold schemaInput
  rw [filter_filter_sub hc fs.files, h.1, ← filter_filter_sub hc g.files]

/-! ## Equal operations preserve agreement -/

theorem agree_writeFile {P : Path → Bool} {fs g : Fs} (h : agreeOutside P fs g) (p : Path)
    (c : String) : agreeOutside P (writeFile fs p c) (writeFile g p c) := by
  refine ⟨?_, h.2⟩
  show ((p, c) :: fs.files.filter (fun e => !(e.1 == p))).filter (fun e => !(P e.1))
      = ((p, c) :: g.files.filter (fun e => !(e.1 == p))).filter (fun e => !(P e.1))
  have key : (fs.files.filter (fun e => !(e.1 == p))).filter (fun e => !(P e.1))
      = (g.files.filter (fun e => !(e.1 == p))).filter (fun e => !(P e.1)) := by
    rw [List.filter_filter, List.filter_filter]
    have h1 : fs.files.filter (fun e => !(P e.1) && !(e.1 == p))
        = g.files.filter (fun e => !(P e.1) && !(e.1 == p)) := by
      have := congrArg (List.filter (fun e : Path × String => !(e.1 == p))) h.1
      rw [List.filter_filter, List.filter_filter] at this
      calc fs.files.filter (fun e => !(P e.1) && !(e.1 == p))
          = fs.files.filter (fun e => !(e.1 == p) && !(P e.1)) :=
            List.filter_congr (fun e _ => Bool.and_comm _ _)
        _ = g.files.filter (fun e => !(e.1 == p) && !(P e.1)) := this
        _ = g.files.filter (fun e => !(P e.1) && !(e.1 == p)) :=
            List.filter_congr (fun e _ => Bool.and_comm _ _)
    exact h1
  cases hp : (!(P p)) with
  | true => simp only [List.filter_cons, hp, key]
  | false => simp only [List.filter_cons, hp, key]

theorem agree_addDir {P : Path → Bool} {fs g : Fs} (h : agreeOutside P fs g) (p : Path) :
    agreeOutside P (addDir fs p) (addDir g p) := by
  refine ⟨h.1, ?_⟩
  show (p :: fs.dirs).filter (fun q => !(P q)) = (p :: g.dirs).filter (fun q => !(P q))
  cases hp : (!(P p)) with
  | true => simp only [List.filter_cons, hp, h.2]
  | false => simp only [List.filter_cons, hp, h.2]

theorem agree_removeTree {P : Path → Bool} {fs g : Fs} (h : agreeOutside P fs g) (d : Path) :
    agreeOutside (fun p => P p && !(isUnder d p)) (removeTree fs d) (removeTree g d) := by
  have hbool : ∀ (a b : Bool), (!(a && !b) && !b) = (!a && !b) := by decide
  constructor
  · show (fs.files.filter (fun e => !(isUnder d e.1))).filter
        (fun e => !(P e.1 && !(isUnder d e.1)))
      = (g.files.filter (fun e => !(isUnder d e.1))).filter
        (fun e => !(P e.1 && !(isUnder d e.1)))
    rw [List.filter_filter, List.filter_filter]
    have h1 := congrArg (List.filter (fun e : Path × String => !(isUnder d e.1))) h.1
    rw [List.filter_filter, List.filter_filter] at h1
    calc fs.files.filter (fun e => !(P e.1 && !(isUnder d e.1)) && !(isUnder d e.1))
        = fs.files.filter (fun e => !(isUnder d e.1) && !(P e.1)) := by
          refine List.filter_congr (fun e _ => ?_)
          rw [hbool, Bool.and_comm]
      _ = g.files.filter (fun e => !(isUnder d e.1) && !(P e.1)) := h1
      _ = g.files.filter (fun e => !(P e.1 && !(isUnder d e.1)) && !(isUnder d e.1)) := by
          refine List.filter_congr (fun e _ => ?_)
          rw [hbool, Bool.and_comm]
  · show (fs.dirs.filter (fun q => !(isUnder d q))).filter (fun q => !(P q && !(isUnder d q)))
      = (g.dirs.filter (fun q => !(isUnder d q))).filter (fun q => !(P q && !(isUnder d q)))
    rw [List.filter_filter, List.filter_filter]
    have h2 := congrArg (List.filter (fun q : Path => !(isUnder d q))) h.2
    rw [List.filter_filter, List.filter_filter] at h2
    calc fs.dirs.filter (fun q => !(P q && !(isUnder d q)) && !(isUnder d q))
        = fs.dirs.filter (fun q => !(isUnder d q) && !(P q)) := by
          refine List.filter_congr (fun q _ => ?_)
          rw [hbool, Bool.and_comm]
      _ = g.dirs.filter (fun q => !(isUnder d q) && !(P q)) := h2
      _ = g.dirs.filter (fun q => !(P q && !(isUnder d q)) && !(isUnder d q)) := by
          refine List.filter_congr (fun q _ => ?_)
          rw [hbool, Bool.and_comm]

theorem agree_mono {P P' : Path → Bool} (hPP : ∀ p, P' p = true → P p = true)
    {fs g : Fs} (h : agreeOutside P' fs g) : agreeOutside P fs g := by
  have hcF : ∀ e : Path × String, (!(P e.1)) = true → (!(P' e.1)) = true := by
    intro e he
    cases h1 : P' e.1 with
    | true => simp [hPP e.1 h1] at he
    | false => rfl
  have hcD : ∀ q : Path, (!(P q)) = true → (!(P' q)) = true := by
    intro q hq
    cases h1 : P' q with
    | true => simp [hPP q h1] at hq
    | false => rfl
  constructor
  · rw [filter_filter_sub hcF fs.files, h.1, ← filter_filter_sub hcF g.files]
  · rw [filter_filter_sub hcD fs.dirs, h.2, ← filter_filter_sub hcD g.dirs]

theorem agree_refl (P : Path → Bool) (fs : Fs) : agreeOutside P fs fs := ⟨rfl, rfl⟩

theorem agree_none_eq {fs g : Fs} (h : agreeOutside (fun _ => false) fs g) : fs = g := by
  obtain ⟨h1, h2⟩ := h
  simp only [Bool.not_false, List.filter_true] at h1 h2
  cases fs
  cases g
  simp_all

/-! ## Frame lemmas: effects confined to a region -/

theorem framedBy_refl (P : Path → Bool) (fs : Fs) : framedBy P fs fs :=
  ⟨rfl, fun _ _ h => h⟩

theorem framedBy_trans {P : Path → Bool} {fs₁ fs₂ fs₃ : Fs}
    (h₁ : framedBy P fs₁ fs₂) (h₂ : framedBy P fs₂ fs₃) : framedBy P fs₁ fs₃ :=
  ⟨h₂.1.trans h₁.1, fun p hp hm => h₂.2 p hp (h₁.2 p hp hm)⟩

theorem framedBy_mono {P P' : Path → Bool} (hPP : ∀ p, P p = true → P' p = true)
    {fs fs' : Fs} (h : framedBy P fs fs') : framedBy P' fs fs' := by
  have hc : ∀ e : Path × String, (!(P' e.1)) = true → (!(P e.1)) = true := by
    intro e he
    cases h1 : P e.1 with
    | true => simp [hPP e.1 h1] at he
    | false => rfl
  constructor
  · rw [filter_filter_sub hc fs'.files, h.1, ← filter_filter_sub hc fs.files]
  · intro p hp hm
    refine h.2 p ?_ hm
    cases h1 : P p with
    | true => simp [hPP p h1] at hp
    | false => rfl

theorem framedBy_writeFile {P : Path → Bool} (fs : Fs) {p : Path} (c : String)
    (hp : P p = true) : framedBy P fs (writeFile fs p c) := by
  constructor
  · show ((p, c) :: fs.files.filter (fun e => !(e.1 == p))).filter (fun e => !(P e.1))
      = fs.files.filter (fun e => !(P e.1))
    have hhead : (!(P (p, c).1)) = false := by simp [hp]
    rw [List.filter_cons]
    simp only [hhead, if_false]
    rw [List.filter_filter]
    refine List.filter_congr (fun e _ => ?_)
    cases hep : e.1 == p with
    | true =>
        have : e.1 = p := by simpa [beq_iff_eq] using hep
        simp [this, hp]
    | false => simp [hep]
  · exact fun _ _ h => h

theorem framedBy_addDir (P : Path → Bool) (fs : Fs) (p : Path) :
    framedBy P fs (addDir fs p) :=
  ⟨rfl, fun _ _ h => List.mem_cons_of_mem _ h⟩

theorem framedBy_removeTree {P : Path → Bool} (fs : Fs) {d : Path}
    (hsub : ∀ p, isUnder d p = true → P p = true) : framedBy P fs (removeTree fs d) := by
  constructor
  · show (fs.files.filter (fun e => !(isUnder d e.1))).filter (fun e => !(P e.1))
      = fs.files.filter (fun e => !(P e.1))
    rw [List.filter_filter]
    refine List.filter_congr (fun e _ => ?_)
    cases hu : isUnder d e.1 with
    | true => simp [hsub e.1 hu]
    | false => simp [hu]
  · intro p hp hm
    refine List.mem_filter.2 ⟨hm, ?_⟩
    cases hu : isUnder d p with
    | true => rw [hsub p hu] at hp; exact absurd hp (by simp)
    | false => rfl

theorem framedBy_cpInto {P : Path → Bool} {dstDir : Path}
    (hsub : ∀ p, isUnder dstDir p = true → P p = true) (fs : Fs) (src : Path) :
    framedBy P fs (cpInto fs src dstDir).1 := by
  unfold cpInto
  cases h : readFile fs src with
  | some c =>
      refine framedBy_writeFile fs c (hsub _ ?_)
      exact isUnder_self_append dstDir [baseName src]
  | none => exact framedBy_refl P fs

theorem framedBy_lddCollect {P : Path → Bool} {dstDir : Path}
    (hsub : ∀ p, isUnder dstDir p = true → P p = true) :
    ∀ (ms : List Path) (fs : Fs), framedBy P fs (lddCollect ms dstDir fs).1 := by
  intro ms
  induction ms with
  | nil => exact fun fs => framedBy_refl P fs
  | cons src rest ih =>
      intro fs
      show framedBy P fs (lddCollect rest dstDir (cpInto fs src dstDir).1).1
      exact framedBy_trans (framedBy_cpInto hsub fs src) (ih _)

theorem run_command_st_fs (status : Nat) (c m : String) (s : St) :
    (Step.st (run_command status c m s)).fs = s.fs := by
  unfold run_command
  split
  · rfl
  · rfl

theorem frames_bind {P : Path → Bool} {f k : St → Step}
    (hf : Frames P f) (hk : Frames P k) : Frames P (fun s => (f s).bind k) := by
  intro s
  cases h : f s with
  | ok s' =>
      have h1 : framedBy P s.fs s'.fs := by
        have h2 := hf s
        rw [h] at h2
        exact h2
      simpa [Step.bind, h] using framedBy_trans h1 (hk s')
  | exit1 m c s' =>
      have h2 := hf s
      rw [h] at h2
      simpa [Step.bind, h, Step.st] using h2
  | exc s' =>
      have h2 := hf s
      rw [h] at h2
      simpa [Step.bind, h, Step.st] using h2

theorem frames_forEach {α : Type} {P : Path → Bool} {f : α → St → Step}
    (hf : ∀ x, Frames P (f x)) : ∀ xs, Frames P (forEach f xs)
  | [] => fun s => framedBy_refl P s.fs
  | x :: xs => fun s => frames_bind (hf x) (frames_forEach hf xs) s

theorem frames_mkdirM (P : Path → Bool) (p : Path) : Frames P (mkdirM p) := by
  intro s
  unfold mkdirM
  split
  · exact framedBy_refl P s.fs
  · split
    · exact framedBy_addDir P s.fs p
    · exact framedBy_refl P s.fs

theorem frames_cleanTree {P : Path → Bool} {d : Path}
    (hsub : ∀ q, isUnder d q = true → P q = true) : Frames P (cleanTree d) := by
  intro s
  unfold cleanTree
  split
  · split
    · exact framedBy_removeTree s.fs hsub
    · exact framedBy_refl P s.fs
  · exact framedBy_refl P s.fs

theorem frames_shutilCopy {P : Path → Bool} {dst : Path}
    (hsub : ∀ q, isUnder dst q = true → P q = true) (src : Path) :
    Frames P (shutilCopy src dst) := by
  intro s
  unfold shutilCopy
  split
  · split
    · exact framedBy_writeFile s.fs _ (hsub _ (isUnder_self_append dst [baseName src]))
    · exact framedBy_writeFile s.fs _ (hsub _ (isUnder_refl dst))
  · exact framedBy_refl P s.fs

theorem frames_copyIfExists {P : Path → Bool} {dst : Path}
    (hsub : ∀ q, isUnder dst q = true → P q = true) (src : Path) :
    Frames P (copyIfExists src dst) := by
  intro s
  unfold copyIfExists
  split
  · exact frames_shutilCopy hsub src s
  · exact framedBy_refl P s.fs

/-- Every file `copytree` creates lies below `dst`. -/
theorem treeFiles_under {fs : Fs} {src dst : Path} {e : Path × String}
    (he : e ∈ treeFiles fs src dst) : isUnder dst e.1 = true := by
  obtain ⟨a, _, hfa⟩ := List.mem_filterMap.1 he
  by_cases hu : isUnder src a.1 = true
  · rw [if_pos hu] at hfa
    cases hfa
    exact isUnder_self_append dst _
  · rw [if_neg hu] at hfa
    exact absurd hfa (by simp)

theorem frames_copytreeM {P : Path → Bool} {dst : Path}
    (hsub : ∀ q, isUnder dst q = true → P q = true) (src : Path) :
    Frames P (copytreeM src dst) := by
  intro s
  unfold copytreeM
  split
  · exact framedBy_refl P s.fs
  · split
    · refine ⟨?_, ?_⟩
      · show (treeFiles s.fs src dst ++ s.fs.files).filter (fun e => !(P e.1))
          = s.fs.files.filter (fun e => !(P e.1))
        rw [List.filter_append]
        have hnil : (treeFiles s.fs src dst).filter (fun e => !(P e.1)) = [] := by
          rw [List.filter_eq_nil_iff]
          intro e he
          simp [hsub _ (treeFiles_under he)]
        rw [hnil, List.nil_append]
      · intro p _ hm
        show p ∈ missingAnc s.fs dst ++ [dst] ++ treeDirs s.fs src dst ++ s.fs.dirs
        simp [List.mem_append, hm]
    · exact framedBy_refl P s.fs

/-- Pointwise version of frame composition through `Step.bind`. -/
theorem framedBy_bind_point {P : Path → Bool} {r : Step} {k : St → Step} {fs0 : Fs}
    (hr : framedBy P fs0 (Step.st r).fs)
    (hk : ∀ s', framedBy P s'.fs (Step.st (k s')).fs) :
    framedBy P fs0 (Step.st (r.bind k)).fs := by
  cases r with
  | ok s' => exact framedBy_trans hr (hk s')
  | exit1 m c s' => exact hr
  | exc s' => exact hr

theorem framedBy_glibCompile {P : Path → Bool} {d : Path}
    (hsub : ∀ q, isUnder d q = true → P q = true) (env : Env) (fs : Fs) :
    framedBy P fs (glibCompile env d fs).1 := by
  unfold glibCompile
  cases h : env.compileSchemas (schemaInput fs d) with
  | some c => exact framedBy_writeFile fs c (hsub _ (isUnder_self_append d _))
  | none => exact framedBy_refl P fs

theorem frames_collectAppDlls (cfg : Config) (env : Env) :
    Frames (fun p => isUnder (dlls_dir cfg) p) (collectAppDlls cfg env) := by
  intro s
  show framedBy _ s.fs (Step.st (run_command
    (lddCollect (env.lddMatches (app_binary cfg)) (dlls_dir cfg) s.fs).2
    (lddGrepCmd (app_binary cfg) (dlls_dir cfg)) "Collecting app DLLs failed"
    ⟨(lddCollect (env.lddMatches (app_binary cfg)) (dlls_dir cfg) s.fs).1, s.trace⟩)).fs
  rw [run_command_st_fs]
  exact framedBy_lddCollect (fun _ hp => hp) _ _

theorem frames_collectLoaderDlls (cfg : Config) (env : Env) (loader : Path) :
    Frames (fun p => isUnder (dlls_dir cfg) p) (collectLoaderDlls cfg env loader) := by
  intro s
  show framedBy _ s.fs (Step.st (run_command
    (lddCollect (env.lddMatches loader) (dlls_dir cfg) s.fs).2
    (lddGrepCmd loader (dlls_dir cfg))
    ("Collecting pixbuf-loader (" ++ pathStr loader ++ ") DLLs failed")
    ⟨(lddCollect (env.lddMatches loader) (dlls_dir cfg) s.fs).1, s.trace⟩)).fs
  rw [run_command_st_fs]
  exact framedBy_lddCollect (fun _ hp => hp) _ _

theorem frames_collectAngleDll (cfg : Config) (env : Env) (angle : Path) :
    Frames (fun p => isUnder (dlls_dir cfg) p) (collectAngleDll cfg env angle) := by
  intro s
  unfold collectAngleDll
  refine framedBy_bind_point ?_ (fun s' => ?_)
  · rw [run_command_st_fs]
    exact framedBy_cpInto (fun _ hp => hp) s.fs angle
  · rw [run_command_st_fs]
    exact framedBy_lddCollect (fun _ hp => hp) _ _

theorem frames_stageDlls (cfg : Config) (env : Env) :
    Frames (fun p => isUnder (dlls_dir cfg) p) (stageDlls cfg env) := by
  intro s
  unfold stageDlls
  refine framedBy_bind_point (frames_cleanTree (fun _ hq => hq) s) (fun s1 => ?_)
  refine framedBy_bind_point (frames_mkdirM _ _ s1) (fun s2 => ?_)
  refine framedBy_bind_point (frames_collectAppDlls cfg env s2) (fun s3 => ?_)
  refine framedBy_bind_point
    (frames_forEach (fun l => frames_collectLoaderDlls cfg env l) _ s3) (fun s4 => ?_)
  exact frames_forEach (fun a => frames_collectAngleDll cfg env a) _ s4

theorem frames_stageSchemas (cfg : Config) (env : Env) :
    Frames (fun p => isUnder (gschemas_dir cfg) p) (stageSchemas cfg env) := by
  intro s
  unfold stageSchemas
  refine framedBy_bind_point (frames_cleanTree (fun _ hq => hq) s) (fun s1 => ?_)
  refine framedBy_bind_point (frames_mkdirM _ _ s1) (fun s2 => ?_)
  refine framedBy_bind_point
    (frames_forEach (fun src => frames_shutilCopy (fun _ hq => hq) src) _ s2) (fun s3 => ?_)
  refine framedBy_bind_point (frames_shutilCopy (fun _ hq => hq) _ s3) (fun s4 => ?_)
  rw [run_command_st_fs]
  exact framedBy_glibCompile (fun _ hq => hq) env s4.fs

theorem frames_localeLangStep (cfg : Config) (lang : String) :
    Frames (fun p => isUnder (locale_dir cfg) p) (localeLangStep cfg lang) := by
  have hsub : ∀ q, isUnder (locale_dir cfg ++ [lang, "LC_MESSAGES"]) q = true →
      isUnder (locale_dir cfg) q = true := by
    intro q hq
    exact isUnder_trans (isUnder_self_append (locale_dir cfg) [lang, "LC_MESSAGES"]) hq
  intro s
  unfold localeLangStep
  refine framedBy_bind_point ?_ (fun s1 => ?_)
  · split
    · exact framedBy_refl _ _
    · exact frames_mkdirM _ _ s
  · refine framedBy_bind_point (frames_copyIfExists hsub _ s1) (fun s2 => ?_)
    refine framedBy_bind_point (frames_copyIfExists hsub _ s2) (fun s3 => ?_)
    exact frames_copyIfExists hsub _ s3

theorem frames_stageLocale (cfg : Config) :
    Frames (fun p => isUnder (locale_dir cfg) p) (stageLocale cfg) := by
  intro s
  unfold stageLocale
  refine framedBy_bind_point (frames_cleanTree (fun _ hq => hq) s) (fun s1 => ?_)
  refine framedBy_bind_point (frames_copytreeM (fun _ hq => hq) _ s1) (fun s2 => ?_)
  split
  · exact frames_forEach (fun l => frames_localeLangStep cfg l) _ s2
  · exact framedBy_refl _ _

theorem frames_stageIscc (cfg : Config) (env : Env) (P : Path → Bool) :
    Frames P (stageIscc cfg env) := by
  intro s
  unfold stageIscc
  rw [run_command_st_fs]
  exact framedBy_refl P s.fs

theorem frames_mono {P P' : Path → Bool} (h : ∀ p, P p = true → P' p = true)
    {f : St → Step} (hf : Frames P f) : Frames P' f :=
  fun s => framedBy_mono h (hf s)

theorem underD_under3 (cfg : Config) :
    ∀ p, isUnder (dlls_dir cfg) p = true → under3 cfg p = true := by
  intro p hp
  simp [under3, hp]

theorem underG_under3 (cfg : Config) :
    ∀ p, isUnder (gschemas_dir cfg) p = true → under3 cfg p = true := by
  intro p hp
  simp [under3, hp]

theorem underL_under3 (cfg : Config) :
    ∀ p, isUnder (locale_dir cfg) p = true → under3 cfg p = true := by
  intro p hp
  simp [under3, hp]

theorem frames_first3 (cfg : Config) (env : Env) :
    Frames (under3 cfg) (first3 cfg env) := by
  intro s
  unfold first3
  refine framedBy_bind_point
    (frames_mono (underD_under3 cfg) (frames_stageDlls cfg env) s) (fun s1 => ?_)
  refine framedBy_bind_point
    (frames_mono (underG_under3 cfg) (frames_stageSchemas cfg env) s1) (fun s2 => ?_)
  exact frames_mono (underL_under3 cfg) (frames_stageLocale cfg) s2

theorem frames_inno_build (cfg : Config) (env : Env) :
    Frames (under3 cfg) (inno_build cfg env) := by
  intro s
  unfold inno_build
  refine framedBy_bind_point (frames_first3 cfg env s) (fun s' => ?_)
  exact frames_stageIscc cfg env (under3 cfg) s'

/-! ## Trace lemmas: every external command is checked -/

theorem good_ok_same {s s' : St} (h : s'.trace = s.trace) : GoodTrace s (.ok s') :=
  ⟨[], by simp [h], by simp⟩

theorem good_exc_same {s s' : St} (h : s'.trace = s.trace) : GoodTrace s (.exc s') :=
  ⟨[], by simp [h], by simp⟩

theorem good_run_command (status : Nat) (c m : String) (fs2 : Fs) (s : St) :
    GoodTrace s (run_command status c m ⟨fs2, s.trace⟩) := by
  unfold run_command
  split
  · next hz =>
      refine ⟨[⟨c, m, status⟩], rfl, ?_⟩
      intro e he
      have : e = ⟨c, m, status⟩ := by simpa using he
      rw [this]
      simpa using hz
  · next hnz =>
      refine ⟨[], status, by simp, ?_, by simp⟩
      intro h0
      rw [h0] at hnz
      exact hnz rfl

theorem good_bind_point {s : St} {r : Step} {k : St → Step}
    (hr : GoodTrace s r) (hk : ∀ s', GoodTrace s' (k s')) : GoodTrace s (r.bind k) := by
  cases r with
  | ok s' =>
      obtain ⟨pre₁, htr₁, hz₁⟩ := hr
      show GoodTrace s (k s')
      cases hks : k s' with
      | ok s'' =>
          obtain ⟨pre₂, htr₂, hz₂⟩ := by
            have := hk s'
            rw [hks] at this
            exact this
          refine ⟨pre₁ ++ pre₂, ?_, ?_⟩
          · rw [htr₂, htr₁, List.append_assoc]
          · intro e he
            rcases List.mem_append.1 he with h | h
            · exact hz₁ e h
            · exact hz₂ e h
      | exit1 m c s'' =>
          obtain ⟨pre₂, st, htr₂, hst, hz₂⟩ := by
            have := hk s'
            rw [hks] at this
            exact this
          refine ⟨pre₁ ++ pre₂, st, ?_, hst, ?_⟩
          · rw [htr₂, htr₁]
            simp [List.append_assoc]
          · intro e he
            rcases List.mem_append.1 he with h | h
            · exact hz₁ e h
            · exact hz₂ e h
      | exc s'' =>
          obtain ⟨pre₂, htr₂, hz₂⟩ := by
            have := hk s'
            rw [hks] at this
            exact this
          refine ⟨pre₁ ++ pre₂, ?_, ?_⟩
          · rw [htr₂, htr₁, List.append_assoc]
          · intro e he
            rcases List.mem_append.1 he with h | h
            · exact hz₁ e h
            · exact hz₂ e h
  | exit1 m c s' => exact hr
  | exc s' => exact hr

theorem good_forEach {α : Type} {f : α → St → Step}
    (hf : ∀ x s, GoodTrace s (f x s)) : ∀ (xs : List α) (s : St), GoodTrace s (forEach f xs s)
  | [], _ => good_ok_same rfl
  | x :: xs, s => good_bind_point (hf x s) (fun s' => good_forEach hf xs s')

theorem good_mkdirM (p : Path) (s : St) : GoodTrace s (mkdirM p s) := by
  unfold mkdirM
  split
  · exact good_exc_same rfl
  · split
    · exact good_ok_same rfl
    · exact good_exc_same rfl

theorem good_cleanTree (d : Path) (s : St) : GoodTrace s (cleanTree d s) := by
  unfold cleanTree
  split
  · split
    · exact good_ok_same rfl
    · exact good_exc_same rfl
  · exact good_ok_same rfl

theorem good_shutilCopy (src dst : Path) (s : St) : GoodTrace s (shutilCopy src dst s) := by
  unfold shutilCopy
  split
  · split
    · exact good_ok_same rfl
    · exact good_ok_same rfl
  · exact good_exc_same rfl

theorem good_copyIfExists (src dst : Path) (s : St) : GoodTrace s (copyIfExists src dst s) := by
  unfold copyIfExists
  split
  · exact good_shutilCopy src dst s
  · exact good_ok_same rfl

theorem good_copytreeM (src dst : Path) (s : St) : GoodTrace s (copytreeM src dst s) := by
  unfold copytreeM
  split
  · exact good_exc_same rfl
  · split
    · exact good_ok_same rfl
    · exact good_exc_same rfl

theorem good_collectAppDlls (cfg : Config) (env : Env) (s : St) :
    GoodTrace s (collectAppDlls cfg env s) :=
  good_run_command _ _ _ _ s

theorem good_collectLoaderDlls (cfg : Config) (env : Env) (loader : Path) (s : St) :
    GoodTrace s (collectLoaderDlls cfg env loader s) :=
  good_run_command _ _ _ _ s

theorem good_collectAngleDll (cfg : Config) (env : Env) (angle : Path) (s : St) :
    GoodTrace s (collectAngleDll cfg env angle s) := by
  unfold collectAngleDll
  exact good_bind_point (good_run_command _ _ _ _ s) (fun s' => good_run_command _ _ _ _ s')

theorem good_stageDlls (cfg : Config) (env : Env) (s : St) :
    GoodTrace s (stageDlls cfg env s) := by
  unfold stageDlls
  refine good_bind_point (good_cleanTree _ s) (fun s1 => ?_)
  refine good_bind_point (good_mkdirM _ s1) (fun s2 => ?_)
  refine good_bind_point (good_collectAppDlls cfg env s2) (fun s3 => ?_)
  refine good_bind_point
    (good_forEach (fun l s => good_collectLoaderDlls cfg env l s) _ s3) (fun s4 => ?_)
  exact good_forEach (fun a s => good_collectAngleDll cfg env a s) _ s4

theorem good_stageSchemas (cfg : Config) (env : Env) (s : St) :
    GoodTrace s (stageSchemas cfg env s) := by
  unfold stageSchemas
  refine good_bind_point (good_cleanTree _ s) (fun s1 => ?_)
  refine good_bind_point (good_mkdirM _ s1) (fun s2 => ?_)
  refine good_bind_point
    (good_forEach (fun src s => good_shutilCopy src _ s) _ s2) (fun s3 => ?_)
  refine good_bind_point (good_shutilCopy _ _ s3) (fun s4 => ?_)
  exact good_run_command _ _ _ _ s4

theorem good_localeLangStep (cfg : Config) (lang : String) (s : St) :
    GoodTrace s (localeLangStep cfg lang s) := by
  unfold localeLangStep
  refine good_bind_point ?_ (fun s1 => ?_)
  · split
    · exact good_ok_same rfl
    · exact good_mkdirM _ s
  · refine good_bind_point (good_copyIfExists _ _ s1) (fun s2 => ?_)
    refine good_bind_point (good_copyIfExists _ _ s2) (fun s3 => ?_)
    exact good_copyIfExists _ _ s3

theorem good_stageLocale (cfg : Config) (s : St) : GoodTrace s (stageLocale cfg s) := by
  unfold stageLocale
  refine good_bind_point (good_cleanTree _ s) (fun s1 => ?_)
  refine good_bind_point (good_copytreeM _ _ s1) (fun s2 => ?_)
  split
  · exact good_forEach (fun l s => good_localeLangStep cfg l s) _ s2
  · exact good_exc_same rfl

theorem good_stageIscc (cfg : Config) (env : Env) (s : St) :
    GoodTrace s (stageIscc cfg env s) := by
  unfold stageIscc
  exact good_run_command _ _ _ _ s

theorem good_first3 (cfg : Config) (env : Env) (s : St) : GoodTrace s (first3 cfg env s) := by
  unfold first3
  refine good_bind_point (good_stageDlls cfg env s) (fun s1 => ?_)
  refine good_bind_point (good_stageSchemas cfg env s1) (fun s2 => ?_)
  exact good_stageLocale cfg s2

theorem good_inno_build (cfg : Config) (env : Env) (s : St) :
    GoodTrace s (inno_build cfg env s) := by
  unfold inno_build
  exact good_bind_point (good_first3 cfg env s) (fun s' => good_stageIscc cfg env s')

/-! ## Inversion and preservation helpers -/

theorem bind_ok_inv {r : Step} {k : St → Step} {s' : St} (h : r.bind k = .ok s') :
    ∃ s₁, r = .ok s₁ ∧ k s₁ = .ok s' := by
  cases r with
  | ok s₁ => exact ⟨s₁, rfl, h⟩
  | exit1 m c s₁ => simp [Step.bind] at h
  | exc s₁ => simp [Step.bind] at h

theorem bind_ok_of {r : Step} {k : St → Step} {s₁ : St} (h : r = .ok s₁) :
    r.bind k = k s₁ := by
  rw [h]
  rfl

theorem mkdirM_ok_inv {p : Path} {s s₁ : St} (h : mkdirM p s = .ok s₁) :
    s₁ = ⟨addDir s.fs p, s.trace⟩ ∧ pathExists s.fs p = false
      ∧ isDir s.fs p.dropLast = true := by
  unfold mkdirM at h
  split at h
  · exact absurd h (by simp)
  · next hex =>
      split at h
      · next hpar => exact ⟨by cases h; rfl, by simpa using hex, hpar⟩
      · exact absurd h (by simp)

theorem isUnder_length : ∀ {a b : Path}, isUnder a b = true → a.length ≤ b.length
  | [], _, _ => Nat.zero_le _
  | _ :: _, [], h => by simp [isUnder] at h
  | x :: xs, y :: ys, h => by
      simp only [isUnder, Bool.and_eq_true] at h
      simpa using Nat.succ_le_succ (isUnder_length h.2)

theorem not_isUnder_extend (r : Path) (x : String) : isUnder (r ++ [x]) r = false := by
  cases hu : isUnder (r ++ [x]) r with
  | true =>
      have := isUnder_length hu
      simp at this
  | false => rfl

/-- Sibling subtrees with different head names are not nested. -/
theorem sibling_not_under {x y : String} (h : (x == y) = false) (r u : Path) :
    isUnder (r ++ [x]) (r ++ y :: u) = false := by
  rw [isUnder_append r [x] (y :: u)]
  simp [isUnder, h]

/-- General form: differently-headed extensions of the same root are
never nested. -/
theorem sibling_not_under2 {x y : String} (h : (x == y) = false) (r u v : Path) :
    isUnder (r ++ x :: u) (r ++ y :: v) = false := by
  rw [isUnder_append r (x :: u) (y :: v)]
  simp [isUnder, h]

/-- A script fragment that never changes the set of directories. -/
def DirsConst (f : St → Step) : Prop :=
  ∀ s, (Step.st (f s)).fs.dirs = s.fs.dirs

/-- A script fragment that never removes a directory. -/
def DirsMono (f : St → Step) : Prop :=
  ∀ s p, p ∈ s.fs.dirs → p ∈ (Step.st (f s)).fs.dirs

theorem lddCollect_dirs (dstDir : Path) :
    ∀ (ms : List Path) (fs : Fs), (lddCollect ms dstDir fs).1.dirs = fs.dirs := by
  intro ms
  induction ms with
  | nil => exact fun _ => rfl
  | cons src rest ih =>
      intro fs
      show (lddCollect rest dstDir (cpInto fs src dstDir).1).1.dirs = fs.dirs
      rw [ih]
      unfold cpInto
      cases readFile fs src with
      | some c => rfl
      | none => rfl

theorem dirsConst_collectAppDlls (cfg : Config) (env : Env) :
    DirsConst (collectAppDlls cfg env) := by
  intro s
  show (Step.st (run_command _ (lddGrepCmd (app_binary cfg) (dlls_dir cfg))
    "Collecting app DLLs failed"
    ⟨(lddCollect (env.lddMatches (app_binary cfg)) (dlls_dir cfg) s.fs).1, s.trace⟩)).fs.dirs
      = s.fs.dirs
  rw [run_command_st_fs]
  exact lddCollect_dirs _ _ _

theorem dirsConst_collectLoaderDlls (cfg : Config) (env : Env) (loader : Path) :
    DirsConst (collectLoaderDlls cfg env loader) := by
  intro s
  show (Step.st (run_command _ (lddGrepCmd loader (dlls_dir cfg))
    ("Collecting pixbuf-loader (" ++ pathStr loader ++ ") DLLs failed")
    ⟨(lddCollect (env.lddMatches loader) (dlls_dir cfg) s.fs).1, s.trace⟩)).fs.dirs
      = s.fs.dirs
  rw [run_command_st_fs]
  exact lddCollect_dirs _ _ _

theorem dirsConst_bind_point {r : Step} {k : St → Step}
    (hk : DirsConst k) : (Step.st (r.bind k)).fs.dirs = (Step.st r).fs.dirs := by
  cases r with
  | ok s' => exact hk s'
  | exit1 m c s' => rfl
  | exc s' => rfl

theorem dirsConst_collectAngleDll (cfg : Config) (env : Env) (angle : Path) :
    DirsConst (collectAngleDll cfg env angle) := by
  intro s
  unfold collectAngleDll
  rw [dirsConst_bind_point]
  · rw [run_command_st_fs]
    show (cpInto s.fs angle (dlls_dir cfg)).1.dirs = s.fs.dirs
    unfold cpInto
    cases readFile s.fs angle with
    | some c => rfl
    | none => rfl
  · intro s'
    rw [run_command_st_fs]
    exact lddCollect_dirs _ _ _

theorem dirsConst_forEach {α : Type} {f : α → St → Step}
    (hf : ∀ x, DirsConst (f x)) : ∀ (xs : List α), DirsConst (forEach f xs)
  | [] => fun _ => rfl
  | x :: xs => by
      intro s
      show (Step.st ((f x s).bind (forEach f xs))).fs.dirs = s.fs.dirs
      rw [dirsConst_bind_point (dirsConst_forEach hf xs)]
      exact hf x s

theorem dirsMono_bind_point {r : Step} {k : St → Step} {p : Path}
    (hk : DirsMono k) (hp : p ∈ (Step.st r).fs.dirs) : p ∈ (Step.st (r.bind k)).fs.dirs := by
  cases r with
  | ok s' => exact hk s' p hp
  | exit1 m c s' => exact hp
  | exc s' => exact hp

theorem dirsMono_forEach {α : Type} {f : α → St → Step}
    (hf : ∀ x, DirsMono (f x)) : ∀ (xs : List α), DirsMono (forEach f xs)
  | [] => fun _ _ hp => hp
  | x :: xs => by
      intro s p hp
      show p ∈ (Step.st ((f x s).bind (forEach f xs))).fs.dirs
      exact dirsMono_bind_point (dirsMono_forEach hf xs) (hf x s p hp)

theorem dirsMono_mkdirM (q : Path) : DirsMono (mkdirM q) := by
  intro s p hp
  unfold mkdirM
  split
  · exact hp
  · split
    · exact List.mem_cons_of_mem _ hp
    · exact hp

theorem dirsMono_shutilCopy (src dst : Path) : DirsMono (shutilCopy src dst) := by
  intro s p hp
  unfold shutilCopy
  split
  · split
    · exact hp
    · exact hp
  · exact hp

theorem dirsMono_copyIfExists (src dst : Path) : DirsMono (copyIfExists src dst) := by
  intro s p hp
  unfold copyIfExists
  split
  · exact dirsMono_shutilCopy src dst s p hp
  · exact hp

theorem dirsMono_localeLangStep (cfg : Config) (lang : String) :
    DirsMono (localeLangStep cfg lang) := by
  intro s p hp
  unfold localeLangStep
  refine dirsMono_bind_point ?_ ?_
  · intro s1 q hq
    refine dirsMono_bind_point ?_ ?_
    · intro s2 q2 hq2
      refine dirsMono_bind_point ?_ ?_
      · intro s3 q3 hq3
        exact dirsMono_copyIfExists _ _ s3 q3 hq3
      · exact dirsMono_copyIfExists _ _ s2 q2 hq2
    · exact dirsMono_copyIfExists _ _ s1 q hq
  · split
    · exact hp
    · exact dirsMono_mkdirM _ s p hp

theorem copytreeM_ok_inv {src dst : Path} {s s₁ : St} (h : copytreeM src dst s = .ok s₁) :
    s₁ = ⟨⟨treeFiles s.fs src dst ++ s.fs.files,
           missingAnc s.fs dst ++ [dst] ++ treeDirs s.fs src dst ++ s.fs.dirs⟩, s.trace⟩
      ∧ pathExists s.fs dst = false ∧ isDir s.fs src = true := by
  unfold copytreeM at h
  split at h
  · exact absurd h (by simp)
  · next hex =>
      split at h
      · next hsrc => exact ⟨by cases h; rfl, by simpa using hex, hsrc⟩
      · exact absurd h (by simp)

theorem cleanTree_ok_inv {d : Path} {s s₁ : St} (h : cleanTree d s = .ok s₁) :
    s₁.trace = s.trace ∧
      ((pathExists s.fs d = true ∧ isDir s.fs d = true ∧ s₁.fs = removeTree s.fs d) ∨
       (pathExists s.fs d = false ∧ s₁.fs = s.fs)) := by
  unfold cleanTree at h
  split at h
  · next hex =>
      split at h
      · next hdir => exact ⟨by cases h; rfl, Or.inl ⟨hex, hdir, by cases h; rfl⟩⟩
      · exact absurd h (by simp)
  · next hex =>
      cases h
      exact ⟨rfl, Or.inr ⟨by simpa using hex, rfl⟩⟩

theorem stageDlls_ok_dlls {cfg : Config} {env : Env} {s s' : St}
    (h : stageDlls cfg env s = .ok s') : dlls_dir cfg ∈ s'.fs.dirs := by
  unfold stageDlls at h
  obtain ⟨s1, h1, h⟩ := bind_ok_inv h
  obtain ⟨s2, h2, h⟩ := bind_ok_inv h
  obtain ⟨s3, h3, h⟩ := bind_ok_inv h
  obtain ⟨s4, h4, h⟩ := bind_ok_inv h
  obtain ⟨hs2, _, _⟩ := mkdirM_ok_inv h2
  have hd2 : dlls_dir cfg ∈ s2.fs.dirs := by
    rw [hs2]
    exact List.mem_cons_self _ _
  have hd3 : s3.fs.dirs = s2.fs.dirs := by
    have := dirsConst_collectAppDlls cfg env s2
    rw [h3] at this
    exact this
  have hd4 : s4.fs.dirs = s3.fs.dirs := by
    have := dirsConst_forEach (fun l => dirsConst_collectLoaderDlls cfg env l)
      (globFiles s3.fs (loaders_dir cfg) dllName) s3
    rw [h4] at this
    exact this
  have hd5 : s'.fs.dirs = s4.fs.dirs := by
    have := dirsConst_forEach (fun a => dirsConst_collectAngleDll cfg env a)
      (globFiles s4.fs (bin_dir cfg) eglName ++ globFiles s4.fs (bin_dir cfg) glesName) s4
    rw [h] at this
    exact this
  rw [hd5, hd4, hd3]
  exact hd2

theorem dirsConst_shutilCopy (src dst : Path) : DirsConst (shutilCopy src dst) := by
  intro s
  unfold shutilCopy
  split
  · split
    · rfl
    · rfl
  · rfl

theorem glibCompile_dirs (env : Env) (d : Path) (fs : Fs) :
    (glibCompile env d fs).1.dirs = fs.dirs := by
  unfold glibCompile
  cases env.compileSchemas (schemaInput fs d) with
  | some c => rfl
  | none => rfl

theorem stageSchemas_ok_gsch {cfg : Config} {env : Env} {s s' : St}
    (h : stageSchemas cfg env s = .ok s') : gschemas_dir cfg ∈ s'.fs.dirs := by
  unfold stageSchemas at h
  obtain ⟨s1, h1, h⟩ := bind_ok_inv h
  obtain ⟨s2, h2, h⟩ := bind_ok_inv h
  obtain ⟨s3, h3, h⟩ := bind_ok_inv h
  obtain ⟨s4, h4, h⟩ := bind_ok_inv h
  obtain ⟨hs2, _, _⟩ := mkdirM_ok_inv h2
  have hd2 : gschemas_dir cfg ∈ s2.fs.dirs := by
    rw [hs2]
    exact List.mem_cons_self _ _
  have hd3 : s3.fs.dirs = s2.fs.dirs := by
    have := dirsConst_forEach
      (fun src => dirsConst_shutilCopy src (gschemas_dir cfg))
      (globFiles s2.fs (system_schemas_dir cfg) orgGtkName) s2
    rw [h3] at this
    exact this
  have hd4 : s4.fs.dirs = s3.fs.dirs := by
    have := dirsConst_shutilCopy (app_schema_src cfg) (gschemas_dir cfg) s3
    rw [h4] at this
    exact this
  have hd5 : s'.fs.dirs = s4.fs.dirs := by
    have h5 : (Step.st (run_command (glibCompile env (gschemas_dir cfg) s4.fs).2
        (glibCmd cfg) "Compiling schemas failed"
        ⟨(glibCompile env (gschemas_dir cfg) s4.fs).1, s4.trace⟩)).fs.dirs = s4.fs.dirs := by
      rw [run_command_st_fs]
      exact glibCompile_dirs env _ s4.fs
    rw [h] at h5
    exact h5
  rw [hd5, hd4, hd3]
  exact hd2

theorem stageLocale_ok_locale {cfg : Config} {s s' : St}
    (h : stageLocale cfg s = .ok s') : locale_dir cfg ∈ s'.fs.dirs := by
  unfold stageLocale at h
  obtain ⟨s1, h1, h⟩ := bind_ok_inv h
  obtain ⟨s2, h2, h⟩ := bind_ok_inv h
  obtain ⟨hs2, _, _⟩ := copytreeM_ok_inv h2
  have hd2 : locale_dir cfg ∈ s2.fs.dirs := by
    rw [hs2]
    simp
  split at h
  · have := dirsMono_forEach (fun l => dirsMono_localeLangStep cfg l)
      (childrenOf s2.fs (app_mo_dir cfg)) s2 _ hd2
    rw [h] at this
    exact this
  · exact absurd h (by simp)

theorem framedBy_readFile {P : Path → Bool} {fs fs' : Fs} (h : framedBy P fs fs')
    {p : Path} (hp : P p = false) : readFile fs' p = readFile fs p := by
  have hc : ∀ e : Path × String, (e.1 == p) = true → (!(P e.1)) = true := by
    intro e he
    have : e.1 = p := by simpa [beq_iff_eq] using he
    simp [this, hp]
  unfold readFile
  rw [find?_filter_sub hc fs'.files, h.1, ← find?_filter_sub hc fs.files]

theorem gsch_not_under_locale (cfg : Config) :
    isUnder (locale_dir cfg) (gschemas_dir cfg) = false :=
  sibling_not_under (by decide) cfg.build_root []

theorem dlls_not_under_locale (cfg : Config) :
    isUnder (locale_dir cfg) (dlls_dir cfg) = false :=
  sibling_not_under (by decide) cfg.build_root []

theorem dlls_not_under_gsch (cfg : Config) :
    isUnder (gschemas_dir cfg) (dlls_dir cfg) = false :=
  sibling_not_under (by decide) cfg.build_root []

/-- After stages 1-3 succeed, all three working directories exist. -/
theorem first3_ok_dirs {cfg : Config} {env : Env} {s s₃ : St}
    (h : first3 cfg env s = .ok s₃) :
    dlls_dir cfg ∈ s₃.fs.dirs ∧ gschemas_dir cfg ∈ s₃.fs.dirs
      ∧ locale_dir cfg ∈ s₃.fs.dirs := by
  unfold first3 at h
  obtain ⟨s1, h1, h⟩ := bind_ok_inv h
  obtain ⟨s2, h2, h3⟩ := bind_ok_inv h
  have hdll1 : dlls_dir cfg ∈ s1.fs.dirs := stageDlls_ok_dlls h1
  have hdll2 : dlls_dir cfg ∈ s2.fs.dirs := by
    have hf := frames_stageSchemas cfg env s1
    rw [h2] at hf
    exact hf.2 _ (dlls_not_under_gsch cfg) hdll1
  have hdll3 : dlls_dir cfg ∈ s₃.fs.dirs := by
    have hf := frames_stageLocale cfg s2
    rw [h3] at hf
    exact hf.2 _ (dlls_not_under_locale cfg) hdll2
  have hg2 : gschemas_dir cfg ∈ s2.fs.dirs := stageSchemas_ok_gsch h2
  have hg3 : gschemas_dir cfg ∈ s₃.fs.dirs := by
    have hf := frames_stageLocale cfg s2
    rw [h3] at hf
    exact hf.2 _ (gsch_not_under_locale cfg) hg2
  exact ⟨hdll3, hg3, stageLocale_ok_locale h3⟩

/-! ## The claims -/

/-- C10: the pipeline script deletes only the three working directories
`dlls/`, `gschemas/` and `locale/` under the build root; whatever the
outcome of the run, every filesystem path outside those three subtrees
keeps exactly its content (files) and is never removed (directories). -/
theorem c10_only_working_dirs_removed (cfg : Config) (env : Env) (s : St) :
    ∀ p, under3 cfg p = false →
      readFile (Step.st (inno_build cfg env s)).fs p = readFile s.fs p ∧
      (p ∈ s.fs.dirs → p ∈ (Step.st (inno_build cfg env s)).fs.dirs) := by
  intro p hp
  have hf := frames_inno_build cfg env s
  exact ⟨framedBy_readFile hf hp, hf.2 p hp⟩

/-- Witness for C10 at a concrete run: a file and a directory of the
runtime environment are untouched by a full pipeline run. -/
theorem c10_witness :
    readFile (Step.st (inno_build cfgW envW ⟨fsW, []⟩)).fs ["m", "bin", "libEGL.dll"]
        = readFile fsW ["m", "bin", "libEGL.dll"] ∧
      (["m", "bin"] ∈ fsW.dirs → ["m", "bin"] ∈ (Step.st (inno_build cfgW envW ⟨fsW, []⟩)).fs.dirs) := by
  refine ⟨(c10_only_working_dirs_removed cfgW envW ⟨fsW, []⟩ ["m", "bin", "libEGL.dll"]
    (by decide)).1, (c10_only_working_dirs_removed cfgW envW ⟨fsW, []⟩ ["m", "bin"]
    (by decide)).2⟩

/-- C2: every stage's external command is run through `run_command`:
when the pipeline stops with `sys.exit(1)`, the failing command was the
last one invoked, its status was non-zero, every earlier command had
returned 0, and the stage message and the literal command are the ones
printed; the process exit status is 0 exactly on the `ok` outcome, in
which case every invoked command returned 0. -/
theorem c2_fail_fast (cfg : Config) (env : Env) (s : St) :
    (∀ m c s', inno_build cfg env s = .exit1 m c s' →
        pyExit (inno_build cfg env s) = 1 ∧
        ∃ pre st, s'.trace = s.trace ++ pre ++ [⟨c, m, st⟩] ∧ st ≠ 0 ∧ ∀ e ∈ pre, e.status = 0)
  ∧ (∀ s', inno_build cfg env s = .ok s' →
        pyExit (inno_build cfg env s) = 0 ∧
        ∃ pre, s'.trace = s.trace ++ pre ∧ ∀ e ∈ pre, e.status = 0)
  ∧ (∀ s', inno_build cfg env s = .exc s' → pyExit (inno_build cfg env s) = 1) := by
  have hg := good_inno_build cfg env s
  refine ⟨?_, ?_, ?_⟩
  · intro m c s' h
    rw [h] at hg ⊢
    exact ⟨rfl, hg⟩
  · intro s' h
    rw [h] at hg ⊢
    exact ⟨rfl, hg⟩
  · intro s' h
    rw [h]
    rfl

/-- Witness for C2 at a concrete run where `iscc` fails: the process
exit status is 1. -/
theorem c2_witness : pyExit (inno_build cfgW envWIsccFail ⟨fsW, []⟩) = 1 := by
  refine ((c2_fail_fast cfgW envWIsccFail ⟨fsW, []⟩).1 "Running ISCC failed" (isccCmd cfgW)
    (Step.st (inno_build cfgW envWIsccFail ⟨fsW, []⟩)) ?_).1
  rfl

/-! ## More inversion lemmas -/

theorem bind_exit1_inv {r : Step} {k : St → Step} {m c : String} {s' : St}
    (h : r.bind k = .exit1 m c s') :
    r = .exit1 m c s' ∨ ∃ s₁, r = .ok s₁ ∧ k s₁ = .exit1 m c s' := by
  cases r with
  | ok s₁ => exact Or.inr ⟨s₁, rfl, h⟩
  | exit1 m₁ c₁ s₁ => exact Or.inl h
  | exc s₁ => simp [Step.bind] at h

theorem run_command_exit1_inv {status : Nat} {c0 m0 : String} {s : St} {m c : String} {s' : St}
    (h : run_command status c0 m0 s = .exit1 m c s') :
    m = m0 ∧ c = c0 ∧ status ≠ 0
      ∧ s' = ⟨s.fs, s.trace ++ [⟨c0, m0, status⟩]⟩ := by
  unfold run_command at h
  split at h
  · exact absurd h (by simp)
  · next hnz =>
      cases h
      refine ⟨rfl, rfl, ?_, rfl⟩
      intro h0
      rw [h0] at hnz
      exact hnz rfl

theorem run_command_ok_inv {status : Nat} {c0 m0 : String} {s s' : St}
    (h : run_command status c0 m0 s = .ok s') :
    status = 0 ∧ s' = ⟨s.fs, s.trace ++ [⟨c0, m0, status⟩]⟩ := by
  unfold run_command at h
  split at h
  · next hz =>
      cases h
      exact ⟨by simpa using hz, rfl⟩
  · exact absurd h (by simp)

theorem cleanTree_not_exit1 {d : Path} {s : St} {m c : String} {s' : St} :
    cleanTree d s ≠ .exit1 m c s' := by
  unfold cleanTree
  split
  · split
    · simp
    · simp
  · simp

theorem mkdirM_not_exit1 {p : Path} {s : St} {m c : String} {s' : St} :
    mkdirM p s ≠ .exit1 m c s' := by
  unfold mkdirM
  split
  · simp
  · split
    · simp
    · simp

theorem shutilCopy_not_exit1 {src dst : Path} {s : St} {m c : String} {s' : St} :
    shutilCopy src dst s ≠ .exit1 m c s' := by
  unfold shutilCopy
  split
  · split
    · simp
    · simp
  · simp

theorem copytreeM_not_exit1 {src dst : Path} {s : St} {m c : String} {s' : St} :
    copytreeM src dst s ≠ .exit1 m c s' := by
  unfold copytreeM
  split
  · simp
  · split
    · simp
    · simp

theorem forEach_not_exit1 {α : Type} {f : α → St → Step}
    (hf : ∀ x s m c s', f x s ≠ .exit1 m c s') :
    ∀ (xs : List α) (s : St) (m c : String) (s' : St), forEach f xs s ≠ .exit1 m c s' := by
  intro xs
  induction xs with
  | nil => intro s m c s' h; simp [forEach] at h
  | cons x xs ih =>
      intro s m c s' h
      rcases bind_exit1_inv h with h1 | ⟨s₁, _, h2⟩
      · exact hf x s m c s' h1
      · exact ih s₁ m c s' h2

/-- The only `run_command` of stage 2 is the schema compiler: an `exit1`
outcome of stage 2 carries the schema-stage message and command, and
means the schema compiler rejected its input. -/
theorem stageSchemas_exit1_inv {cfg : Config} {env : Env} {s : St} {m c : String} {s₂ : St}
    (h : stageSchemas cfg env s = .exit1 m c s₂) :
    m = "Compiling schemas failed" ∧ c = glibCmd cfg ∧
      ∃ s₄ : St, env.compileSchemas (schemaInput s₄.fs (gschemas_dir cfg)) = none
        ∧ s₂ = ⟨s₄.fs, s₄.trace ++ [⟨glibCmd cfg, "Compiling schemas failed", 1⟩]⟩ := by
  unfold stageSchemas at h
  rcases bind_exit1_inv h with h1 | ⟨s1, _, h⟩
  · exact absurd h1 cleanTree_not_exit1
  rcases bind_exit1_inv h with h1 | ⟨s2, _, h⟩
  · exact absurd h1 mkdirM_not_exit1
  rcases bind_exit1_inv h with h1 | ⟨s3, _, h⟩
  · exact absurd h1 (forEach_not_exit1 (fun x s m c s' => shutilCopy_not_exit1) _ _ _ _ _)
  rcases bind_exit1_inv h with h1 | ⟨s4, _, h⟩
  · exact absurd h1 shutilCopy_not_exit1
  obtain ⟨hm, hc, hnz, hs⟩ := run_command_exit1_inv h
  have hnone : env.compileSchemas (schemaInput s4.fs (gschemas_dir cfg)) = none := by
    cases hcs : env.compileSchemas (schemaInput s4.fs (gschemas_dir cfg)) with
    | some cc =>
        exfalso
        apply hnz
        show (glibCompile env (gschemas_dir cfg) s4.fs).2 = 0
        unfold glibCompile
        rw [hcs]
    | none => rfl
  have hval : glibCompile env (gschemas_dir cfg) s4.fs = (s4.fs, 1) := by
    unfold glibCompile
    rw [hnone]
  refine ⟨hm, hc, s4, hnone, ?_⟩
  rw [hs]
  simp only [hval]

/-- C9: when stages 1-3 completed and `iscc` returns a non-zero status,
the process exits with status 1 reporting the ISCC failure (message and
literal command), the filesystem is exactly the one left by stage 3 (no
cleanup on abort), and the three working directories are still on
disk. -/
theorem c9_iscc_failure {cfg : Config} {env : Env} {s s₃ : St}
    (h3 : first3 cfg env s = .ok s₃) (hi : env.isccStatus ≠ 0) :
    inno_build cfg env s = .exit1 "Running ISCC failed" (isccCmd cfg)
        ⟨s₃.fs, s₃.trace ++ [⟨isccCmd cfg, "Running ISCC failed", env.isccStatus⟩]⟩
      ∧ pyExit (inno_build cfg env s) = 1
      ∧ (Step.st (inno_build cfg env s)).fs = s₃.fs
      ∧ dlls_dir cfg ∈ (Step.st (inno_build cfg env s)).fs.dirs
      ∧ gschemas_dir cfg ∈ (Step.st (inno_build cfg env s)).fs.dirs
      ∧ locale_dir cfg ∈ (Step.st (inno_build cfg env s)).fs.dirs := by
  have heq : inno_build cfg env s = .exit1 "Running ISCC failed" (isccCmd cfg)
      ⟨s₃.fs, s₃.trace ++ [⟨isccCmd cfg, "Running ISCC failed", env.isccStatus⟩]⟩ := by
    unfold inno_build
    rw [bind_ok_of h3]
    unfold stageIscc run_command
    rw [if_neg (fun hh => hi (by simpa using hh))]
  obtain ⟨hd, hg, hl⟩ := first3_ok_dirs h3
  rw [heq]
  exact ⟨rfl, rfl, rfl, hd, hg, hl⟩

/-- Witness for C9 at a concrete run where `iscc` fails: the `locale/`
directory is still on disk afterwards. -/
theorem c9_witness :
    locale_dir cfgW ∈ (Step.st (inno_build cfgW envWIsccFail ⟨fsW, []⟩)).fs.dirs := by
  refine (@c9_iscc_failure cfgW envWIsccFail ⟨fsW, []⟩
    (Step.st (first3 cfgW envWIsccFail ⟨fsW, []⟩)) ?_ (by decide)).2.2.2.2.2
  rfl

/-- C7: ordering of the pipeline.  First part: when stage 1 succeeded
and stage 2 stopped with `sys.exit(1)`, the failure is necessarily the
schema compiler rejecting its input, the whole pipeline exits with
status 1 carrying that same message and command, and every path below
`locale/` still has its original content (the locale stage never ran).
Second part: an overall success means stages 1-3 all completed and the
installer compiler was the last command invoked, after them. -/
theorem c7_ordering (cfg : Config) (env : Env) :
    (∀ s s1 m c s2, stageDlls cfg env s = .ok s1 →
        stageSchemas cfg env s1 = .exit1 m c s2 →
        m = "Compiling schemas failed" ∧ c = glibCmd cfg ∧
        inno_build cfg env s = .exit1 m c s2 ∧
        pyExit (inno_build cfg env s) = 1 ∧
        (∀ p, isUnder (locale_dir cfg) p = true → readFile s2.fs p = readFile s.fs p))
  ∧ (∀ s s', inno_build cfg env s = .ok s' →
        ∃ s₃, first3 cfg env s = .ok s₃ ∧ env.isccStatus = 0 ∧ s'.fs = s₃.fs ∧
          s'.trace = s₃.trace ++ [⟨isccCmd cfg, "Running ISCC failed", env.isccStatus⟩]) := by
  constructor
  · intro s s1 m c s2 h1 h2
    obtain ⟨hm, hc, _⟩ := stageSchemas_exit1_inv h2
    have hf : first3 cfg env s = .exit1 m c s2 := by
      unfold first3
      rw [bind_ok_of h1]
      show (stageSchemas cfg env s1).bind _ = _
      rw [h2]
      rfl
    have heq : inno_build cfg env s = .exit1 m c s2 := by
      unfold inno_build
      rw [hf]
      rfl
    refine ⟨hm, hc, heq, by rw [heq]; rfl, ?_⟩
    intro p hp
    have hD : isUnder (dlls_dir cfg) p = false := by
      cases hu : isUnder (dlls_dir cfg) p with
      | true =>
          exact (isUnder_disjoint (show ("dlls" : String) ≠ "locale" by decide) hu hp).elim
      | false => rfl
    have hG : isUnder (gschemas_dir cfg) p = false := by
      cases hu : isUnder (gschemas_dir cfg) p with
      | true =>
          exact (isUnder_disjoint (show ("gschemas" : String) ≠ "locale" by decide) hu hp).elim
      | false => rfl
    have hf1 := frames_stageDlls cfg env s
    rw [h1] at hf1
    have hf2 := frames_stageSchemas cfg env s1
    rw [h2] at hf2
    simp only [Step.st] at hf1 hf2
    rw [framedBy_readFile hf2 hG]
    exact framedBy_readFile hf1 hD
  · intro s s' h
    unfold inno_build at h
    obtain ⟨s₃, h3, hi⟩ := bind_ok_inv h
    obtain ⟨hz, hs'⟩ := run_command_ok_inv hi
    exact ⟨s₃, h3, hz, by rw [hs'], by rw [hs']⟩

/-- Witness for C7 at a concrete run whose schema compiler rejects the
schemas: the process exits with status 1. -/
theorem c7_witness : pyExit (inno_build cfgW envWSchemaFail ⟨fsW, []⟩) = 1 := by
  have h1 : stageDlls cfgW envWSchemaFail ⟨fsW, []⟩
      = .ok (Step.st (stageDlls cfgW envWSchemaFail ⟨fsW, []⟩)) := rfl
  have h2 : stageSchemas cfgW envWSchemaFail (Step.st (stageDlls cfgW envWSchemaFail ⟨fsW, []⟩))
      = .exit1 "Compiling schemas failed" (glibCmd cfgW)
        (Step.st (stageSchemas cfgW envWSchemaFail
          (Step.st (stageDlls cfgW envWSchemaFail ⟨fsW, []⟩)))) := rfl
  exact ((c7_ordering cfgW envWSchemaFail).1 _ _ _ _ _ h1 h2).2.2.2.1

/-- C5 counterexample: in `cargo.py`, a cargo invocation returning
status 1 does not abort the run - the copy command still runs and the
script finishes with exit status 0.  This refutes the claim that in
every script of the repository each external-command invocation is
checked at the call site with non-zero aborting the run. -/
theorem c5_counterexample :
    (cargo_py cargoArgsW cargoOracleW).1 = 0 ∧
    (cargo_py cargoArgsW cargoOracleW).2.map (fun e => e.2) = [1, 0] := by
  constructor
  · rfl
  · rfl

/-- C5 amended: `inno_build.py` and `cargo_build.py` check every
external-command status at the call site and abort with exit status 1
on a non-zero status (in `cargo_build.py` the second command is not
even attempted after a cargo failure); `cargo.py`, `cargo_build_win.py`
and `meson_post_install.py` invoke their external commands without
inspecting the returned status and always finish with exit status 0. -/
theorem c5_status_checking :
    (∀ (a : CargoBuildArgs) (sys : String → Nat), sys (cargo_call a) ≠ 0 →
        cargo_build_py a sys = (1, [(cargo_call a, sys (cargo_call a))]))
  ∧ (∀ (a : CargoBuildArgs) (sys : String → Nat),
        sys (cargo_call a) = 0 → sys (cp_call a) ≠ 0 →
        cargo_build_py a sys = (1, [(cargo_call a, sys (cargo_call a)),
                                    (cp_call a, sys (cp_call a))]))
  ∧ (∀ (cfg : Config) (env : Env) (s s' : St), inno_build cfg env s = .ok s' →
        ∃ pre, s'.trace = s.trace ++ pre ∧ ∀ e ∈ pre, e.status = 0)
  ∧ (∀ (a : CargoArgs) (call : List String → Nat), (cargo_py a call).1 = 0)
  ∧ (∀ (a : CargoBuildArgs) (sys : String → Nat), (cargo_build_win_py a sys).1 = 0)
  ∧ (∀ (platform destdir : String) (a : PostInstallArgs) (call : List String → Nat),
        (meson_post_install_py platform destdir a call).1 = 0) := by
  refine ⟨?_, ?_, ?_, ?_, ?_, ?_⟩
  · intro a sys h
    unfold cargo_build_py
    rw [if_pos (by simpa using h)]
  · intro a sys h0 h
    unfold cargo_build_py
    rw [if_neg (by simp [h0]), if_pos (by simpa using h)]
  · intro cfg env s s' h
    have hg := good_inno_build cfg env s
    rw [h] at hg
    exact hg
  · intro a call
    rfl
  · intro a sys
    rfl
  · intro platform destdir a call
    unfold meson_post_install_py
    split
    · rfl
    · rfl

/-- Witness for C5 at concrete arguments: `cargo_build.py` aborts with
exit status 1 on a failing cargo call. -/
theorem c5_witness :
    cargo_build_py cargoBuildArgsW sysFailCargoW = (1, [(cargo_call cargoBuildArgsW, 1)]) := by
  have h := c5_status_checking.1 cargoBuildArgsW sysFailCargoW (by decide)
  simpa using h

/-! ## Read-after-write lemmas, used for claims about the copies -/

theorem readFile_writeFile_self (fs : Fs) (p : Path) (c : String) :
    readFile (writeFile fs p c) p = some c := by
  unfold readFile writeFile
  rw [List.find?_cons_of_pos _ (by simp)]
  rfl

theorem readFile_writeFile_ne {p q : Path} (h : q ≠ p) (fs : Fs) (c : String) :
    readFile (writeFile fs p c) q = readFile fs q := by
  unfold readFile writeFile
  rw [List.find?_cons_of_neg _ (by simp [beq_iff_eq]; intro hh; exact h hh.symm)]
  have hc : ∀ e : Path × String, (e.1 == q) = true → (!(e.1 == p)) = true := by
    intro e he
    have h1 : e.1 = q := by simpa [beq_iff_eq] using he
    have h2 : (e.1 == p) = false := by
      cases hb : (e.1 == p) with
      | true =>
          have h3 := beq_iff_eq.1 hb
          rw [h1] at h3
          exact absurd h3 h
      | false => rfl
    simp [h2]
  rw [← find?_filter_sub hc fs.files]

theorem getLast?_cons_ne {α : Type} (x : α) {l : List α} (h : l ≠ []) :
    (x :: l).getLast? = l.getLast? := by
  cases l with
  | nil => exact absurd rfl h
  | cons y ys => simp [List.getLast?]

theorem cpInto_ok {fs : Fs} {src : Path} {cc : String} (h : readFile fs src = some cc)
    (dstDir : Path) :
    cpInto fs src dstDir = (writeFile fs (dstDir ++ [baseName src]) cc, 0) := by
  unfold cpInto
  rw [h]

/-- A collection run never touches a target name that none of the
sources carries. -/
theorem lddCollect_preserve {dstDir : Path} {n : String} :
    ∀ (ms : List Path) (fs : Fs), (∀ q ∈ ms, (baseName q == n) = false) →
      readFile (lddCollect ms dstDir fs).1 (dstDir ++ [n])
        = readFile fs (dstDir ++ [n]) := by
  intro ms
  induction ms with
  | nil => intro fs _; rfl
  | cons q rest ih =>
      intro fs hq
      show readFile (lddCollect rest dstDir (cpInto fs q dstDir).1).1 (dstDir ++ [n]) = _
      rw [ih _ (fun r hr => hq r (List.mem_cons_of_mem q hr))]
      unfold cpInto
      cases hr : readFile fs q with
      | some cc =>
          have hne : dstDir ++ [n] ≠ dstDir ++ [baseName q] := by
            intro heq
            have h1 : n = baseName q := by
              have := List.append_cancel_left heq
              simpa using this
            have := hq q (List.mem_cons_self q rest)
            rw [← h1] at this
            simp at this
          exact readFile_writeFile_ne hne fs cc
      | none => rfl

/-- C4 amended: in the dependency-collection loop every matched file is
copied into the collection directory, and a later matched file with the
same base name overwrites the earlier copy - the last copy wins, no
copy is skipped.  With all sources readable the collection status is 0,
and each collected name holds the content of the last matched source
carrying that name. -/
theorem c4_overwrite_last_wins {dstDir : Path} :
    ∀ (ms : List Path) (fs : Fs),
      (∀ src ∈ ms, isUnder dstDir src = false ∧ ∃ cc, readFile fs src = some cc) →
      (lddCollect ms dstDir fs).2 = 0 ∧
      (∀ n t, (ms.filter (fun q => baseName q == n)).getLast? = some t →
        readFile (lddCollect ms dstDir fs).1 (dstDir ++ [n]) = readFile fs t) := by
  intro ms
  induction ms with
  | nil =>
      intro fs _
      exact ⟨rfl, by intro n t h; simp at h⟩
  | cons src rest ih =>
      intro fs hok
      obtain ⟨hsL, cc, hread⟩ := hok src (List.mem_cons_self src rest)
      have hwp : isUnder dstDir (dstDir ++ [baseName src]) = true :=
        isUnder_self_append dstDir [baseName src]
      have hpres : ∀ r ∈ rest, isUnder dstDir r = false ∧
          ∃ cc2, readFile (cpInto fs src dstDir).1 r = some cc2 := by
        intro r hr
        obtain ⟨h1, cc2, h2⟩ := hok r (List.mem_cons_of_mem src hr)
        refine ⟨h1, cc2, ?_⟩
        rw [cpInto_ok hread]
        have hne : r ≠ dstDir ++ [baseName src] := by
          intro heq
          rw [heq, hwp] at h1
          exact absurd h1 (by simp)
        rw [readFile_writeFile_ne hne]
        exact h2
      have hsame : ∀ r ∈ rest, readFile (cpInto fs src dstDir).1 r = readFile fs r := by
        intro r hr
        obtain ⟨h1, cc2, h2⟩ := hok r (List.mem_cons_of_mem src hr)
        rw [cpInto_ok hread]
        have hne : r ≠ dstDir ++ [baseName src] := by
          intro heq
          rw [heq, hwp] at h1
          exact absurd h1 (by simp)
        rw [readFile_writeFile_ne hne]
      obtain ⟨ihst, ihlast⟩ := ih (cpInto fs src dstDir).1 hpres
      constructor
      · show (if (cpInto fs src dstDir).2 == 0 then
            (lddCollect rest dstDir (cpInto fs src dstDir).1).2 else 123) = 0
        rw [cpInto_ok hread] at ihst ⊢
        simpa using ihst
      · intro n t hlast
        show readFile (lddCollect rest dstDir (cpInto fs src dstDir).1).1 (dstDir ++ [n])
          = readFile fs t
        by_cases hrest : rest.filter (fun q => baseName q == n) = []
        · have hz : ∀ q ∈ rest, (baseName q == n) = false := by
            intro q hq
            cases hb : (baseName q == n) with
            | true =>
                have : q ∈ rest.filter (fun q => baseName q == n) :=
                  List.mem_filter.2 ⟨hq, hb⟩
                rw [hrest] at this
                simp at this
            | false => rfl
          rw [lddCollect_preserve rest _ hz]
          cases hb : (baseName src == n) with
          | true =>
              have hfeq : (src :: rest).filter (fun q => baseName q == n) = [src] := by
                rw [List.filter_cons, if_pos (by simp [hb]), hrest]
              rw [hfeq] at hlast
              have ht : t = src := by
                have h5 : src = t := by simpa using hlast
                exact h5.symm
              rw [cpInto_ok hread]
              have hn : n = baseName src := by
                have := (beq_iff_eq.1 hb)
                exact this.symm
              rw [ht, hn, readFile_writeFile_self, hread]
          | false =>
              have hfeq : (src :: rest).filter (fun q => baseName q == n)
                  = rest.filter (fun q => baseName q == n) := by
                rw [List.filter_cons, if_neg (by simp [hb])]
              rw [hfeq, hrest] at hlast
              simp at hlast
        · cases hb : (baseName src == n) with
          | true =>
              have hfeq : (src :: rest).filter (fun q => baseName q == n)
                  = src :: rest.filter (fun q => baseName q == n) := by
                rw [List.filter_cons, if_pos (by simp [hb])]
              rw [hfeq, getLast?_cons_ne src hrest] at hlast
              have ht : t ∈ rest := (List.mem_filter.1 (List.mem_of_mem_getLast? hlast)).1
              rw [ihlast n t hlast, hsame t ht]
          | false =>
              have hfeq : (src :: rest).filter (fun q => baseName q == n)
                  = rest.filter (fun q => baseName q == n) := by
                rw [List.filter_cons, if_neg (by simp [hb])]
              rw [hfeq] at hlast
              have ht : t ∈ rest := (List.mem_filter.1 (List.mem_of_mem_getLast? hlast)).1
              rw [ihlast n t hlast, hsame t ht]

/-- C4 counterexample: two matched shared libraries share the base name
`libfoo.dll` with different contents "A" then "B".  The code's
collection (`cp`, which overwrites) leaves content "B", while the
spec's skip-on-already-present semantics would leave "A": the copy of a
file whose same-named target is already present is NOT skipped. -/
theorem c4_counterexample :
    readFile (lddCollect msX dllsDirX fsX).1 ["b", "dlls", "libfoo.dll"] = some "B" ∧
    readFile (lddCollectSkip msX dllsDirX fsX).1 ["b", "dlls", "libfoo.dll"] = some "A" ∧
    ¬ (readFile (lddCollect msX dllsDirX fsX).1 ["b", "dlls", "libfoo.dll"]
        = readFile (lddCollectSkip msX dllsDirX fsX).1 ["b", "dlls", "libfoo.dll"]) := by
  refine ⟨rfl, rfl, by decide⟩

/-- Witness for C4 (amended) at the concrete counterexample data: the
collection succeeds and the last matched `libfoo.dll` wins. -/
theorem c4_witness :
    (lddCollect msX dllsDirX fsX).2 = 0 ∧
    readFile (lddCollect msX dllsDirX fsX).1 ["b", "dlls", "libfoo.dll"]
      = readFile fsX ["m", "bb", "libfoo.dll"] := by
  have hok : ∀ src ∈ msX, isUnder dllsDirX src = false ∧ ∃ cc, readFile fsX src = some cc := by
    intro src hs
    simp only [msX, List.mem_cons, List.not_mem_nil, or_false] at hs
    rcases hs with rfl | rfl
    · exact ⟨by decide, "A", rfl⟩
    · exact ⟨by decide, "B", rfl⟩
  have h := c4_overwrite_last_wins msX fsX hok
  exact ⟨h.1, h.2 "libfoo.dll" ["m", "bb", "libfoo.dll"] rfl⟩

/-! ## Stage 1 on a binary with no dependencies (claim C6) -/

theorem pathExists_removeTree_self (fs : Fs) (d : Path) :
    pathExists (removeTree fs d) d = false := by
  unfold pathExists isDir isFile removeTree
  simp only [Bool.or_eq_false_iff]
  constructor
  · cases hc : (fs.dirs.filter (fun q => !(isUnder d q))).contains d with
    | true =>
        have hm := List.elem_iff.1 hc
        have := (List.mem_filter.1 hm).2
        rw [isUnder_refl d] at this
        simp at this
    | false => rfl
  · cases ha : (fs.files.filter (fun e => !(isUnder d e.1))).any (fun e => e.1 == d) with
    | true =>
        obtain ⟨e, hm, he⟩ := List.any_eq_true.1 ha
        have h2 := (List.mem_filter.1 hm).2
        have h3 : e.1 = d := by simpa [beq_iff_eq] using he
        rw [h3, isUnder_refl d] at h2
        simp at h2
    | false => rfl

theorem filterMap_nil_of_filter {α β : Type} {f : α → Option β} {l : List α}
    (h : l.filterMap f = []) (Q : α → Bool) : (l.filter Q).filterMap f = [] := by
  rw [List.filterMap_eq_nil_iff] at h ⊢
  intro a ha
  exact h a (List.mem_filter.1 ha).1

/-- Stage 1 after the `dlls/` cleanup, when nothing matches: it
succeeds, creating the directory and copying nothing. -/
theorem stageDlls_from_clean {cfg : Config} {env : Env} {s1 : St}
    (hA : pathExists s1.fs (dlls_dir cfg) = false)
    (hB : isDir s1.fs cfg.build_root = true)
    (hldd : env.lddMatches (app_binary cfg) = [])
    (hload : globFiles s1.fs (loaders_dir cfg) dllName = [])
    (hegl : globFiles s1.fs (bin_dir cfg) eglName = [])
    (hgles : globFiles s1.fs (bin_dir cfg) glesName = []) :
    ((mkdirM (dlls_dir cfg) s1).bind (fun s =>
      (collectAppDlls cfg env s).bind (fun s =>
      (forEach (collectLoaderDlls cfg env) (globFiles s.fs (loaders_dir cfg) dllName) s).bind
      (fun s => forEach (collectAngleDll cfg env)
        (globFiles s.fs (bin_dir cfg) eglName ++ globFiles s.fs (bin_dir cfg) glesName) s))))
    = .ok ⟨addDir s1.fs (dlls_dir cfg),
           s1.trace ++ [⟨lddGrepCmd (app_binary cfg) (dlls_dir cfg),
                         "Collecting app DLLs failed", 0⟩]⟩ := by
  have hdrop : (dlls_dir cfg).dropLast = cfg.build_root := List.dropLast_concat
  have hm : mkdirM (dlls_dir cfg) s1 = .ok ⟨addDir s1.fs (dlls_dir cfg), s1.trace⟩ := by
    unfold mkdirM
    rw [if_neg (by simp [hA]), hdrop, if_pos hB]
  rw [bind_ok_of hm]
  have hc : collectAppDlls cfg env ⟨addDir s1.fs (dlls_dir cfg), s1.trace⟩
      = .ok ⟨addDir s1.fs (dlls_dir cfg),
             s1.trace ++ [⟨lddGrepCmd (app_binary cfg) (dlls_dir cfg),
                           "Collecting app DLLs failed", 0⟩]⟩ := by
    show run_command (lddCollect (env.lddMatches (app_binary cfg)) (dlls_dir cfg)
        (addDir s1.fs (dlls_dir cfg))).2 _ _ _ = _
    rw [hldd]
    rfl
  rw [bind_ok_of hc]
  have hload2 : globFiles (addDir s1.fs (dlls_dir cfg)) (loaders_dir cfg) dllName = [] := hload
  have hegl2 : globFiles (addDir s1.fs (dlls_dir cfg)) (bin_dir cfg) eglName = [] := hegl
  have hgles2 : globFiles (addDir s1.fs (dlls_dir cfg)) (bin_dir cfg) glesName = [] := hgles
  rw [bind_ok_of (show forEach (collectLoaderDlls cfg env) _ _ = .ok _ by
    rw [hload2]; rfl)]
  rw [hegl2, hgles2]
  rfl

/-- C6: dependency collection applied with zero matched dependencies
(the link-inspection filter matches nothing for the application binary,
and there are no pixbuf-loader or angle DLLs) completes successfully,
not aborting the pipeline, and leaves a `dlls/` directory that exists
but contains no files. -/
theorem c6_empty_deps {cfg : Config} {env : Env} {s : St}
    (htidy : tidyAt s.fs (dlls_dir cfg) = true)
    (hroot : isDir s.fs cfg.build_root = true)
    (hldd : env.lddMatches (app_binary cfg) = [])
    (hload : globFiles s.fs (loaders_dir cfg) dllName = [])
    (hegl : globFiles s.fs (bin_dir cfg) eglName = [])
    (hgles : globFiles s.fs (bin_dir cfg) glesName = []) :
    ∃ s', stageDlls cfg env s = .ok s'
      ∧ isDir s'.fs (dlls_dir cfg) = true
      ∧ (∀ e ∈ s'.fs.files, isUnder (dlls_dir cfg) e.1 = false) := by
  unfold stageDlls
  unfold tidyAt at htidy
  cases hex : pathExists s.fs (dlls_dir cfg) with
  | true =>
      rw [if_pos hex] at htidy
      have hclean : cleanTree (dlls_dir cfg) s
          = .ok ⟨removeTree s.fs (dlls_dir cfg), s.trace⟩ := by
        unfold cleanTree
        rw [if_pos hex, if_pos htidy]
      rw [bind_ok_of hclean]
      have hB : isDir (removeTree s.fs (dlls_dir cfg)) cfg.build_root = true := by
        have hm : cfg.build_root ∈ s.fs.dirs := List.elem_iff.1 hroot
        have hmem : cfg.build_root ∈ (removeTree s.fs (dlls_dir cfg)).dirs := by
          show cfg.build_root ∈ s.fs.dirs.filter (fun q => !(isUnder (dlls_dir cfg) q))
          refine List.mem_filter.2 ⟨hm, ?_⟩
          rw [show dlls_dir cfg = cfg.build_root ++ ["dlls"] from rfl, not_isUnder_extend]
          rfl
        exact List.elem_iff.2 hmem
      have hrest := @stageDlls_from_clean cfg env
        ⟨removeTree s.fs (dlls_dir cfg), s.trace⟩
        (pathExists_removeTree_self s.fs (dlls_dir cfg)) hB hldd
        (filterMap_nil_of_filter hload _) (filterMap_nil_of_filter hegl _)
        (filterMap_nil_of_filter hgles _)
      refine ⟨_, hrest, ?_, ?_⟩
      · show List.contains (dlls_dir cfg :: _) (dlls_dir cfg) = true
        exact List.elem_iff.2 (List.mem_cons_self _ _)
      · intro e he
        have := (List.mem_filter.1 he).2
        simpa using this
  | false =>
      rw [if_neg (by simp [hex])] at htidy
      have hclean : cleanTree (dlls_dir cfg) s = .ok s := by
        unfold cleanTree
        rw [if_neg (by simp [hex])]
      rw [bind_ok_of hclean]
      have hrest := @stageDlls_from_clean cfg env s
        hex hroot hldd hload hegl hgles
      refine ⟨_, hrest, ?_, ?_⟩
      · show List.contains (dlls_dir cfg :: _) (dlls_dir cfg) = true
        exact List.elem_iff.2 (List.mem_cons_self _ _)
      · intro e he
        simp only [Bool.and_eq_true] at htidy
        have he' : e ∈ s.fs.files := he
        have := List.all_eq_true.1 htidy.1 e he'
        simpa using this

/-- Witness for C6 at a concrete run with no matched dependencies: the
stage succeeds and `dlls/` exists afterwards. -/
theorem c6_witness :
    isDir (Step.st (stageDlls cfgW envW ⟨fsW6, []⟩)).fs (dlls_dir cfgW) = true := by
  obtain ⟨s', h1, h2, h3⟩ := @c6_empty_deps cfgW envW ⟨fsW6, []⟩
    (by decide) (by decide) rfl rfl rfl rfl
  rw [h1]
  exact h2

/-! ## The locale stage: membership tools and separation facts -/

theorem pathExists_false_iff {fs : Fs} {q : Path} :
    pathExists fs q = false ↔ q ∉ fs.dirs ∧ ∀ e ∈ fs.files, e.1 ≠ q := by
  unfold pathExists isDir isFile
  constructor
  · intro h
    simp only [Bool.or_eq_false_iff] at h
    constructor
    · intro hm
      have h3 : List.elem q fs.dirs = true := List.elem_iff.2 hm
      have h4 : List.elem q fs.dirs = false := h.1
      rw [h4] at h3
      exact absurd h3 (by simp)
    · intro e hm he
      have : fs.files.any (fun e => e.1 == q) = true :=
        List.any_eq_true.2 ⟨e, hm, by simp [he]⟩
      rw [this] at h
      exact absurd h.2 (by simp)
  · intro ⟨h1, h2⟩
    simp only [Bool.or_eq_false_iff]
    constructor
    · cases hc : fs.dirs.contains q with
      | true => exact absurd (List.elem_iff.1 hc) h1
      | false => rfl
    · cases ha : fs.files.any (fun e => e.1 == q) with
      | true =>
          obtain ⟨e, hm, he⟩ := List.any_eq_true.1 ha
          exact absurd (by simpa [beq_iff_eq] using he) (h2 e hm)
      | false => rfl

theorem sepB_parts {cfg : Config} (hsep : sepB cfg = true) :
    (isUnder cfg.build_environment_path (dlls_dir cfg) = false
      ∧ isUnder (dlls_dir cfg) cfg.build_environment_path = false)
  ∧ (isUnder cfg.build_environment_path (gschemas_dir cfg) = false
      ∧ isUnder (gschemas_dir cfg) cfg.build_environment_path = false)
  ∧ (isUnder cfg.build_environment_path (locale_dir cfg) = false
      ∧ isUnder (locale_dir cfg) cfg.build_environment_path = false)
  ∧ under3 cfg (app_binary cfg) = false := by
  unfold sepB at hsep
  simp only [List.all_cons, List.all_nil, Bool.and_true, Bool.and_eq_true,
    Bool.not_eq_true'] at hsep
  exact ⟨⟨hsep.1.1.1, hsep.1.1.2⟩, ⟨hsep.1.2.1.1, hsep.1.2.1.2⟩,
    ⟨hsep.1.2.2.1, hsep.1.2.2.2⟩, hsep.2⟩

/-- Anything under the runtime-environment tree is outside the three
working directories. -/
theorem sepB_bep_region {cfg : Config} (hsep : sepB cfg = true) {p : Path}
    (hp : isUnder cfg.build_environment_path p = true) :
    isUnder (dlls_dir cfg) p = false ∧ isUnder (gschemas_dir cfg) p = false
      ∧ isUnder (locale_dir cfg) p = false := by
  obtain ⟨⟨hd1, hd2⟩, ⟨hg1, hg2⟩, ⟨hl1, hl2⟩, _⟩ := sepB_parts hsep
  refine ⟨?_, ?_, ?_⟩
  · cases hu : isUnder (dlls_dir cfg) p with
    | true =>
        rcases isUnder_comparable hu hp with h | h
        · rw [h] at hd2; exact absurd hd2 (by simp)
        · rw [h] at hd1; exact absurd hd1 (by simp)
    | false => rfl
  · cases hu : isUnder (gschemas_dir cfg) p with
    | true =>
        rcases isUnder_comparable hu hp with h | h
        · rw [h] at hg2; exact absurd hg2 (by simp)
        · rw [h] at hg1; exact absurd hg1 (by simp)
    | false => rfl
  · cases hu : isUnder (locale_dir cfg) p with
    | true =>
        rcases isUnder_comparable hu hp with h | h
        · rw [h] at hl2; exact absurd hl2 (by simp)
        · rw [h] at hl1; exact absurd hl1 (by simp)
    | false => rfl

/-- A system locale catalog path lies under the runtime environment. -/
theorem sys_catalog_under_bep (cfg : Config) (lang nm : String) :
    isUnder cfg.build_environment_path (system_locale_dir cfg lang ++ [nm]) = true := by
  show isUnder cfg.build_environment_path
    ((cfg.build_environment_path ++ ["share", "locale", lang, "LC_MESSAGES"]) ++ [nm]) = true
  rw [List.append_assoc]
  exact isUnder_self_append _ _

theorem dropLast_two (l : List String) (a b : String) :
    (l ++ [a, b]).dropLast = l ++ [a] := by
  rw [show l ++ [a, b] = (l ++ [a]) ++ [b] by simp, List.dropLast_concat]

theorem contains_cons_ne {l : List Path} {p q : Path} (hne : q ≠ p) :
    (p :: l).contains q = l.contains q := by
  cases hc : l.contains q with
  | true => exact List.elem_iff.2 (List.mem_cons_of_mem _ (List.elem_iff.1 hc))
  | false =>
      cases hc2 : (p :: l).contains q with
      | true =>
          rcases List.mem_cons.1 (List.elem_iff.1 hc2) with h | h
          · exact absurd h hne
          · have h3 : List.elem q l = true := List.elem_iff.2 h
            have h4 : List.elem q l = false := hc
            rw [h4] at h3
            exact h3.symm
      | false => rfl

theorem pathExists_addDir_ne {fs : Fs} {p q : Path} (hne : q ≠ p) :
    pathExists (addDir fs p) q = pathExists fs q := by
  unfold pathExists isDir isFile addDir
  rw [contains_cons_ne hne]

theorem pathExists_removeTree_false {fs : Fs} {d q : Path}
    (h : pathExists fs q = false) : pathExists (removeTree fs d) q = false := by
  rw [pathExists_false_iff] at h ⊢
  refine ⟨fun hm => h.1 (List.mem_filter.1 hm).1, fun e hm => h.2 e (List.mem_filter.1 hm).1⟩

theorem isDir_removeTree_sep {fs : Fs} {d q : Path} (hq : isUnder d q = false)
    (h : isDir fs q = true) : isDir (removeTree fs d) q = true := by
  unfold isDir at h ⊢
  show (fs.dirs.filter (fun q2 => !(isUnder d q2))).contains q = true
  exact List.elem_iff.2 (List.mem_filter.2 ⟨List.elem_iff.1 h, by simp [hq]⟩)

theorem isUnder_take (l : Path) (k : Nat) : isUnder (l.take k) l = true := by
  have h := isUnder_self_append (l.take k) (l.drop k)
  rwa [List.take_append_drop] at h

/-- Membership characterization of the `childrenOf` listing. -/
theorem mem_childrenOf {fs : Fs} {d : Path} {t : String} :
    t ∈ childrenOf fs d ↔
      ∃ p, (p ∈ fs.dirs ∨ ∃ c, (p, c) ∈ fs.files) ∧ isUnder d p = true
        ∧ (p.drop d.length).head? = some t := by
  unfold childrenOf
  rw [List.mem_dedup, List.mem_filterMap]
  constructor
  · rintro ⟨p, hp, hf⟩
    by_cases hu : isUnder d p = true
    · rw [if_pos hu] at hf
      rcases List.mem_append.1 hp with h | h
      · exact ⟨p, Or.inl h, hu, hf⟩
      · obtain ⟨e, he, hep⟩ := List.mem_map.1 h
        refine ⟨p, Or.inr ⟨e.2, ?_⟩, hu, hf⟩
        rw [← hep]
        exact he
    · rw [if_neg hu] at hf
      exact absurd hf (by simp)
  · rintro ⟨p, hmem, hu, hh⟩
    refine ⟨p, ?_, by rw [if_pos hu]; exact hh⟩
    rcases hmem with h | ⟨c, h⟩
    · exact List.mem_append.2 (Or.inl h)
    · exact List.mem_append.2 (Or.inr (List.mem_map.2 ⟨(p, c), h, rfl⟩))

/-- Removing a subtree separate from `d` does not change the listing of
`d`. -/
theorem childrenOf_removeTree_sep {fs : Fs} {d r : Path}
    (hsep : ∀ p, isUnder d p = true → isUnder r p = false) (t : String) :
    t ∈ childrenOf (removeTree fs r) d ↔ t ∈ childrenOf fs d := by
  rw [mem_childrenOf, mem_childrenOf]
  constructor
  · rintro ⟨p, hmem, hu, hh⟩
    refine ⟨p, ?_, hu, hh⟩
    rcases hmem with h | ⟨c, h⟩
    · exact Or.inl (List.mem_filter.1 h).1
    · exact Or.inr ⟨c, (List.mem_filter.1 h).1⟩
  · rintro ⟨p, hmem, hu, hh⟩
    refine ⟨p, ?_, hu, hh⟩
    rcases hmem with h | ⟨c, h⟩
    · exact Or.inl (List.mem_filter.2 ⟨h, by simp [hsep p hu]⟩)
    · exact Or.inr ⟨c, List.mem_filter.2 ⟨h, by simp [hsep p hu]⟩⟩

/-- The filesystem a successful `copytree src dst` produces. -/
def copytreeFs (fs : Fs) (src dst : Path) : Fs :=
  ⟨treeFiles fs src dst ++ fs.files,
   missingAnc fs dst ++ [dst] ++ treeDirs fs src dst ++ fs.dirs⟩

theorem copytreeM_ok_fs {src dst : Path} {s s₁ : St} (h : copytreeM src dst s = .ok s₁) :
    s₁ = ⟨copytreeFs s.fs src dst, s.trace⟩
      ∧ pathExists s.fs dst = false ∧ isDir s.fs src = true := by
  obtain ⟨h1, h2, h3⟩ := copytreeM_ok_inv h
  exact ⟨h1, h2, h3⟩

/-- Every new path `copytree src dst` records is either an ancestor of
`dst` or lies at-or-under `dst`. -/
theorem copytree_new_dirs {fs : Fs} {src dst : Path} {p : Path}
    (hp : p ∈ missingAnc fs dst ++ [dst] ++ treeDirs fs src dst) :
    (∃ k, k < dst.length ∧ p = dst.take k) ∨ isUnder dst p = true := by
  rcases List.mem_append.1 hp with hp | hp
  · rcases List.mem_append.1 hp with hp | hp
    · have hp2 := List.mem_filter.1 hp
      obtain ⟨k, hk, hkp⟩ := List.mem_map.1 hp2.1
      exact Or.inl ⟨k, List.mem_range.1 hk, hkp.symm⟩
    · have : p = dst := by simpa using hp
      exact Or.inr (by rw [this]; exact isUnder_refl dst)
  · obtain ⟨q, hq, hqp⟩ := List.mem_filterMap.1 hp
    by_cases hc : (isUnder src q && !(q == src)) = true
    · rw [if_pos hc] at hqp
      cases hqp
      exact Or.inr (isUnder_self_append dst _)
    · rw [if_neg hc] at hqp
      exact absurd hqp (by simp)

/-- The copytree result keeps the listing of a directory separate from
both `src` and `dst`, for `src` itself. -/
theorem childrenOf_copytree_src {fs : Fs} {src dst : Path}
    (hsd : isUnder src dst = false) (hds : isUnder dst src = false) (t : String) :
    t ∈ childrenOf (copytreeFs fs src dst) src ↔ t ∈ childrenOf fs src := by
  have hnot : ∀ p, isUnder src p = true → isUnder dst p = true → False := by
    intro p h1 h2
    rcases isUnder_comparable h1 h2 with h | h
    · rw [h] at hsd; exact absurd hsd (by simp)
    · rw [h] at hds; exact absurd hds (by simp)
  rw [mem_childrenOf, mem_childrenOf]
  constructor
  · rintro ⟨p, hmem, hu, hh⟩
    rcases hmem with h | ⟨c, h⟩
    · show ∃ p, _
      rcases List.mem_append.1 (show p ∈ (missingAnc fs dst ++ [dst] ++ treeDirs fs src dst)
          ++ fs.dirs from h) with hnew | hold
      · rcases copytree_new_dirs hnew with ⟨k, hk, rfl⟩ | hud
        · exfalso
          have hkd : isUnder (dst.take k) dst = true := isUnder_take dst k
          have : isUnder src dst = true := isUnder_trans hu hkd
          rw [this] at hsd
          exact absurd hsd (by simp)
        · exact absurd hud (by intro hh2; exact hnot p hu hh2)
      · exact ⟨p, Or.inl hold, hu, hh⟩
    · rcases List.mem_append.1 (show (p, c) ∈ treeFiles fs src dst ++ fs.files from h)
          with hnew | hold
      · exfalso
        have := treeFiles_under hnew
        exact hnot p hu this
      · exact ⟨p, Or.inr ⟨c, hold⟩, hu, hh⟩
  · rintro ⟨p, hmem, hu, hh⟩
    rcases hmem with h | ⟨c, h⟩
    · exact ⟨p, Or.inl (List.mem_append.2 (Or.inr h)), hu, hh⟩
    · exact ⟨p, Or.inr ⟨c, List.mem_append.2 (Or.inr h)⟩, hu, hh⟩

/-- Any extension of the `crates/` subtree of the build root is outside
the three working directories. -/
theorem crates_out3 (cfg : Config) (u : Path) :
    under3 cfg (cfg.build_root ++ "crates" :: u) = false := by
  unfold under3 dlls_dir gschemas_dir locale_dir
  rw [sibling_not_under (by decide) cfg.build_root u,
    sibling_not_under (by decide) cfg.build_root u,
    sibling_not_under (by decide) cfg.build_root u]
  rfl

theorem app_mo_ext (cfg : Config) (u : Path) :
    app_mo_dir cfg ++ u = cfg.build_root ++ "crates" :: (["rnote-ui", "po"] ++ u) := by
  show (cfg.build_root ++ ["crates", "rnote-ui", "po"]) ++ u = _
  rw [List.append_assoc]
  rfl

theorem app_mo_out3 (cfg : Config) (u : Path) :
    under3 cfg (app_mo_dir cfg ++ u) = false := by
  rw [app_mo_ext]
  exact crates_out3 cfg _

theorem locale_not_under_app_ext (cfg : Config) (u : Path) :
    isUnder (locale_dir cfg) (app_mo_dir cfg ++ u) = false := by
  rw [app_mo_ext]
  show isUnder (cfg.build_root ++ ["locale"]) _ = false
  exact sibling_not_under (by decide) cfg.build_root _

theorem locale_not_under_app (cfg : Config) :
    isUnder (locale_dir cfg) (app_mo_dir cfg) = false := by
  have h := locale_not_under_app_ext cfg []
  rwa [List.append_nil] at h

theorem app_not_under_locale (cfg : Config) :
    isUnder (app_mo_dir cfg) (locale_dir cfg) = false := by
  show isUnder (cfg.build_root ++ "crates" :: ["rnote-ui", "po"])
    (cfg.build_root ++ "locale" :: []) = false
  exact sibling_not_under2 (by decide) cfg.build_root _ _

theorem app_locale_disjoint (cfg : Config) :
    ∀ p, isUnder (app_mo_dir cfg) p = true → isUnder (locale_dir cfg) p = false := by
  intro p hp
  cases hu : isUnder (locale_dir cfg) p with
  | true =>
      rcases isUnder_comparable hp hu with h | h
      · rw [app_not_under_locale cfg] at h
        exact absurd h (by simp)
      · rw [locale_not_under_app cfg] at h
        exact absurd h (by simp)
  | false => rfl

/-- The per-language loop of the locale stage succeeds when none of the
system catalogs exists: every catalog copy is skipped, never an
error. -/
theorem localeLoop_no_sys {cfg : Config}
    (hnl : ∀ lang nm : String,
      isUnder (locale_dir cfg) (system_locale_dir cfg lang ++ [nm]) = false) :
    ∀ (langs : List String) (s : St),
      (∀ lang nm : String, pathExists s.fs (system_locale_dir cfg lang ++ [nm]) = false) →
      (∀ lang ∈ langs, isDir s.fs (locale_dir cfg ++ [lang]) = true) →
      ∃ s', forEach (localeLangStep cfg) langs s = .ok s' := by
  intro langs
  induction langs with
  | nil => exact fun s _ _ => ⟨s, rfl⟩
  | cons lang rest ih =>
      intro s habs hdirs
      have hout : isUnder (locale_dir cfg) (locale_dir cfg ++ [lang, "LC_MESSAGES"]) = true :=
        isUnder_self_append _ _
      have hne : ∀ lang2 nm : String,
          system_locale_dir cfg lang2 ++ [nm] ≠ locale_dir cfg ++ [lang, "LC_MESSAGES"] := by
        intro lang2 nm heq
        have h2 := hnl lang2 nm
        rw [heq, hout] at h2
        exact absurd h2 (by simp)
      cases hpe : pathExists s.fs (locale_dir cfg ++ [lang, "LC_MESSAGES"]) with
      | true =>
          have hskip : ∀ nm, copyIfExists (system_locale_dir cfg lang ++ [nm])
              (locale_dir cfg ++ [lang, "LC_MESSAGES"]) s = .ok s := by
            intro nm
            unfold copyIfExists
            rw [if_neg (by simp [habs lang nm])]
          have hbody : localeLangStep cfg lang s = .ok s := by
            unfold localeLangStep
            rw [if_pos hpe]
            simp only [Step.bind]
            rw [hskip "glib20.mo"]
            simp only [Step.bind]
            rw [hskip "gtk40.mo"]
            simp only [Step.bind]
            exact hskip "libadwaita.mo"
          obtain ⟨s', hs'⟩ := ih s habs (fun r hr => hdirs r (List.mem_cons_of_mem _ hr))
          refine ⟨s', ?_⟩
          show (localeLangStep cfg lang s).bind (forEach (localeLangStep cfg) rest) = .ok s'
          rw [hbody]
          simpa [Step.bind] using hs'
      | false =>
          have hmk : mkdirM (locale_dir cfg ++ [lang, "LC_MESSAGES"]) s
              = .ok ⟨addDir s.fs (locale_dir cfg ++ [lang, "LC_MESSAGES"]), s.trace⟩ := by
            unfold mkdirM
            rw [if_neg (by simp [hpe]),
              show (locale_dir cfg ++ [lang, "LC_MESSAGES"]).dropLast
                = locale_dir cfg ++ [lang] from dropLast_two _ _ _,
              if_pos (hdirs lang (List.mem_cons_self _ _))]
          have habs1 : ∀ lang2 nm : String, pathExists
              (addDir s.fs (locale_dir cfg ++ [lang, "LC_MESSAGES"]))
              (system_locale_dir cfg lang2 ++ [nm]) = false := by
            intro lang2 nm
            rw [pathExists_addDir_ne (hne lang2 nm)]
            exact habs lang2 nm
          have hskip : ∀ nm, copyIfExists (system_locale_dir cfg lang ++ [nm])
              (locale_dir cfg ++ [lang, "LC_MESSAGES"])
              ⟨addDir s.fs (locale_dir cfg ++ [lang, "LC_MESSAGES"]), s.trace⟩ = .ok
              ⟨addDir s.fs (locale_dir cfg ++ [lang, "LC_MESSAGES"]), s.trace⟩ := by
            intro nm
            unfold copyIfExists
            rw [if_neg (by simp [habs1 lang nm])]
          have hbody : localeLangStep cfg lang s
              = .ok ⟨addDir s.fs (locale_dir cfg ++ [lang, "LC_MESSAGES"]), s.trace⟩ := by
            unfold localeLangStep
            rw [if_neg (by simp [hpe]), hmk]
            simp only [Step.bind]
            rw [hskip "glib20.mo"]
            simp only [Step.bind]
            rw [hskip "gtk40.mo"]
            simp only [Step.bind]
            exact hskip "libadwaita.mo"
          have hd1 : ∀ r ∈ rest, isDir
              (addDir s.fs (locale_dir cfg ++ [lang, "LC_MESSAGES"]))
              (locale_dir cfg ++ [r]) = true := by
            intro r hr
            have h1 := hdirs r (List.mem_cons_of_mem _ hr)
            exact List.elem_iff.2 (List.mem_cons_of_mem _ (List.elem_iff.1 h1))
          obtain ⟨s', hs'⟩ := ih ⟨addDir s.fs (locale_dir cfg ++ [lang, "LC_MESSAGES"]),
            s.trace⟩ habs1 hd1
          refine ⟨s', ?_⟩
          show (localeLangStep cfg lang s).bind (forEach (localeLangStep cfg) rest) = .ok s'
          rw [hbody]
          simpa [Step.bind] using hs'

theorem copytree_dirs_cases {fs : Fs} {src dst p : Path}
    (hp : p ∈ (copytreeFs fs src dst).dirs) :
    (∃ k, k < dst.length ∧ p = dst.take k) ∨ isUnder dst p = true ∨ p ∈ fs.dirs := by
  have h2 : p ∈ missingAnc fs dst ∨ p = dst ∨ p ∈ treeDirs fs src dst ∨ p ∈ fs.dirs := by
    simpa [copytreeFs, List.mem_append, List.mem_cons, or_assoc] using hp
  rcases h2 with h | h | h | h
  · left
    have hp2 := List.mem_filter.1 h
    obtain ⟨k, hk, hkp⟩ := List.mem_map.1 hp2.1
    exact ⟨k, List.mem_range.1 hk, hkp.symm⟩
  · right; left
    rw [h]
    exact isUnder_refl dst
  · right; left
    obtain ⟨q, hq, hqp⟩ := List.mem_filterMap.1 h
    by_cases hc : (isUnder src q && !(q == src)) = true
    · rw [if_pos hc] at hqp
      cases hqp
      exact isUnder_self_append dst _
    · rw [if_neg hc] at hqp
      exact absurd hqp (by simp)
  · right; right
    exact h

theorem copytree_files_cases {fs : Fs} {src dst : Path} {e : Path × String}
    (he : e ∈ (copytreeFs fs src dst).files) :
    isUnder dst e.1 = true ∨ e ∈ fs.files := by
  rcases List.mem_append.1 (show e ∈ treeFiles fs src dst ++ fs.files from he) with h | h
  · exact Or.inl (treeFiles_under h)
  · exact Or.inr h

/-- The locale stage after its cleanup, when the application locale
tree is a directory whose language subdirectories exist and no system
catalog is present: the stage succeeds. -/
theorem stageLocale_from_clean {cfg : Config} {s1 : St}
    (hsep : sepB cfg = true)
    (hA : pathExists s1.fs (locale_dir cfg) = false)
    (happ : isDir s1.fs (app_mo_dir cfg) = true)
    (habs : ∀ lang nm : String, pathExists s1.fs (system_locale_dir cfg lang ++ [nm]) = false)
    (hdirs : ∀ lang ∈ childrenOf s1.fs (app_mo_dir cfg),
        (app_mo_dir cfg ++ [lang]) ∈ s1.fs.dirs) :
    ∃ s', ((copytreeM (app_mo_dir cfg) (locale_dir cfg) s1).bind (fun s =>
      if isDir s.fs (app_mo_dir cfg) = true then
        forEach (localeLangStep cfg) (childrenOf s.fs (app_mo_dir cfg)) s
      else .exc s)) = .ok s' := by
  have hnl : ∀ lang nm : String,
      isUnder (locale_dir cfg) (system_locale_dir cfg lang ++ [nm]) = false :=
    fun lang nm => (sepB_bep_region hsep (sys_catalog_under_bep cfg lang nm)).2.2
  have hcp : copytreeM (app_mo_dir cfg) (locale_dir cfg) s1
      = .ok ⟨copytreeFs s1.fs (app_mo_dir cfg) (locale_dir cfg), s1.trace⟩ := by
    unfold copytreeM
    rw [if_neg (by simp [hA]), if_pos happ]
    rfl
  have happ2 : isDir (copytreeFs s1.fs (app_mo_dir cfg) (locale_dir cfg))
      (app_mo_dir cfg) = true := by
    have hm := List.elem_iff.1 happ
    refine List.elem_iff.2 ?_
    show app_mo_dir cfg ∈ missingAnc s1.fs (locale_dir cfg) ++ [locale_dir cfg]
      ++ treeDirs s1.fs (app_mo_dir cfg) (locale_dir cfg) ++ s1.fs.dirs
    simp [List.mem_append, hm]
  have hchil := @childrenOf_copytree_src s1.fs (app_mo_dir cfg) (locale_dir cfg)
    (app_not_under_locale cfg) (locale_not_under_app cfg)
  have habs2 : ∀ lang nm : String, pathExists
      (copytreeFs s1.fs (app_mo_dir cfg) (locale_dir cfg))
      (system_locale_dir cfg lang ++ [nm]) = false := by
    intro lang nm
    have h0 := pathExists_false_iff.1 (habs lang nm)
    rw [pathExists_false_iff]
    have hbep := sys_catalog_under_bep cfg lang nm
    constructor
    · intro hm
      rcases copytree_dirs_cases hm with ⟨k, hk, hkeq⟩ | hud | hold
      · have h1 : isUnder cfg.build_environment_path (locale_dir cfg) = true := by
          refine isUnder_trans ?_ (isUnder_take (locale_dir cfg) k)
          rw [← hkeq]
          exact hbep
        have h2 := (sepB_parts hsep).2.2.1.1
        rw [h2] at h1
        exact absurd h1 (by simp)
      · rw [hnl lang nm] at hud
        exact absurd hud (by simp)
      · exact h0.1 hold
    · intro e he heq
      rcases copytree_files_cases he with hud | hold
      · rw [heq, hnl lang nm] at hud
        exact absurd hud (by simp)
      · exact h0.2 e hold heq
  have hdirs2 : ∀ lang ∈ childrenOf (copytreeFs s1.fs (app_mo_dir cfg) (locale_dir cfg))
      (app_mo_dir cfg),
      isDir (copytreeFs s1.fs (app_mo_dir cfg) (locale_dir cfg))
        (locale_dir cfg ++ [lang]) = true := by
    intro lang hl
    have hl1 : lang ∈ childrenOf s1.fs (app_mo_dir cfg) := (hchil lang).1 hl
    have hmem : (app_mo_dir cfg ++ [lang]) ∈ s1.fs.dirs := hdirs lang hl1
    have htd : (locale_dir cfg ++ [lang])
        ∈ treeDirs s1.fs (app_mo_dir cfg) (locale_dir cfg) := by
      refine List.mem_filterMap.2 ⟨app_mo_dir cfg ++ [lang], hmem, ?_⟩
      have hne2 : app_mo_dir cfg ++ [lang] ≠ app_mo_dir cfg := by
        intro hh
        have := congrArg List.length hh
        simp at this
      have hc : (isUnder (app_mo_dir cfg) (app_mo_dir cfg ++ [lang])
          && !(app_mo_dir cfg ++ [lang] == app_mo_dir cfg)) = true := by
        rw [isUnder_self_append]
        simp [hne2]
      rw [if_pos hc]
      rw [show (app_mo_dir cfg ++ [lang]).drop (app_mo_dir cfg).length = [lang]
        from List.drop_left _ _]
    refine List.elem_iff.2 ?_
    show (locale_dir cfg ++ [lang]) ∈ missingAnc s1.fs (locale_dir cfg) ++ [locale_dir cfg]
      ++ treeDirs s1.fs (app_mo_dir cfg) (locale_dir cfg) ++ s1.fs.dirs
    simp [List.mem_append, htd]
  obtain ⟨s', hloop⟩ := localeLoop_no_sys hnl
    (childrenOf (copytreeFs s1.fs (app_mo_dir cfg) (locale_dir cfg)) (app_mo_dir cfg))
    ⟨copytreeFs s1.fs (app_mo_dir cfg) (locale_dir cfg), s1.trace⟩ habs2 hdirs2
  refine ⟨s', ?_⟩
  rw [bind_ok_of hcp, if_pos happ2]
  exact hloop

theorem isDir_removeTree_false {fs : Fs} {d q : Path} (h : isDir fs q = false) :
    isDir (removeTree fs d) q = false := by
  cases hc : isDir (removeTree fs d) q with
  | true =>
      have hm := List.elem_iff.1 hc
      have hq : q ∈ fs.dirs := (List.mem_filter.1 hm).1
      have h3 : List.elem q fs.dirs = true := List.elem_iff.2 hq
      have h2 : List.elem q fs.dirs = false := h
      rw [h2] at h3
      exact h3.symm
  | false => rfl

/-- C8: in the locale stage, the absence of any of the fixed system
catalogs (`gtk40.mo`, `glib20.mo`, `libadwaita.mo`) is skipped for every
language and never causes a failure - with none of them present at all,
the stage still succeeds; whereas a failing copy of the application's
own catalogs (the application locale tree is not a directory, so
`shutil.copytree` raises) aborts the stage with a Python exception,
i.e. process exit status 1. -/
theorem c8_missing_sys_catalogs (cfg : Config) :
    (∀ s : St, sepB cfg = true →
      tidyAt s.fs (locale_dir cfg) = true →
      isDir s.fs (app_mo_dir cfg) = true →
      (∀ lang nm : String, pathExists s.fs (system_locale_dir cfg lang ++ [nm]) = false) →
      (∀ lang ∈ childrenOf s.fs (app_mo_dir cfg), (app_mo_dir cfg ++ [lang]) ∈ s.fs.dirs) →
      ∃ s', stageLocale cfg s = .ok s')
  ∧ (∀ s : St, tidyAt s.fs (locale_dir cfg) = true →
      isDir s.fs (app_mo_dir cfg) = false →
      ∃ s₂, stageLocale cfg s = .exc s₂ ∧ pyExit (stageLocale cfg s) = 1) := by
  constructor
  · intro s hsep htidy happ habs hdirs
    unfold stageLocale
    unfold tidyAt at htidy
    cases hex : pathExists s.fs (locale_dir cfg) with
    | true =>
        rw [if_pos hex] at htidy
        have hclean : cleanTree (locale_dir cfg) s
            = .ok ⟨removeTree s.fs (locale_dir cfg), s.trace⟩ := by
          unfold cleanTree
          rw [if_pos hex, if_pos htidy]
        rw [bind_ok_of hclean]
        refine stageLocale_from_clean hsep (pathExists_removeTree_self s.fs _)
          (isDir_removeTree_sep (locale_not_under_app cfg) happ)
          (fun lang nm => pathExists_removeTree_false (habs lang nm)) ?_
        intro lang hl
        have hl0 : lang ∈ childrenOf s.fs (app_mo_dir cfg) :=
          (childrenOf_removeTree_sep (app_locale_disjoint cfg) lang).1 hl
        refine List.mem_filter.2 ⟨hdirs lang hl0, ?_⟩
        simp [locale_not_under_app_ext cfg [lang]]
    | false =>
        rw [if_neg (by simp [hex])] at htidy
        have hclean : cleanTree (locale_dir cfg) s = .ok s := by
          unfold cleanTree
          rw [if_neg (by simp [hex])]
        rw [bind_ok_of hclean]
        exact stageLocale_from_clean hsep hex happ habs hdirs
  · intro s htidy happ
    unfold tidyAt at htidy
    cases hex : pathExists s.fs (locale_dir cfg) with
    | true =>
        rw [if_pos hex] at htidy
        have hclean : cleanTree (locale_dir cfg) s
            = .ok ⟨removeTree s.fs (locale_dir cfg), s.trace⟩ := by
          unfold cleanTree
          rw [if_pos hex, if_pos htidy]
        have hcp : copytreeM (app_mo_dir cfg) (locale_dir cfg)
            ⟨removeTree s.fs (locale_dir cfg), s.trace⟩
            = .exc ⟨removeTree s.fs (locale_dir cfg), s.trace⟩ := by
          unfold copytreeM
          rw [if_neg (by simp [pathExists_removeTree_self s.fs (locale_dir cfg)]),
            if_neg (by simp [isDir_removeTree_false happ])]
        have hmain : stageLocale cfg s
            = .exc ⟨removeTree s.fs (locale_dir cfg), s.trace⟩ := by
          unfold stageLocale
          rw [bind_ok_of hclean, hcp]
          rfl
        exact ⟨_, hmain, by rw [hmain]; rfl⟩
    | false =>
        have hclean : cleanTree (locale_dir cfg) s = .ok s := by
          unfold cleanTree
          rw [if_neg (by simp [hex])]
        have hcp : copytreeM (app_mo_dir cfg) (locale_dir cfg) s = .exc s := by
          unfold copytreeM
          rw [if_neg (by simp [hex]), if_neg (by simp [happ])]
        have hmain : stageLocale cfg s = .exc s := by
          unfold stageLocale
          rw [bind_ok_of hclean, hcp]
          rfl
        exact ⟨_, hmain, by rw [hmain]; rfl⟩

/-- Witness for C8 at a concrete locale tree with no system catalogs:
the stage exits successfully. -/
theorem c8_witness : pyExit (stageLocale cfgW ⟨fsW8, []⟩) = 0 := by
  have habs : ∀ lang nm : String,
      pathExists fsW8 (system_locale_dir cfgW lang ++ [nm]) = false := by
    intro lang nm
    rw [pathExists_false_iff]
    constructor
    · intro hm
      simp only [fsW8, system_locale_dir, cfgW, List.mem_cons, List.not_mem_nil,
        or_false] at hm
      rcases hm with h | h | h | h | h | h | h | h <;> simp at h
    · intro e he heq
      simp only [fsW8, List.mem_cons, List.not_mem_nil, or_false] at he
      rw [he] at heq
      simp [system_locale_dir, cfgW] at heq
  have hch : childrenOf fsW8 (app_mo_dir cfgW) = ["de"] := by decide
  obtain ⟨s', h⟩ := (c8_missing_sys_catalogs cfgW).1 ⟨fsW8, []⟩ (by decide) (by decide)
    (by decide) habs (by
      intro lang hl
      rw [hch] at hl
      have : lang = "de" := by simpa using hl
      rw [this]
      decide)
  rw [h]
  rfl

/-! ## Locale stage: full characterization (claim C3) -/

theorem isUnder_recompose : ∀ {src q : Path}, isUnder src q = true →
    src ++ q.drop src.length = q
  | [], q, _ => by simp
  | x :: xs, [], h => by simp [isUnder] at h
  | x :: xs, y :: ys, h => by
      simp only [isUnder, Bool.and_eq_true, beq_iff_eq] at h
      show x :: (xs ++ List.drop xs.length ys) = y :: ys
      rw [isUnder_recompose h.2, h.1]

theorem drop_ne_nil {p : Path} {n : Nat} (h : n < p.length) : p.drop n ≠ [] := by
  intro hh
  have h2 := congrArg List.length hh
  rw [List.length_drop] at h2
  simp at h2
  omega

theorem baseName_append {l : Path} (h : l ≠ []) (d : Path) :
    baseName (d ++ l) = baseName l := by
  unfold baseName
  rw [List.getLast?_append_of_ne_nil d h]

theorem baseName_snoc (d : Path) (x : String) : baseName (d ++ [x]) = x := by
  unfold baseName
  rw [List.getLast?_append_of_ne_nil _ (by simp), List.getLast?_singleton]
  rfl

theorem readFile_removeTree_sep {fs : Fs} {r p : Path} (hp : isUnder r p = false) :
    readFile (removeTree fs r) p = readFile fs p := by
  have hc : ∀ e : Path × String, (e.1 == p) = true → (!(isUnder r e.1)) = true := by
    intro e he
    have h1 : e.1 = p := by simpa [beq_iff_eq] using he
    simp [h1, hp]
  unfold readFile removeTree
  rw [← find?_filter_sub hc fs.files]

theorem pathExists_removeTree_under {fs : Fs} {d q : Path} (hq : isUnder d q = true) :
    pathExists (removeTree fs d) q = false := by
  rw [pathExists_false_iff]
  constructor
  · intro hm
    have hm2 : q ∈ fs.dirs.filter (fun q2 => !(isUnder d q2)) := hm
    have h2 := (List.mem_filter.1 hm2).2
    rw [hq] at h2
    exact absurd h2 (by simp)
  · intro e he heq
    have he2 : e ∈ fs.files.filter (fun e2 => !(isUnder d e2.1)) := he
    have h2 := (List.mem_filter.1 he2).2
    rw [heq, hq] at h2
    exact absurd h2 (by simp)

theorem relocate_inj {src p q : Path} (hp : isUnder src p = true)
    (hq : isUnder src q = true) (dst : Path)
    (h : dst ++ p.drop src.length = dst ++ q.drop src.length) : p = q := by
  have h2 := List.append_cancel_left h
  rw [← isUnder_recompose hp, ← isUnder_recompose hq, h2]

/-- Searching the relocated file list of a `copytree` at a relocated key
is searching the source list at the original key. -/
theorem treeFiles_find? {src dst p : Path} (hp : isUnder src p = true) :
    ∀ l : List (Path × String),
      (l.filterMap (fun e =>
          if isUnder src e.1 then some ((dst ++ e.1.drop src.length, e.2) : Path × String)
          else none)).find? (fun e => e.1 == dst ++ p.drop src.length)
        = (l.find? (fun e => e.1 == p)).map
            (fun e => ((dst ++ p.drop src.length, e.2) : Path × String))
  | [] => rfl
  | e :: rest => by
      cases hu : isUnder src e.1 with
      | true =>
          have hf : (if isUnder src e.1 then
                some ((dst ++ e.1.drop src.length, e.2) : Path × String) else none)
              = some (dst ++ e.1.drop src.length, e.2) := by rw [if_pos hu]
          simp only [List.filterMap_cons, hf]
          cases hep : (e.1 == p) with
          | true =>
              have he1 : e.1 = p := by simpa [beq_iff_eq] using hep
              rw [List.find?_cons_of_pos _ (by simp [he1]),
                List.find?_cons_of_pos _ (by exact hep)]
              simp [he1]
          | false =>
              have hne : e.1 ≠ p := by
                intro hh
                rw [hh] at hep
                simp at hep
              have hne2 : ((dst ++ e.1.drop src.length : Path)
                  == dst ++ p.drop src.length) = false := by
                cases hb : ((dst ++ e.1.drop src.length : Path)
                    == dst ++ p.drop src.length) with
                | true =>
                    have h3 := relocate_inj hu hp dst (by simpa [beq_iff_eq] using hb)
                    exact absurd h3 hne
                | false => rfl
              rw [List.find?_cons_of_neg _ (by simp [hne2]),
                List.find?_cons_of_neg _ (by simp [hep])]
              exact treeFiles_find? hp rest
      | false =>
          have hf : (if isUnder src e.1 then
                some ((dst ++ e.1.drop src.length, e.2) : Path × String) else none)
              = none := by rw [if_neg (by simp [hu])]
          simp only [List.filterMap_cons, hf]
          have hep : (e.1 == p) = false := by
            cases hb : (e.1 == p) with
            | true =>
                have h1 : e.1 = p := by simpa [beq_iff_eq] using hb
                rw [h1, hp] at hu
                exact absurd hu (by simp)
            | false => rfl
          rw [List.find?_cons_of_neg _ (by simp [hep])]
          exact treeFiles_find? hp rest

/-- `copytree` lays down every source file at its relocated path. -/
theorem readFile_copytree {fs : Fs} {src dst p : Path} {c : String}
    (hp : isUnder src p = true) (h : readFile fs p = some c) :
    readFile (copytreeFs fs src dst) (dst ++ p.drop src.length) = some c := by
  obtain ⟨e, hfind, hc⟩ : ∃ e, fs.files.find? (fun e2 => e2.1 == p) = some e ∧ e.2 = c := by
    unfold readFile at h
    cases hfe : fs.files.find? (fun e2 => e2.1 == p) with
    | none => rw [hfe] at h; exact absurd h (by simp)
    | some e => rw [hfe] at h; exact ⟨e, rfl, by simpa using h⟩
  show ((treeFiles fs src dst ++ fs.files).find?
      (fun e => e.1 == dst ++ p.drop src.length)).map (fun e => e.2) = some c
  rw [List.find?_append]
  unfold treeFiles
  rw [treeFiles_find? hp fs.files, hfind]
  simp [Option.or, hc]

theorem isFile_iff {fs : Fs} {p : Path} : isFile fs p = true ↔ ∃ c, (p, c) ∈ fs.files := by
  unfold isFile
  rw [List.any_eq_true]
  constructor
  · rintro ⟨e, he, heq⟩
    rcases e with ⟨p1, c⟩
    have h1 : p1 = p := by simpa [beq_iff_eq] using heq
    exact ⟨c, h1 ▸ he⟩
  · rintro ⟨c, hc⟩
    exact ⟨(p, c), hc, by simp⟩

theorem isFile_writeFile (fs : Fs) (t : Path) (c : String) (q : Path) :
    isFile (writeFile fs t c) q = ((q == t) || isFile fs q) := by
  unfold isFile writeFile
  rw [List.any_cons]
  by_cases hq : q = t
  · subst hq
    simp
  · have h2 : ((t, c).1 == q) = false := by
      simp only [beq_eq_false_iff_ne]
      intro hh
      exact hq hh.symm
    have h3 : (q == t) = false := by simp [hq]
    rw [h2, h3, Bool.false_or, Bool.false_or]
    have hc : ∀ e : Path × String, (e.1 == q) = true → (!(e.1 == t)) = true := by
      intro e he
      have h1 : e.1 = q := by simpa [beq_iff_eq] using he
      simp [h1, hq]
    rw [← any_filter_sub hc fs.files]

/-- A script fragment that never deletes a file name. -/
def KeepsFiles (f : St → Step) : Prop :=
  ∀ s q, isFile s.fs q = true → isFile (Step.st (f s)).fs q = true

theorem keepsFiles_bind_point {r : Step} {k : St → Step} {q : Path}
    (hk : KeepsFiles k) (h : isFile (Step.st r).fs q = true) :
    isFile (Step.st (r.bind k)).fs q = true := by
  cases r with
  | ok s1 => exact hk s1 q h
  | exit1 m c s1 => exact h
  | exc s1 => exact h

theorem keepsFiles_forEach {α : Type} {f : α → St → Step}
    (hf : ∀ x, KeepsFiles (f x)) : ∀ (xs : List α), KeepsFiles (forEach f xs)
  | [] => fun _ _ h => h
  | x :: xs => by
      intro s q h
      show isFile (Step.st ((f x s).bind (forEach f xs))).fs q = true
      exact keepsFiles_bind_point (keepsFiles_forEach hf xs) (hf x s q h)

theorem keepsFiles_shutilCopy (src dst : Path) : KeepsFiles (shutilCopy src dst) := by
  intro s q h
  unfold shutilCopy
  split
  · split
    · simp only [Step.st]
      rw [isFile_writeFile, h, Bool.or_true]
    · simp only [Step.st]
      rw [isFile_writeFile, h, Bool.or_true]
  · exact h

theorem keepsFiles_copyIfExists (src dst : Path) : KeepsFiles (copyIfExists src dst) := by
  intro s q h
  unfold copyIfExists
  split
  · exact keepsFiles_shutilCopy src dst s q h
  · exact h

theorem keepsFiles_mkdirM (p : Path) : KeepsFiles (mkdirM p) := by
  intro s q h
  unfold mkdirM
  split
  · exact h
  · split
    · exact h
    · exact h

theorem keepsFiles_localeLangStep (cfg : Config) (lang : String) :
    KeepsFiles (localeLangStep cfg lang) := by
  intro s q h
  unfold localeLangStep
  refine keepsFiles_bind_point ?_ ?_
  · intro s1 q1 h1
    refine keepsFiles_bind_point ?_ ?_
    · intro s2 q2 h2
      refine keepsFiles_bind_point ?_ ?_
      · intro s3 q3 h3
        exact keepsFiles_copyIfExists _ _ s3 q3 h3
      · exact keepsFiles_copyIfExists _ _ s2 q2 h2
    · exact keepsFiles_copyIfExists _ _ s1 q1 h1
  · split
    · exact h
    · exact keepsFiles_mkdirM _ s q h

theorem st_read_bind {r : Step} {k : St → Step} {q : Path}
    (hk : ∀ s, readFile (Step.st (k s)).fs q = readFile s.fs q) :
    readFile (Step.st (r.bind k)).fs q = readFile (Step.st r).fs q := by
  cases r with
  | ok s1 => exact hk s1
  | exit1 m c s1 => rfl
  | exc s1 => rfl

theorem forEach_st_read {α : Type} {f : α → St → Step} {q : Path}
    (hf : ∀ x s, readFile (Step.st (f x s)).fs q = readFile s.fs q) :
    ∀ (xs : List α) (s : St), readFile (Step.st (forEach f xs s)).fs q = readFile s.fs q
  | [] => fun _ => rfl
  | x :: xs => by
      intro s
      show readFile (Step.st ((f x s).bind (forEach f xs))).fs q = readFile s.fs q
      rw [st_read_bind (fun s2 => forEach_st_read hf xs s2)]
      exact hf x s

theorem mkdirM_st_read (p : Path) (s : St) {q : Path} :
    readFile (Step.st (mkdirM p s)).fs q = readFile s.fs q := by
  unfold mkdirM
  split
  · rfl
  · split
    · rfl
    · rfl

theorem shutilCopy_st_read {src dst q : Path} (h1 : q ≠ dst ++ [baseName src])
    (h2 : q ≠ dst) (s : St) :
    readFile (Step.st (shutilCopy src dst s)).fs q = readFile s.fs q := by
  unfold shutilCopy
  split
  · split
    · simp only [Step.st]
      exact readFile_writeFile_ne h1 s.fs _
    · simp only [Step.st]
      exact readFile_writeFile_ne h2 s.fs _
  · rfl

theorem copyIfExists_st_read {src dst q : Path} (h1 : q ≠ dst ++ [baseName src])
    (h2 : q ≠ dst) (s : St) :
    readFile (Step.st (copyIfExists src dst s)).fs q = readFile s.fs q := by
  unfold copyIfExists
  split
  · exact shutilCopy_st_read h1 h2 s
  · rfl

/-- The per-language loop body leaves every file alone whose base name
is none of the names the loop can write. -/
theorem localeLangStep_st_read (cfg : Config) (lang : String) {q : Path}
    (hb : baseName q ∉ loopWriteNames) (s : St) :
    readFile (Step.st (localeLangStep cfg lang s)).fs q = readFile s.fs q := by
  have hassoc : locale_dir cfg ++ [lang, "LC_MESSAGES"]
      = (locale_dir cfg ++ [lang]) ++ ["LC_MESSAGES"] := by simp
  have hdst : q ≠ locale_dir cfg ++ [lang, "LC_MESSAGES"] := by
    intro hh
    apply hb
    rw [hh, hassoc, baseName_snoc]
    simp [loopWriteNames]
  have hcat : ∀ nm : String, nm ∈ loopWriteNames →
      q ≠ (locale_dir cfg ++ [lang, "LC_MESSAGES"])
        ++ [baseName (system_locale_dir cfg lang ++ [nm])] := by
    intro nm hnm hh
    apply hb
    rw [hh, baseName_snoc, baseName_snoc]
    exact hnm
  have h3 : ∀ s3 : St, readFile (Step.st (copyIfExists (system_locale_dir cfg lang
      ++ ["libadwaita.mo"]) (locale_dir cfg ++ [lang, "LC_MESSAGES"]) s3)).fs q
      = readFile s3.fs q :=
    fun s3 => copyIfExists_st_read (hcat _ (by simp [loopWriteNames])) hdst s3
  have h2 : ∀ s2 : St, readFile (Step.st ((copyIfExists (system_locale_dir cfg lang
      ++ ["gtk40.mo"]) (locale_dir cfg ++ [lang, "LC_MESSAGES"]) s2).bind (fun s3 =>
        copyIfExists (system_locale_dir cfg lang ++ ["libadwaita.mo"])
          (locale_dir cfg ++ [lang, "LC_MESSAGES"]) s3))).fs q = readFile s2.fs q := by
    intro s2
    rw [st_read_bind h3]
    exact copyIfExists_st_read (hcat _ (by simp [loopWriteNames])) hdst s2
  have h1 : ∀ s1 : St, readFile (Step.st ((copyIfExists (system_locale_dir cfg lang
      ++ ["glib20.mo"]) (locale_dir cfg ++ [lang, "LC_MESSAGES"]) s1).bind (fun s2 =>
      (copyIfExists (system_locale_dir cfg lang ++ ["gtk40.mo"])
        (locale_dir cfg ++ [lang, "LC_MESSAGES"]) s2).bind (fun s3 =>
        copyIfExists (system_locale_dir cfg lang ++ ["libadwaita.mo"])
          (locale_dir cfg ++ [lang, "LC_MESSAGES"]) s3)))).fs q = readFile s1.fs q := by
    intro s1
    rw [st_read_bind h2]
    exact copyIfExists_st_read (hcat _ (by simp [loopWriteNames])) hdst s1
  unfold localeLangStep
  rw [st_read_bind h1]
  split
  · rfl
  · exact mkdirM_st_read _ s

theorem growsWithin_mono {P Q : Path → Bool} (h : ∀ p, P p = true → Q p = true)
    {f : St → Step} (hf : GrowsWithin P f) : GrowsWithin Q f := by
  intro s p
  refine ⟨fun hd => ?_, fun hfl => ?_⟩
  · rcases (hf s p).1 hd with h1 | h1
    · exact Or.inl h1
    · exact Or.inr (h p h1)
  · rcases (hf s p).2 hfl with h1 | h1
    · exact Or.inl h1
    · exact Or.inr (h p h1)

theorem grows_bind_point {P : Path → Bool} {r : Step} {k : St → Step} {fs0 : Fs}
    (h1 : ∀ p, (p ∈ (Step.st r).fs.dirs → p ∈ fs0.dirs ∨ P p = true)
       ∧ (isFile (Step.st r).fs p = true → isFile fs0 p = true ∨ P p = true))
    (hk : GrowsWithin P k) :
    ∀ p, (p ∈ (Step.st (r.bind k)).fs.dirs → p ∈ fs0.dirs ∨ P p = true)
       ∧ (isFile (Step.st (r.bind k)).fs p = true → isFile fs0 p = true ∨ P p = true) := by
  cases r with
  | ok s1 =>
      intro p
      constructor
      · intro hd
        rcases (hk s1 p).1 hd with h | h
        · exact (h1 p).1 h
        · exact Or.inr h
      · intro hf
        rcases (hk s1 p).2 hf with h | h
        · exact (h1 p).2 h
        · exact Or.inr h
  | exit1 m c s1 => exact h1
  | exc s1 => exact h1

theorem growsWithin_bind {P : Path → Bool} {f k : St → Step}
    (hf : GrowsWithin P f) (hk : GrowsWithin P k) :
    GrowsWithin P (fun s => (f s).bind k) :=
  fun s => grows_bind_point (hf s) hk

theorem growsWithin_forEach {α : Type} {P : Path → Bool} {f : α → St → Step} :
    ∀ (xs : List α), (∀ x ∈ xs, GrowsWithin P (f x)) → GrowsWithin P (forEach f xs)
  | [], _ => fun _ p => ⟨fun hd => Or.inl hd, fun hfl => Or.inl hfl⟩
  | x :: xs, h => by
      intro s
      exact grows_bind_point (h x (List.mem_cons_self x xs) s)
        (growsWithin_forEach xs (fun y hy => h y (List.mem_cons_of_mem x hy)))

theorem growsWithin_mkdirM (t : Path) (P : Path → Bool) (hP : P t = true) :
    GrowsWithin P (mkdirM t) := by
  intro s p
  unfold mkdirM
  split
  · exact ⟨fun hd => Or.inl hd, fun hf => Or.inl hf⟩
  · split
    · constructor
      · intro hd
        rcases List.mem_cons.1 hd with h | h
        · exact Or.inr (by rw [h]; exact hP)
        · exact Or.inl h
      · exact fun hf => Or.inl hf
    · exact ⟨fun hd => Or.inl hd, fun hf => Or.inl hf⟩

theorem growsWithin_shutilCopy (src dst : Path) (P : Path → Bool)
    (h1 : P (dst ++ [baseName src]) = true) (h2 : P dst = true) :
    GrowsWithin P (shutilCopy src dst) := by
  intro s p
  unfold shutilCopy
  split
  · split
    · refine ⟨fun hd => Or.inl hd, fun hf => ?_⟩
      simp only [Step.st] at hf
      rw [isFile_writeFile] at hf
      simp only [Bool.or_eq_true] at hf
      rcases hf with h | h
      · refine Or.inr ?_
        rw [show p = dst ++ [baseName src] from by simpa [beq_iff_eq] using h]
        exact h1
      · exact Or.inl h
    · refine ⟨fun hd => Or.inl hd, fun hf => ?_⟩
      simp only [Step.st] at hf
      rw [isFile_writeFile] at hf
      simp only [Bool.or_eq_true] at hf
      rcases hf with h | h
      · refine Or.inr ?_
        rw [show p = dst from by simpa [beq_iff_eq] using h]
        exact h2
      · exact Or.inl h
  · exact ⟨fun hd => Or.inl hd, fun hf => Or.inl hf⟩

theorem growsWithin_copyIfExists (src dst : Path) (P : Path → Bool)
    (h1 : P (dst ++ [baseName src]) = true) (h2 : P dst = true) :
    GrowsWithin P (copyIfExists src dst) := by
  intro s p
  unfold copyIfExists
  split
  · exact growsWithin_shutilCopy src dst P h1 h2 s p
  · exact ⟨fun hd => Or.inl hd, fun hf => Or.inl hf⟩

/-- The per-language loop body records new entries only below
`locale/<lang>`. -/
theorem growsWithin_localeLangStep (cfg : Config) (lang : String) :
    GrowsWithin (fun q => isUnder (locale_dir cfg ++ [lang]) q)
      (localeLangStep cfg lang) := by
  have hassoc : ∀ u : Path, isUnder (locale_dir cfg ++ [lang])
      ((locale_dir cfg ++ [lang, "LC_MESSAGES"]) ++ u) = true := by
    intro u
    rw [show (locale_dir cfg ++ [lang, "LC_MESSAGES"]) ++ u
      = (locale_dir cfg ++ [lang]) ++ ("LC_MESSAGES" :: u) from by simp]
    exact isUnder_self_append _ _
  have hdst : isUnder (locale_dir cfg ++ [lang])
      (locale_dir cfg ++ [lang, "LC_MESSAGES"]) = true := by
    have h0 := hassoc []
    rwa [List.append_nil] at h0
  have hcopy : ∀ src : Path, GrowsWithin (fun q => isUnder (locale_dir cfg ++ [lang]) q)
      (copyIfExists src (locale_dir cfg ++ [lang, "LC_MESSAGES"])) :=
    fun src => growsWithin_copyIfExists _ _ _ (hassoc [baseName src]) hdst
  have hk : GrowsWithin (fun q => isUnder (locale_dir cfg ++ [lang]) q)
      (fun s => (copyIfExists (system_locale_dir cfg lang ++ ["glib20.mo"])
          (locale_dir cfg ++ [lang, "LC_MESSAGES"]) s).bind (fun s =>
        (copyIfExists (system_locale_dir cfg lang ++ ["gtk40.mo"])
          (locale_dir cfg ++ [lang, "LC_MESSAGES"]) s).bind (fun s =>
        copyIfExists (system_locale_dir cfg lang ++ ["libadwaita.mo"])
          (locale_dir cfg ++ [lang, "LC_MESSAGES"]) s))) :=
    growsWithin_bind (hcopy _) (growsWithin_bind (hcopy _) (hcopy _))
  intro s
  unfold localeLangStep
  refine grows_bind_point ?_ hk
  by_cases hpe : pathExists s.fs (locale_dir cfg ++ [lang, "LC_MESSAGES"]) = true
  · rw [if_pos hpe]
    exact fun p => ⟨fun hd => Or.inl hd, fun hf => Or.inl hf⟩
  · rw [if_neg hpe]
    exact growsWithin_mkdirM _ _ hdst s

/-- The whole per-language loop records new entries only below the
`locale/<lang>` subtrees of its iterated language tags. -/
theorem localeLoop_grows (cfg : Config) (langs : List String) :
    GrowsWithin (fun q => langs.any (fun l => isUnder (locale_dir cfg ++ [l]) q))
      (forEach (localeLangStep cfg) langs) := by
  refine growsWithin_forEach langs ?_
  intro lang hlang
  refine growsWithin_mono ?_ (growsWithin_localeLangStep cfg lang)
  intro p hp
  exact List.any_eq_true.2 ⟨lang, hlang, hp⟩

/-- Case analysis of the directories of a `copytree` result, keeping the
source witness of each relocated directory. -/
theorem copytree_dirs_cases2 {fs : Fs} {src dst p : Path}
    (hp : p ∈ (copytreeFs fs src dst).dirs) :
    (∃ k, k < dst.length ∧ p = dst.take k) ∨ p = dst
      ∨ (∃ q, q ∈ fs.dirs ∧ isUnder src q = true ∧ q ≠ src
          ∧ p = dst ++ q.drop src.length)
      ∨ p ∈ fs.dirs := by
  have h2 : p ∈ missingAnc fs dst ∨ p = dst ∨ p ∈ treeDirs fs src dst ∨ p ∈ fs.dirs := by
    simpa [copytreeFs, List.mem_append, List.mem_cons, or_assoc] using hp
  rcases h2 with h | h | h | h
  · left
    have hp2 := List.mem_filter.1 h
    obtain ⟨k, hk, hkp⟩ := List.mem_map.1 hp2.1
    exact ⟨k, List.mem_range.1 hk, hkp.symm⟩
  · right; left; exact h
  · right; right; left
    obtain ⟨q, hq, hqp⟩ := List.mem_filterMap.1 h
    by_cases hc : (isUnder src q && !(q == src)) = true
    · rw [if_pos hc] at hqp
      simp only [Bool.and_eq_true, Bool.not_eq_true', beq_eq_false_iff_ne] at hc
      cases hqp
      exact ⟨q, hq, hc.1, hc.2, rfl⟩
    · rw [if_neg hc] at hqp
      exact absurd hqp (by simp)
  · right; right; right; exact h

/-- Case analysis of the files of a `copytree` result, keeping the
source witness of each relocated file. -/
theorem copytree_files_cases2 {fs : Fs} {src dst : Path} {e : Path × String}
    (he : e ∈ (copytreeFs fs src dst).files) :
    (∃ q, (q, e.2) ∈ fs.files ∧ isUnder src q = true
        ∧ e.1 = dst ++ q.drop src.length)
      ∨ e ∈ fs.files := by
  rcases List.mem_append.1 (show e ∈ treeFiles fs src dst ++ fs.files from he) with h | h
  · left
    obtain ⟨a, ha, hae⟩ := List.mem_filterMap.1 h
    by_cases hc : isUnder src a.1 = true
    · rw [if_pos hc] at hae
      cases hae
      exact ⟨a.1, by simpa using ha, hc, rfl⟩
    · rw [if_neg hc] at hae
      exact absurd hae (by simp)
  · exact Or.inr h

/-- With the destination region clean, the immediate entries of the
`copytree` destination are exactly those of the source. -/
theorem childrenOf_copytree_dst {fs : Fs} {src dst : Path}
    (hclean : ∀ q, isUnder dst q = true → pathExists fs q = false) (t : String) :
    t ∈ childrenOf (copytreeFs fs src dst) dst ↔ t ∈ childrenOf fs src := by
  rw [mem_childrenOf, mem_childrenOf]
  constructor
  · rintro ⟨p, hmem, hu, hh⟩
    rcases hmem with h | ⟨c, h⟩
    · rcases copytree_dirs_cases2 h with ⟨k, hk, rfl⟩ | rfl | ⟨q, hq, hqu, hqs, rfl⟩ | h2
      · exfalso
        have h4 := isUnder_length hu
        rw [List.length_take] at h4
        have h5 := Nat.min_le_left k dst.length
        omega
      · rw [List.drop_length] at hh
        exact absurd hh (by simp)
      · refine ⟨q, Or.inl hq, hqu, ?_⟩
        rwa [List.drop_left] at hh
      · exfalso
        have h3 := hclean _ hu
        rw [pathExists_false_iff] at h3
        exact h3.1 h2
    · rcases copytree_files_cases2 h with ⟨q, hq, hqu, heq⟩ | h2
      · refine ⟨q, Or.inr ⟨c, hq⟩, hqu, ?_⟩
        have hp2 : p = dst ++ q.drop src.length := heq
        rw [hp2, List.drop_left] at hh
        exact hh
      · exfalso
        have h3 := hclean _ hu
        rw [pathExists_false_iff] at h3
        exact h3.2 _ h2 rfl
  · rintro ⟨p, hmem, hu, hh⟩
    have hne : p ≠ src := by
      intro hh2
      rw [hh2, List.drop_length] at hh
      exact absurd hh (by simp)
    rcases hmem with h | ⟨c, h⟩
    · refine ⟨dst ++ p.drop src.length, Or.inl ?_, isUnder_self_append _ _, ?_⟩
      · have htd : dst ++ p.drop src.length ∈ treeDirs fs src dst := by
          refine List.mem_filterMap.2 ⟨p, h, ?_⟩
          simp [hu, hne]
        show dst ++ p.drop src.length ∈ missingAnc fs dst ++ [dst]
          ++ treeDirs fs src dst ++ fs.dirs
        simp [List.mem_append, htd]
      · rw [List.drop_left]
        exact hh
    · refine ⟨dst ++ p.drop src.length, Or.inr ⟨c, ?_⟩, isUnder_self_append _ _, ?_⟩
      · show (dst ++ p.drop src.length, c) ∈ treeFiles fs src dst ++ fs.files
        refine List.mem_append.2 (Or.inl ?_)
        refine List.mem_filterMap.2 ⟨(p, c), h, ?_⟩
        simp [hu]
      · rw [List.drop_left]
        exact hh

/-- With the destination region clean and a tag absent from the source
listing, nothing exists below `dst/<tag>` after the `copytree`. -/
theorem copytree_clean_out {fs : Fs} {src dst : Path}
    (hclean : ∀ q, isUnder dst q = true → pathExists fs q = false)
    {t : String} (ht : t ∉ childrenOf fs src) (rest : Path) :
    pathExists (copytreeFs fs src dst) (dst ++ t :: rest) = false := by
  have hu : isUnder dst (dst ++ t :: rest) = true := isUnder_self_append _ _
  rw [pathExists_false_iff]
  constructor
  · intro hm
    rcases copytree_dirs_cases2 hm with ⟨k, hk, hkeq⟩ | heq | ⟨q, hq, hqu, hqs, heq⟩ | h2
    · have h4 := congrArg List.length hkeq
      rw [List.length_take, List.length_append, List.length_cons] at h4
      have h5 := Nat.min_le_left k dst.length
      omega
    · have h4 := congrArg List.length heq
      rw [List.length_append, List.length_cons] at h4
      omega
    · apply ht
      rw [mem_childrenOf]
      refine ⟨q, Or.inl hq, hqu, ?_⟩
      have h5 : t :: rest = q.drop src.length := List.append_cancel_left heq
      rw [← h5]
      rfl
    · have h3 := hclean _ hu
      rw [pathExists_false_iff] at h3
      exact h3.1 h2
  · intro e he heq
    rcases copytree_files_cases2 he with ⟨q, hq, hqu, heq2⟩ | h2
    · apply ht
      rw [mem_childrenOf]
      refine ⟨q, Or.inr ⟨e.2, hq⟩, hqu, ?_⟩
      have h6 : dst ++ t :: rest = dst ++ q.drop src.length := by
        rw [← heq, heq2]
      have h5 : t :: rest = q.drop src.length := List.append_cancel_left h6
      rw [← h5]
      rfl
    · have h3 := hclean _ hu
      rw [pathExists_false_iff] at h3
      exact h3.2 e h2 heq

theorem head_drop_of_under {d p : Path} {l : String}
    (h : isUnder (d ++ [l]) p = true) : (p.drop d.length).head? = some l := by
  rw [← isUnder_recompose h, List.append_assoc, List.drop_left]
  rfl

/-- Any tag listed below `locale/` after the per-language loop was
either listed before the loop or is one of the iterated tags. -/
theorem childrenOf_loop_sub {cfg : Config} {langs : List String} {s₂ s3 : St}
    (h : forEach (localeLangStep cfg) langs s₂ = .ok s3) {t : String}
    (ht : t ∈ childrenOf s3.fs (locale_dir cfg)) :
    t ∈ childrenOf s₂.fs (locale_dir cfg) ∨ t ∈ langs := by
  have hg := localeLoop_grows cfg langs
  have hst : Step.st (forEach (localeLangStep cfg) langs s₂) = s3 := by rw [h]; rfl
  rw [mem_childrenOf] at ht
  obtain ⟨p, hmem, hu, hh⟩ := ht
  have hcase : (p ∈ s₂.fs.dirs ∨ ∃ c, (p, c) ∈ s₂.fs.files)
      ∨ (langs.any (fun l => isUnder (locale_dir cfg ++ [l]) p)) = true := by
    rcases hmem with hd | ⟨c, hf⟩
    · rcases (hg s₂ p).1 (by rw [hst]; exact hd) with h1 | h1
      · exact Or.inl (Or.inl h1)
      · exact Or.inr h1
    · have hf2 : isFile s3.fs p = true := isFile_iff.2 ⟨c, hf⟩
      rcases (hg s₂ p).2 (by rw [hst]; exact hf2) with h1 | h1
      · exact Or.inl (Or.inr (isFile_iff.1 h1))
      · exact Or.inr h1
  rcases hcase with h1 | h1
  · exact Or.inl (mem_childrenOf.2 ⟨p, h1, hu, hh⟩)
  · obtain ⟨l, hl, hlp⟩ := List.any_eq_true.1 h1
    have h3 := head_drop_of_under hlp
    rw [hh] at h3
    have h2 : t = l := Option.some.inj h3
    refine Or.inr ?_
    rw [h2]
    exact hl

/-- The per-language loop never removes a listed entry. -/
theorem childrenOf_loop_sup {cfg : Config} {langs : List String} {s₂ s3 : St}
    (h : forEach (localeLangStep cfg) langs s₂ = .ok s3) {d : Path} {t : String}
    (ht : t ∈ childrenOf s₂.fs d) : t ∈ childrenOf s3.fs d := by
  have hst : Step.st (forEach (localeLangStep cfg) langs s₂) = s3 := by rw [h]; rfl
  rw [mem_childrenOf] at ht ⊢
  obtain ⟨p, hmem, hu, hh⟩ := ht
  refine ⟨p, ?_, hu, hh⟩
  rcases hmem with hd2 | ⟨c, hf⟩
  · left
    have h1 := dirsMono_forEach (fun lang => dirsMono_localeLangStep cfg lang) langs s₂ p hd2
    rwa [hst] at h1
  · right
    have h1 : isFile s₂.fs p = true := isFile_iff.2 ⟨c, hf⟩
    have h2 := keepsFiles_forEach (fun lang => keepsFiles_localeLangStep cfg lang) langs s₂ p h1
    rw [hst] at h2
    exact isFile_iff.1 h2

/-- A `locale/<tag>` subtree empty before the loop stays empty when the
tag is not iterated. -/
theorem localeLoop_exists_out {cfg : Config} {langs : List String} {s₂ s3 : St}
    (h : forEach (localeLangStep cfg) langs s₂ = .ok s3) {t : String} {rest : Path}
    (ht : t ∉ langs)
    (hpe : pathExists s₂.fs (locale_dir cfg ++ t :: rest) = false) :
    pathExists s3.fs (locale_dir cfg ++ t :: rest) = false := by
  have hg := localeLoop_grows cfg langs
  have hst : Step.st (forEach (localeLangStep cfg) langs s₂) = s3 := by rw [h]; rfl
  have hreg : (langs.any (fun l => isUnder (locale_dir cfg ++ [l])
      (locale_dir cfg ++ t :: rest))) = false := by
    cases hb : langs.any (fun l => isUnder (locale_dir cfg ++ [l])
        (locale_dir cfg ++ t :: rest)) with
    | true =>
        obtain ⟨l, hl, hlp⟩ := List.any_eq_true.1 hb
        have h1 := head_drop_of_under hlp
        rw [List.drop_left] at h1
        have h2 : t = l := Option.some.inj h1
        exact absurd (show t ∈ langs from by rw [h2]; exact hl) ht
    | false => rfl
  rw [pathExists_false_iff] at hpe ⊢
  constructor
  · intro hm
    rcases (hg s₂ _).1 (by rw [hst]; exact hm) with h1 | h1
    · exact hpe.1 h1
    · have h1b : (langs.any (fun l => isUnder (locale_dir cfg ++ [l])
          (locale_dir cfg ++ t :: rest))) = true := h1
      rw [hreg] at h1b
      exact absurd h1b (by simp)
  · intro e he heq
    have hf : isFile s3.fs (locale_dir cfg ++ t :: rest) = true := by
      refine isFile_iff.2 ⟨e.2, ?_⟩
      rw [← heq]
      exact he
    rcases (hg s₂ _).2 (by rw [hst]; exact hf) with h1 | h1
    · rw [isFile_iff] at h1
      obtain ⟨c, hc⟩ := h1
      exact hpe.2 (locale_dir cfg ++ t :: rest, c) hc rfl
    · have h1b : (langs.any (fun l => isUnder (locale_dir cfg ++ [l])
          (locale_dir cfg ++ t :: rest))) = true := h1
      rw [hreg] at h1b
      exact absurd h1b (by simp)

/-- The locale-stage characterization from a clean `locale/` region:
tags out = tags of the application tree, application catalogs preserved,
absent tags stay completely empty. -/
theorem c3_from_clean {cfg : Config} {s₁ s3 : St}
    (hclean : ∀ q, isUnder (locale_dir cfg) q = true → pathExists s₁.fs q = false)
    (h : ((copytreeM (app_mo_dir cfg) (locale_dir cfg) s₁).bind (fun s =>
      if isDir s.fs (app_mo_dir cfg) then
        forEach (localeLangStep cfg) (childrenOf s.fs (app_mo_dir cfg)) s
      else .exc s)) = .ok s3) :
    (∀ t : String, t ∈ childrenOf s3.fs (locale_dir cfg)
        ↔ t ∈ childrenOf s₁.fs (app_mo_dir cfg))
    ∧ (∀ (p : Path) (c : String), isUnder (app_mo_dir cfg) p = true →
        (app_mo_dir cfg).length < p.length →
        baseName p ∉ loopWriteNames →
        readFile s₁.fs p = some c →
        readFile s3.fs (locale_dir cfg ++ p.drop (app_mo_dir cfg).length) = some c)
    ∧ (∀ t : String, t ∉ childrenOf s₁.fs (app_mo_dir cfg) →
        ∀ rest : Path, pathExists s3.fs (locale_dir cfg ++ t :: rest) = false) := by
  obtain ⟨s₂, hcp, h2⟩ := bind_ok_inv h
  obtain ⟨hs₂, hA, happ⟩ := copytreeM_ok_fs hcp
  have hfs : s₂.fs = copytreeFs s₁.fs (app_mo_dir cfg) (locale_dir cfg) := by rw [hs₂]
  have happ2 : isDir s₂.fs (app_mo_dir cfg) = true := by
    rw [hfs]
    have hm := List.elem_iff.1 happ
    refine List.elem_iff.2 ?_
    show app_mo_dir cfg ∈ missingAnc s₁.fs (locale_dir cfg) ++ [locale_dir cfg]
      ++ treeDirs s₁.fs (app_mo_dir cfg) (locale_dir cfg) ++ s₁.fs.dirs
    simp [List.mem_append, hm]
  rw [if_pos happ2] at h2
  have hlangs : ∀ t : String, t ∈ childrenOf s₂.fs (app_mo_dir cfg)
      ↔ t ∈ childrenOf s₁.fs (app_mo_dir cfg) := by
    intro t
    rw [hfs]
    exact childrenOf_copytree_src (app_not_under_locale cfg) (locale_not_under_app cfg) t
  refine ⟨?_, ?_, ?_⟩
  · intro t
    constructor
    · intro ht
      rcases childrenOf_loop_sub h2 ht with h3 | h3
      · rw [hfs] at h3
        exact (childrenOf_copytree_dst (fun q hq => hclean q hq) t).1 h3
      · exact (hlangs t).1 h3
    · intro ht
      refine childrenOf_loop_sup h2 ?_
      rw [hfs]
      exact (childrenOf_copytree_dst (fun q hq => hclean q hq) t).2 ht
  · intro p c hup hlen hbn hread
    have hdne : p.drop (app_mo_dir cfg).length ≠ [] := drop_ne_nil hlen
    have hb2 : baseName p = baseName (p.drop (app_mo_dir cfg).length) := by
      conv_lhs => rw [← isUnder_recompose hup]
      rw [baseName_append hdne]
    have hb3 : baseName (locale_dir cfg ++ p.drop (app_mo_dir cfg).length)
        ∉ loopWriteNames := by
      rw [baseName_append hdne, ← hb2]
      exact hbn
    have h3 : readFile s₂.fs (locale_dir cfg ++ p.drop (app_mo_dir cfg).length)
        = some c := by
      rw [hfs]
      exact readFile_copytree hup hread
    have h4 := forEach_st_read
      (fun lang s => localeLangStep_st_read cfg lang hb3 s)
      (childrenOf s₂.fs (app_mo_dir cfg)) s₂
    rw [h2] at h4
    exact h4.trans h3
  · intro t ht rest
    have ht2 : t ∉ childrenOf s₂.fs (app_mo_dir cfg) := fun hm => ht ((hlangs t).1 hm)
    have hpe2 : pathExists s₂.fs (locale_dir cfg ++ t :: rest) = false := by
      rw [hfs]
      exact copytree_clean_out (fun q hq => hclean q hq) ht rest
    exact localeLoop_exists_out h2 ht2 hpe2

/-- C3: for every successful run of the locale-collection stage from a
tidy state, (a) the set of language tags listed in the output `locale/`
tree is exactly the set of tags of the application locale tree
`crates/rnote-ui/po`; (b) every file of the application tree - in
particular each language's own message catalog, whose base name is none
of the names the system-catalog loop writes - reappears with unchanged
content at its relocated path below `locale/`; and (c) for every tag
absent from the application tree nothing at all exists below
`locale/<tag>` in the output - in particular no system catalog for such
a tag - whatever the system locale tree contains. -/
theorem c3_locale_tags {cfg : Config} {s s3 : St}
    (htidy : tidyAt s.fs (locale_dir cfg) = true)
    (h : stageLocale cfg s = .ok s3) :
    (∀ t : String, t ∈ childrenOf s3.fs (locale_dir cfg)
        ↔ t ∈ childrenOf s.fs (app_mo_dir cfg))
    ∧ (∀ (p : Path) (c : String), isUnder (app_mo_dir cfg) p = true →
        (app_mo_dir cfg).length < p.length →
        baseName p ∉ loopWriteNames →
        readFile s.fs p = some c →
        readFile s3.fs (locale_dir cfg ++ p.drop (app_mo_dir cfg).length) = some c)
    ∧ (∀ t : String, t ∉ childrenOf s.fs (app_mo_dir cfg) →
        ∀ rest : Path, pathExists s3.fs (locale_dir cfg ++ t :: rest) = false) := by
  unfold stageLocale at h
  obtain ⟨s₁, hct, h2⟩ := bind_ok_inv h
  obtain ⟨-, hcase⟩ := cleanTree_ok_inv hct
  rcases hcase with ⟨hex, hdir, hfs1⟩ | ⟨hex, hfs1⟩
  · have hclean : ∀ q, isUnder (locale_dir cfg) q = true
        → pathExists s₁.fs q = false := by
      intro q hq
      rw [hfs1]
      exact pathExists_removeTree_under hq
    obtain ⟨hi, hii, hiii⟩ := c3_from_clean hclean h2
    refine ⟨?_, ?_, ?_⟩
    · intro t
      rw [hi t, hfs1]
      exact childrenOf_removeTree_sep (app_locale_disjoint cfg) t
    · intro p c hup hlen hbn hread
      refine hii p c hup hlen hbn ?_
      rw [hfs1, readFile_removeTree_sep (app_locale_disjoint cfg p hup)]
      exact hread
    · intro t ht rest
      refine hiii t ?_ rest
      intro hm
      apply ht
      rw [hfs1] at hm
      exact (childrenOf_removeTree_sep (app_locale_disjoint cfg) t).1 hm
  · have hclean : ∀ q, isUnder (locale_dir cfg) q = true
        → pathExists s₁.fs q = false := by
      intro q hq
      rw [hfs1]
      unfold tidyAt at htidy
      rw [if_neg (by simp [hex])] at htidy
      simp only [Bool.and_eq_true, List.all_eq_true] at htidy
      rw [pathExists_false_iff]
      constructor
      · intro hm
        have h3 := htidy.2 q hm
        rw [hq] at h3
        exact absurd h3 (by simp)
      · intro e he heq
        have h3 := htidy.1 e he
        rw [heq, hq] at h3
        exact absurd h3 (by simp)
    obtain ⟨hi, hii, hiii⟩ := c3_from_clean hclean h2
    refine ⟨?_, ?_, ?_⟩
    · intro t
      rw [hi t, hfs1]
    · intro p c hup hlen hbn hread
      refine hii p c hup hlen hbn ?_
      rw [hfs1]
      exact hread
    · intro t ht rest
      refine hiii t ?_ rest
      rw [hfs1]
      exact ht

/-- Witness for C3 at a concrete application locale tree with the
single language tag `de` and no system catalogs: the tidiness
hypothesis holds and the stage run succeeds, so the characterization
applies. -/
theorem c3_witness :
    tidyAt fsW8 (locale_dir cfgW) = true
    ∧ ((∀ t : String, t ∈ childrenOf (Step.st (stageLocale cfgW ⟨fsW8, []⟩)).fs
            (locale_dir cfgW)
          ↔ t ∈ childrenOf fsW8 (app_mo_dir cfgW))
      ∧ (∀ (p : Path) (c : String), isUnder (app_mo_dir cfgW) p = true →
          (app_mo_dir cfgW).length < p.length →
          baseName p ∉ loopWriteNames →
          readFile fsW8 p = some c →
          readFile (Step.st (stageLocale cfgW ⟨fsW8, []⟩)).fs
            (locale_dir cfgW ++ p.drop (app_mo_dir cfgW).length) = some c)
      ∧ (∀ t : String, t ∉ childrenOf fsW8 (app_mo_dir cfgW) →
          ∀ rest : Path, pathExists (Step.st (stageLocale cfgW ⟨fsW8, []⟩)).fs
            (locale_dir cfgW ++ t :: rest) = false)) :=
  ⟨by decide, @c3_locale_tags cfgW ⟨fsW8, []⟩
    (Step.st (stageLocale cfgW ⟨fsW8, []⟩)) (by decide) (by rfl)⟩

/-! ## Idempotence of the pipeline (claim C1): agreement algebra -/

theorem agree_symm {P : Path → Bool} {a b : Fs} (h : agreeOutside P a b) :
    agreeOutside P b a := ⟨h.1.symm, h.2.symm⟩

theorem agree_trans {P : Path → Bool} {a b c : Fs} (h1 : agreeOutside P a b)
    (h2 : agreeOutside P b c) : agreeOutside P a c :=
  ⟨h1.1.trans h2.1, h1.2.trans h2.2⟩

theorem mem_files_isFile {fs : Fs} {e : Path × String} (h : e ∈ fs.files) :
    isFile fs e.1 = true :=
  List.any_eq_true.2 ⟨e, h, by simp⟩

/-- Two states agreeing outside `P` that are both empty on the part of
`P` outside `Q` agree outside the smaller region `Q`. -/
theorem agree_shrink {P Q : Path → Bool} {fs g : Fs} (hag : agreeOutside P fs g)
    (hQP : ∀ p, Q p = true → P p = true)
    (he1 : ∀ p, P p = true → Q p = false → isFile fs p = false ∧ p ∉ fs.dirs)
    (he2 : ∀ p, P p = true → Q p = false → isFile g p = false ∧ p ∉ g.dirs) :
    agreeOutside Q fs g := by
  have key : ∀ h : Fs,
      (∀ p, P p = true → Q p = false → isFile h p = false ∧ p ∉ h.dirs) →
      h.files.filter (fun e => !(Q e.1)) = h.files.filter (fun e => !(P e.1))
      ∧ h.dirs.filter (fun q => !(Q q)) = h.dirs.filter (fun q => !(P q)) := by
    intro h hhe
    constructor
    · refine List.filter_congr ?_
      intro e hm
      cases hP : P e.1 with
      | false =>
          have hQ : Q e.1 = false := by
            cases hq : Q e.1 with
            | true => rw [hQP e.1 hq] at hP; exact absurd hP (by simp)
            | false => rfl
          rw [hQ]
      | true =>
          cases hq : Q e.1 with
          | true => rfl
          | false =>
              have h3 := (hhe e.1 hP hq).1
              have h4 := mem_files_isFile hm
              rw [h3] at h4
              exact absurd h4 (by simp)
    · refine List.filter_congr ?_
      intro q hm
      cases hP : P q with
      | false =>
          have hQ : Q q = false := by
            cases hq : Q q with
            | true => rw [hQP q hq] at hP; exact absurd hP (by simp)
            | false => rfl
          rw [hQ]
      | true =>
          cases hq : Q q with
          | true => rfl
          | false => exact absurd hm (hhe q hP hq).2
  obtain ⟨f1, d1⟩ := key fs he1
  obtain ⟨f2, d2⟩ := key g he2
  exact ⟨f1.trans (hag.1.trans f2.symm), d1.trans (hag.2.trans d2.symm)⟩

/-- One-sided frame: an in-region write leaves the out-region lists
unchanged. -/
theorem sf_writeFile {P : Path → Bool} {p : Path} (hp : P p = true) (fs : Fs)
    (c : String) : agreeOutside P fs (writeFile fs p c) := by
  refine ⟨?_, rfl⟩
  show fs.files.filter (fun e => !(P e.1))
    = ((p, c) :: fs.files.filter (fun e => !(e.1 == p))).filter (fun e => !(P e.1))
  rw [List.filter_cons, if_neg (by simp [hp]), List.filter_filter]
  refine List.filter_congr ?_
  intro e _
  by_cases he : e.1 = p
  · rw [he]
    simp [hp]
  · simp [he]

theorem sf_addDir {P : Path → Bool} {p : Path} (hp : P p = true) (fs : Fs) :
    agreeOutside P fs (addDir fs p) := by
  refine ⟨rfl, ?_⟩
  show fs.dirs.filter (fun q => !(P q)) = (p :: fs.dirs).filter (fun q => !(P q))
  rw [List.filter_cons, if_neg (by simp [hp])]

theorem sf_removeTree {P : Path → Bool} {d : Path}
    (hd : ∀ q, isUnder d q = true → P q = true) (fs : Fs) :
    agreeOutside P fs (removeTree fs d) := by
  have hcF : ∀ e : Path × String, (!(P e.1)) = true → (!(isUnder d e.1)) = true := by
    intro e he
    cases hu : isUnder d e.1 with
    | true => rw [hd e.1 hu] at he; exact absurd he (by simp)
    | false => rfl
  have hcD : ∀ q : Path, (!(P q)) = true → (!(isUnder d q)) = true := by
    intro q hq
    cases hu : isUnder d q with
    | true => rw [hd q hu] at hq; exact absurd hq (by simp)
    | false => rfl
  exact ⟨filter_filter_sub hcF fs.files, filter_filter_sub hcD fs.dirs⟩

/-- One-sided frame: prepending in-region files and directories leaves
the out-region lists unchanged. -/
theorem sf_prepend {P : Path → Bool} {lf : List (Path × String)} {ld : List Path}
    (hlf : ∀ e ∈ lf, P e.1 = true) (hld : ∀ q ∈ ld, P q = true) (fs : Fs) :
    agreeOutside P fs ⟨lf ++ fs.files, ld ++ fs.dirs⟩ := by
  have hnilF : lf.filter (fun e => !(P e.1)) = [] :=
    List.filter_eq_nil_iff.2 (fun e he => by simp [hlf e he])
  have hnilD : ld.filter (fun q => !(P q)) = [] :=
    List.filter_eq_nil_iff.2 (fun q hq => by simp [hld q hq])
  constructor
  · show fs.files.filter (fun e => !(P e.1)) = (lf ++ fs.files).filter (fun e => !(P e.1))
    rw [List.filter_append, hnilF, List.nil_append]
  · show fs.dirs.filter (fun q => !(P q)) = (ld ++ fs.dirs).filter (fun q => !(P q))
    rw [List.filter_append, hnilD, List.nil_append]

/-- Agreement outside a region transports the emptiness-test pair of
`tidyAt` for a separate root. -/
theorem tidyAt_agree {P : Path → Bool} {fs g : Fs} (hag : agreeOutside P fs g) {d : Path}
    (hreg : ∀ q, isUnder d q = true → P q = false) :
    tidyAt fs d = tidyAt g d := by
  have hpe := pathExists_agree hag (hreg d (isUnder_refl d))
  have hid := isDir_agree hag (hreg d (isUnder_refl d))
  have hcF : ∀ e : Path × String, (isUnder d e.1) = true → (!(P e.1)) = true := by
    intro e he
    simp [hreg e.1 he]
  have hcD : ∀ q : Path, (isUnder d q) = true → (!(P q)) = true := by
    intro q hq
    simp [hreg q hq]
  have hallF : fs.files.all (fun e => !(isUnder d e.1))
      = g.files.all (fun e => !(isUnder d e.1)) := by
    rw [List.all_eq_not_any_not, List.all_eq_not_any_not]
    simp only [Bool.not_not]
    rw [any_filter_sub hcF fs.files, hag.1, ← any_filter_sub hcF g.files]
  have hallD : fs.dirs.all (fun q => !(isUnder d q))
      = g.dirs.all (fun q => !(isUnder d q)) := by
    rw [List.all_eq_not_any_not, List.all_eq_not_any_not]
    simp only [Bool.not_not]
    rw [any_filter_sub hcD fs.dirs, hag.2, ← any_filter_sub hcD g.dirs]
  unfold tidyAt
  rw [hpe, hid, hallF, hallD]

/-! ### Region inclusion helpers -/

theorem underGL_imp_under3 (cfg : Config) (p : Path) (h : underGL cfg p = true) :
    under3 cfg p = true := by
  simp only [underGL, Bool.or_eq_true] at h
  simp only [under3, Bool.or_eq_true]
  rcases h with h | h
  · exact Or.inl (Or.inr h)
  · exact Or.inr h

theorem underL_imp_underGL (cfg : Config) (p : Path) (h : underL cfg p = true) :
    underGL cfg p = true := by
  simp only [underGL, Bool.or_eq_true]
  exact Or.inr h

theorem under3_not_GL (cfg : Config) {p : Path} (h3 : under3 cfg p = true)
    (hGL : underGL cfg p = false) : isUnder (dlls_dir cfg) p = true := by
  simp only [under3, Bool.or_eq_true] at h3
  simp only [underGL, Bool.or_eq_false_iff] at hGL
  rcases h3 with (h | h) | h
  · exact h
  · exact absurd h (by simp [hGL.1])
  · exact absurd h (by simp [hGL.2])

theorem underGL_not_L (cfg : Config) {p : Path} (hGL : underGL cfg p = true)
    (hL : underL cfg p = false) : isUnder (gschemas_dir cfg) p = true := by
  have hL2 : isUnder (locale_dir cfg) p = false := hL
  simp only [underGL, Bool.or_eq_true] at hGL
  rcases hGL with h | h
  · exact h
  · exact absurd h (by simp [hL2])

/-! ### One-sided frame through successful runs -/

/-- A fragment every successful run of which leaves the out-`P` lists
unchanged. -/
def OkAgrees (P : Path → Bool) (f : St → Step) : Prop :=
  ∀ s t, f s = .ok t → agreeOutside P s.fs t.fs

theorem okAgrees_forEach {α : Type} {P : Path → Bool} {f : α → St → Step}
    (hf : ∀ x, OkAgrees P (f x)) : ∀ xs : List α, OkAgrees P (forEach f xs)
  | [] => fun s t h => by cases h; exact agree_refl P s.fs
  | x :: xs => by
      intro s t h
      obtain ⟨s₁, h1, h2⟩ := bind_ok_inv (show (f x s).bind (forEach f xs) = .ok t from h)
      exact agree_trans (hf x s s₁ h1) (okAgrees_forEach hf xs s₁ t h2)

theorem okAgrees_cleanTree {P : Path → Bool} {d : Path}
    (hd : ∀ q, isUnder d q = true → P q = true) : OkAgrees P (cleanTree d) := by
  intro s t h
  obtain ⟨-, hcase⟩ := cleanTree_ok_inv h
  rcases hcase with ⟨-, -, hfs⟩ | ⟨-, hfs⟩
  · rw [hfs]
    exact sf_removeTree hd s.fs
  · rw [hfs]
    exact agree_refl P s.fs

theorem okAgrees_mkdirM {P : Path → Bool} {p : Path} (hp : P p = true) :
    OkAgrees P (mkdirM p) := by
  intro s t h
  obtain ⟨ht, -, -⟩ := mkdirM_ok_inv h
  rw [ht]
  exact sf_addDir hp s.fs

theorem okAgrees_shutilCopy {P : Path → Bool} {src dst : Path}
    (h1 : P (dst ++ [baseName src]) = true) (h2 : P dst = true) :
    OkAgrees P (shutilCopy src dst) := by
  intro s t h
  unfold shutilCopy at h
  split at h
  · split at h
    · cases h
      exact sf_writeFile h1 s.fs _
    · cases h
      exact sf_writeFile h2 s.fs _
  · exact absurd h (by simp)

theorem okAgrees_copyIfExists {P : Path → Bool} {src dst : Path}
    (h1 : P (dst ++ [baseName src]) = true) (h2 : P dst = true) :
    OkAgrees P (copyIfExists src dst) := by
  intro s t h
  unfold copyIfExists at h
  split at h
  · exact okAgrees_shutilCopy h1 h2 s t h
  · cases h
    exact agree_refl P s.fs

theorem sf_cpInto {P : Path → Bool} {dstDir : Path}
    (hdst : ∀ n : String, P (dstDir ++ [n]) = true) (fs : Fs) (src : Path) :
    agreeOutside P fs (cpInto fs src dstDir).1 := by
  unfold cpInto
  split
  · exact sf_writeFile (hdst _) fs _
  · exact agree_refl P fs

theorem sf_lddCollect {P : Path → Bool} {dstDir : Path}
    (hdst : ∀ n : String, P (dstDir ++ [n]) = true) :
    ∀ (ms : List Path) (fs : Fs), agreeOutside P fs (lddCollect ms dstDir fs).1
  | [], fs => agree_refl P fs
  | src :: rest, fs => by
      show agreeOutside P fs (lddCollect rest dstDir (cpInto fs src dstDir).1).1
      exact agree_trans (sf_cpInto hdst fs src)
        (sf_lddCollect hdst rest (cpInto fs src dstDir).1)

theorem sf_glibCompile {P : Path → Bool} {d : Path}
    (hd : ∀ n : String, P (d ++ [n]) = true) (env : Env) (fs : Fs) :
    agreeOutside P fs (glibCompile env d fs).1 := by
  unfold glibCompile
  split
  · exact sf_writeFile (hd _) fs _
  · exact agree_refl P fs

theorem okAgrees_collectAppDlls {P : Path → Bool} (cfg : Config) (env : Env)
    (hdst : ∀ n : String, P (dlls_dir cfg ++ [n]) = true) :
    OkAgrees P (collectAppDlls cfg env) := by
  intro s t h
  unfold collectAppDlls at h
  obtain ⟨-, ht⟩ := run_command_ok_inv h
  rw [ht]
  exact sf_lddCollect hdst _ s.fs

theorem okAgrees_collectLoaderDlls {P : Path → Bool} (cfg : Config) (env : Env)
    (hdst : ∀ n : String, P (dlls_dir cfg ++ [n]) = true) (loader : Path) :
    OkAgrees P (collectLoaderDlls cfg env loader) := by
  intro s t h
  unfold collectLoaderDlls at h
  obtain ⟨-, ht⟩ := run_command_ok_inv h
  rw [ht]
  exact sf_lddCollect hdst _ s.fs

theorem okAgrees_collectAngleDll {P : Path → Bool} (cfg : Config) (env : Env)
    (hdst : ∀ n : String, P (dlls_dir cfg ++ [n]) = true) (angle : Path) :
    OkAgrees P (collectAngleDll cfg env angle) := by
  intro s t h
  unfold collectAngleDll at h
  obtain ⟨s₁, h1, h2⟩ := bind_ok_inv h
  obtain ⟨-, ht1⟩ := run_command_ok_inv h1
  obtain ⟨-, ht2⟩ := run_command_ok_inv h2
  rw [ht2, ht1]
  exact agree_trans (sf_cpInto hdst s.fs angle) (sf_lddCollect hdst _ _)

/-- Every successful stage-1 run changes only the `dlls/` subtree. -/
theorem sf_stageDlls {cfg : Config} {env : Env} {s t : St}
    (h : stageDlls cfg env s = .ok t) :
    agreeOutside (fun p => isUnder (dlls_dir cfg) p) s.fs t.fs := by
  have hdst : ∀ n : String, isUnder (dlls_dir cfg) (dlls_dir cfg ++ [n]) = true :=
    fun n => isUnder_self_append _ _
  unfold stageDlls at h
  obtain ⟨s₁, h1, h⟩ := bind_ok_inv h
  obtain ⟨s₂, h2, h⟩ := bind_ok_inv h
  obtain ⟨s₃, h3, h⟩ := bind_ok_inv h
  obtain ⟨s₄, h4, h5⟩ := bind_ok_inv h
  exact agree_trans (okAgrees_cleanTree (fun q hq => hq) s s₁ h1)
    (agree_trans (okAgrees_mkdirM (isUnder_refl _) s₁ s₂ h2)
    (agree_trans (okAgrees_collectAppDlls cfg env hdst s₂ s₃ h3)
    (agree_trans
      (okAgrees_forEach (okAgrees_collectLoaderDlls cfg env hdst) _ s₃ s₄ h4)
      (okAgrees_forEach (okAgrees_collectAngleDll cfg env hdst) _ s₄ t h5))))

/-- Every successful stage-2 run changes only the `gschemas/` subtree. -/
theorem sf_stageSchemas {cfg : Config} {env : Env} {s t : St}
    (h : stageSchemas cfg env s = .ok t) :
    agreeOutside (fun p => isUnder (gschemas_dir cfg) p) s.fs t.fs := by
  have hdst : ∀ n : String, isUnder (gschemas_dir cfg) (gschemas_dir cfg ++ [n]) = true :=
    fun n => isUnder_self_append _ _
  unfold stageSchemas at h
  obtain ⟨s₁, h1, h⟩ := bind_ok_inv h
  obtain ⟨s₂, h2, h⟩ := bind_ok_inv h
  obtain ⟨s₃, h3, h⟩ := bind_ok_inv h
  obtain ⟨s₄, h4, h5⟩ := bind_ok_inv h
  obtain ⟨-, ht⟩ := run_command_ok_inv h5
  refine agree_trans (okAgrees_cleanTree (fun q hq => hq) s s₁ h1)
    (agree_trans (okAgrees_mkdirM (isUnder_refl _) s₁ s₂ h2)
    (agree_trans (okAgrees_forEach
        (fun src => okAgrees_shutilCopy (hdst _) (isUnder_refl _)) _ s₂ s₃ h3)
    (agree_trans (okAgrees_shutilCopy (hdst _) (isUnder_refl _) s₃ s₄ h4) ?_)))
  rw [ht]
  exact sf_glibCompile hdst env s₄.fs

theorem treeDirs_under {fs : Fs} {src dst : Path} {q : Path}
    (h : q ∈ treeDirs fs src dst) : isUnder dst q = true := by
  obtain ⟨a, ha, hae⟩ := List.mem_filterMap.1 h
  by_cases hc : (isUnder src a && !(a == src)) = true
  · rw [if_pos hc] at hae
    cases hae
    exact isUnder_self_append dst _
  · rw [if_neg hc] at hae
    exact absurd hae (by simp)

theorem missingAnc_nil {fs : Fs} {dst : Path}
    (h : ∀ k, k < dst.length → isDir fs (dst.take k) = true) :
    missingAnc fs dst = [] := by
  refine List.filter_eq_nil_iff.2 ?_
  intro a ha
  obtain ⟨k, hk, hka⟩ := List.mem_map.1 ha
  rw [← hka]
  simp [h k (List.mem_range.1 hk)]

/-- One-sided frame of a `copytree` whose destination ancestors all
exist. -/
theorem sf_copytree {P : Path → Bool} {src dst : Path}
    (hdst : ∀ q, isUnder dst q = true → P q = true)
    {fs : Fs} (hmiss : missingAnc fs dst = []) :
    agreeOutside P fs (copytreeFs fs src dst) := by
  have hnilF : (treeFiles fs src dst).filter (fun e => !(P e.1)) = [] :=
    List.filter_eq_nil_iff.2 (fun e he => by simp [hdst e.1 (treeFiles_under he)])
  have hnilD1 : ([dst] : List Path).filter (fun q => !(P q)) = [] :=
    List.filter_eq_nil_iff.2 (fun q hq => by
      have hq2 : q = dst := by simpa using hq
      simp [hq2, hdst dst (isUnder_refl dst)])
  have hnilD2 : (treeDirs fs src dst).filter (fun q => !(P q)) = [] :=
    List.filter_eq_nil_iff.2 (fun q hq => by simp [hdst q (treeDirs_under hq)])
  constructor
  · show fs.files.filter (fun e => !(P e.1))
      = (treeFiles fs src dst ++ fs.files).filter (fun e => !(P e.1))
    rw [List.filter_append, hnilF, List.nil_append]
  · show fs.dirs.filter (fun q => !(P q))
      = (missingAnc fs dst ++ [dst] ++ treeDirs fs src dst ++ fs.dirs).filter
          (fun q => !(P q))
    rw [hmiss, List.nil_append, List.filter_append, List.filter_append, hnilD1, hnilD2,
      List.nil_append, List.nil_append]

theorem okAgrees_localeLangStep {P : Path → Bool} (cfg : Config)
    (hP : ∀ (lang : String) (u : Path), P (locale_dir cfg ++ lang :: u) = true)
    (lang : String) : OkAgrees P (localeLangStep cfg lang) := by
  have hmk : P (locale_dir cfg ++ [lang, "LC_MESSAGES"]) = true := hP lang ["LC_MESSAGES"]
  have hcp : ∀ x : String, P ((locale_dir cfg ++ [lang, "LC_MESSAGES"]) ++ [x]) = true := by
    intro x
    rw [show (locale_dir cfg ++ [lang, "LC_MESSAGES"]) ++ [x]
      = locale_dir cfg ++ lang :: ["LC_MESSAGES", x] from by simp]
    exact hP lang _
  intro s t h
  unfold localeLangStep at h
  obtain ⟨s₁, h1, h⟩ := bind_ok_inv h
  obtain ⟨s₂, h2, h⟩ := bind_ok_inv h
  obtain ⟨s₃, h3, h4⟩ := bind_ok_inv h
  refine agree_trans ?_ (agree_trans (okAgrees_copyIfExists (hcp _) hmk s₁ s₂ h2)
    (agree_trans (okAgrees_copyIfExists (hcp _) hmk s₂ s₃ h3)
      (okAgrees_copyIfExists (hcp _) hmk s₃ t h4)))
  split at h1
  · cases h1
    exact agree_refl P s.fs
  · exact okAgrees_mkdirM hmk s s₁ h1

/-- Every successful stage-3 run, from a state whose build-root chain of
directories exists, changes only the `locale/` subtree. -/
theorem sf_stageLocale {cfg : Config} {s t : St}
    (hanc : ∀ k, k < (locale_dir cfg).length →
      isDir s.fs ((locale_dir cfg).take k) = true)
    (h : stageLocale cfg s = .ok t) :
    agreeOutside (fun p => isUnder (locale_dir cfg) p) s.fs t.fs := by
  have hP : ∀ (lang : String) (u : Path),
      isUnder (locale_dir cfg) (locale_dir cfg ++ lang :: u) = true :=
    fun lang u => isUnder_self_append _ _
  unfold stageLocale at h
  obtain ⟨s₁, h1, h⟩ := bind_ok_inv h
  obtain ⟨s₂, h2, h3⟩ := bind_ok_inv h
  have hloop : forEach (localeLangStep cfg) (childrenOf s₂.fs (app_mo_dir cfg)) s₂
      = .ok t := by
    by_cases hdir : isDir s₂.fs (app_mo_dir cfg) = true
    · rwa [if_pos hdir] at h3
    · rw [if_neg hdir] at h3
      exact absurd h3 (by simp)
  have hanc1 : ∀ k, k < (locale_dir cfg).length →
      isDir s₁.fs ((locale_dir cfg).take k) = true := by
    intro k hk
    obtain ⟨-, hcase⟩ := cleanTree_ok_inv h1
    rcases hcase with ⟨-, -, hfs⟩ | ⟨-, hfs⟩
    · rw [hfs]
      refine isDir_removeTree_sep ?_ (hanc k hk)
      cases hu : isUnder (locale_dir cfg) ((locale_dir cfg).take k) with
      | true =>
          have hlen := isUnder_length hu
          rw [List.length_take] at hlen
          have h5 := Nat.min_le_left k (locale_dir cfg).length
          omega
      | false => rfl
    · rw [hfs]
      exact hanc k hk
  obtain ⟨hfs2, -, -⟩ := copytreeM_ok_fs h2
  have hmiss : missingAnc s₁.fs (locale_dir cfg) = [] := missingAnc_nil hanc1
  have ha2 : agreeOutside (fun p => isUnder (locale_dir cfg) p) s₁.fs s₂.fs := by
    rw [hfs2]
    exact sf_copytree (fun q hq => hq) hmiss
  exact agree_trans (okAgrees_cleanTree (fun q hq => hq) s s₁ h1)
    (agree_trans ha2
      (okAgrees_forEach (okAgrees_localeLangStep cfg hP) _ s₂ t hloop))

theorem sf_stageIscc {cfg : Config} {env : Env} {s t : St}
    (h : stageIscc cfg env s = .ok t) (P : Path → Bool) :
    agreeOutside P s.fs t.fs := by
  unfold stageIscc at h
  obtain ⟨-, ht⟩ := run_command_ok_inv h
  rw [ht]
  exact agree_refl P s.fs

/-! ### Lock-step simulation of two runs that agree outside a region -/

/-- A fragment that, run from two states agreeing outside `P`, succeeds
on the second whenever it succeeds on the first, with outputs again
agreeing outside `P`. -/
def SimOk (P : Path → Bool) (f : St → Step) : Prop :=
  ∀ s s' t, agreeOutside P s.fs s'.fs → f s = .ok t →
    ∃ t', f s' = .ok t' ∧ agreeOutside P t.fs t'.fs

theorem simOk_forEach {α : Type} {P : Path → Bool} {f : α → St → Step} :
    ∀ xs : List α, (∀ x ∈ xs, SimOk P (f x)) → SimOk P (forEach f xs)
  | [], _ => by
      intro s s' t hag h
      cases h
      exact ⟨s', rfl, hag⟩
  | x :: xs, hf => by
      intro s s' t hag h
      obtain ⟨s₁, h1, h2⟩ := bind_ok_inv (show (f x s).bind (forEach f xs) = .ok t from h)
      obtain ⟨s₁', h1', hag1⟩ := hf x (List.mem_cons_self x xs) s s' s₁ hag h1
      obtain ⟨t', h2', hag2⟩ := simOk_forEach xs
        (fun y hy => hf y (List.mem_cons_of_mem x hy)) s₁ s₁' t hag1 h2
      refine ⟨t', ?_, hag2⟩
      show (f x s').bind (forEach f xs) = .ok t'
      rw [bind_ok_of h1']
      exact h2'

/-- Collection from sources outside the region preserves agreement and
produces identical pipeline statuses. -/
theorem lddCollect_agree {P : Path → Bool} (ms : List Path) (dstDir : Path) :
    ∀ {fs g : Fs}, agreeOutside P fs g → (∀ p ∈ ms, P p = false) →
      agreeOutside P (lddCollect ms dstDir fs).1 (lddCollect ms dstDir g).1
      ∧ (lddCollect ms dstDir fs).2 = (lddCollect ms dstDir g).2 := by
  induction ms with
  | nil =>
      intro fs g hag _
      exact ⟨hag, rfl⟩
  | cons src rest ih =>
      intro fs g hag hms
      have hsrc : P src = false := hms src (List.mem_cons_self _ _)
      have hread := readFile_agree hag hsrc
      have hcp : agreeOutside P (cpInto fs src dstDir).1 (cpInto g src dstDir).1
          ∧ (cpInto fs src dstDir).2 = (cpInto g src dstDir).2 := by
        unfold cpInto
        rw [← hread]
        cases hr : readFile fs src with
        | some c =>
            simp only [hr]
            exact ⟨agree_writeFile hag _ c, trivial⟩
        | none =>
            simp only [hr]
            exact ⟨hag, trivial⟩
      have hrest := ih hcp.1 (fun p hp => hms p (List.mem_cons_of_mem _ hp))
      refine ⟨hrest.1, ?_⟩
      show (if (cpInto fs src dstDir).2 == 0
          then (lddCollect rest dstDir (cpInto fs src dstDir).1).2 else 123)
        = (if (cpInto g src dstDir).2 == 0
          then (lddCollect rest dstDir (cpInto g src dstDir).1).2 else 123)
      rw [hcp.2, hrest.2]

theorem pathExists_false_of {fs : Fs} {q : Path} (h1 : isFile fs q = false)
    (h2 : q ∉ fs.dirs) : pathExists fs q = false := by
  rw [pathExists_false_iff]
  refine ⟨h2, ?_⟩
  intro e he heq
  have h3 := mem_files_isFile he
  rw [heq, h1] at h3
  exact absurd h3 (by simp)

/-- A guarded cleanup from a tidy state succeeds and leaves the cleaned
region completely empty, touching nothing else. -/
theorem cleanTree_tidy_ok {d : Path} {s : St} (htidy : tidyAt s.fs d = true) :
    ∃ t, cleanTree d s = .ok t ∧ t.trace = s.trace
      ∧ agreeOutside (fun q => isUnder d q) s.fs t.fs
      ∧ (∀ q, isUnder d q = true → isFile t.fs q = false ∧ q ∉ t.fs.dirs) := by
  unfold tidyAt at htidy
  by_cases hex : pathExists s.fs d = true
  · rw [if_pos hex] at htidy
    refine ⟨⟨removeTree s.fs d, s.trace⟩, ?_, rfl, ?_, ?_⟩
    · unfold cleanTree
      rw [if_pos hex, if_pos htidy]
    · exact sf_removeTree (fun q hq => hq) s.fs
    · intro q hq
      have hpe := @pathExists_removeTree_under s.fs d q hq
      rw [pathExists_false_iff] at hpe
      constructor
      · cases hf : isFile (removeTree s.fs d) q with
        | true =>
            obtain ⟨c, hc⟩ := isFile_iff.1 hf
            exact absurd rfl (hpe.2 (q, c) hc)
        | false => rfl
      · exact hpe.1
  · rw [if_neg hex] at htidy
    simp only [Bool.and_eq_true, List.all_eq_true] at htidy
    refine ⟨s, ?_, rfl, agree_refl _ s.fs, ?_⟩
    · unfold cleanTree
      rw [if_neg hex]
    · intro q hq
      constructor
      · cases hf : isFile s.fs q with
        | true =>
            obtain ⟨c, hc⟩ := isFile_iff.1 hf
            have h3 := htidy.1 (q, c) hc
            exact absurd h3 (by simp [hq])
        | false => rfl
      · intro hm
        have h3 := htidy.2 q hm
        rw [hq] at h3
        exact absurd h3 (by simp)

theorem sim_cleanTree {P : Path → Bool} {d : Path}
    (hd : ∀ q, isUnder d q = true → P q = true) {s s' t : St}
    (hag : agreeOutside P s.fs s'.fs)
    (ht1 : tidyAt s.fs d = true) (ht2 : tidyAt s'.fs d = true)
    (h : cleanTree d s = .ok t) :
    ∃ t', cleanTree d s' = .ok t' ∧ agreeOutside P t.fs t'.fs
      ∧ (∀ q, isUnder d q = true → isFile t.fs q = false ∧ q ∉ t.fs.dirs)
      ∧ (∀ q, isUnder d q = true → isFile t'.fs q = false ∧ q ∉ t'.fs.dirs) := by
  obtain ⟨t0, h0, -, hagd, hemp⟩ := cleanTree_tidy_ok ht1
  have ht0 : t0 = t := by
    rw [h0] at h
    exact Step.ok.inj h
  subst ht0
  obtain ⟨t', h0', -, hagd', hemp'⟩ := cleanTree_tidy_ok ht2
  refine ⟨t', h0', ?_, hemp, hemp'⟩
  exact agree_trans (agree_symm (agree_mono hd hagd))
    (agree_trans hag (agree_mono hd hagd'))

theorem sim_mkdirM {P : Path → Bool} {p : Path} (hpar : P p.dropLast = false)
    {s s' t : St} (hag : agreeOutside P s.fs s'.fs)
    (hne2 : pathExists s'.fs p = false)
    (h : mkdirM p s = .ok t) :
    ∃ t', mkdirM p s' = .ok t' ∧ agreeOutside P t.fs t'.fs := by
  obtain ⟨ht, hne, hpard⟩ := mkdirM_ok_inv h
  have hpard2 : isDir s'.fs p.dropLast = true := by
    rw [← isDir_agree hag hpar]
    exact hpard
  refine ⟨⟨addDir s'.fs p, s'.trace⟩, ?_, ?_⟩
  · unfold mkdirM
    rw [if_neg (by simp [hne2]), if_pos hpard2]
  · rw [ht]
    exact agree_addDir hag p

theorem shutilCopy_eval_dir {src dst : Path} {s : St} {c : String}
    (hr : readFile s.fs src = some c) (hd : isDir s.fs dst = true) :
    shutilCopy src dst s = .ok ⟨writeFile s.fs (dst ++ [baseName src]) c, s.trace⟩ := by
  unfold shutilCopy
  simp only [hr]
  rw [if_pos hd]

theorem shutilCopy_eval_file {src dst : Path} {s : St} {c : String}
    (hr : readFile s.fs src = some c) (hd : isDir s.fs dst = false) :
    shutilCopy src dst s = .ok ⟨writeFile s.fs dst c, s.trace⟩ := by
  unfold shutilCopy
  simp only [hr]
  rw [if_neg (by simp [hd])]

theorem sim_shutilCopy {P : Path → Bool} {src dst : Path}
    (hsrc : P src = false) (hdst : P dst = false) {s s' t : St}
    (hag : agreeOutside P s.fs s'.fs) (h : shutilCopy src dst s = .ok t) :
    ∃ t', shutilCopy src dst s' = .ok t' ∧ agreeOutside P t.fs t'.fs := by
  have hread := readFile_agree hag hsrc
  have hdir := isDir_agree hag hdst
  unfold shutilCopy at h
  split at h
  · next c heq =>
      split at h
      · next hdt =>
          cases h
          refine ⟨⟨writeFile s'.fs (dst ++ [baseName src]) c, s'.trace⟩, ?_, ?_⟩
          · exact shutilCopy_eval_dir (by rw [← hread]; exact heq) (by rw [← hdir]; exact hdt)
          · exact agree_writeFile hag _ c
      · next hdt =>
          cases h
          refine ⟨⟨writeFile s'.fs dst c, s'.trace⟩, ?_, ?_⟩
          · refine shutilCopy_eval_file (by rw [← hread]; exact heq) ?_
            rw [← hdir]
            simpa using hdt
          · exact agree_writeFile hag _ c
  · exact absurd h (by simp)

theorem sim_copyIfExists {P : Path → Bool} {src dst : Path}
    (hsrc : P src = false) (hdst : P dst = false) {s s' t : St}
    (hag : agreeOutside P s.fs s'.fs) (h : copyIfExists src dst s = .ok t) :
    ∃ t', copyIfExists src dst s' = .ok t' ∧ agreeOutside P t.fs t'.fs := by
  have hpe := pathExists_agree hag hsrc
  unfold copyIfExists at h
  split at h
  · next hex =>
      obtain ⟨t', h2, hag2⟩ := sim_shutilCopy hsrc hdst hag h
      refine ⟨t', ?_, hag2⟩
      unfold copyIfExists
      rw [if_pos (show pathExists s'.fs src = true from by rw [← hpe]; exact hex)]
      exact h2
  · next hex =>
      cases h
      refine ⟨s', ?_, hag⟩
      unfold copyIfExists
      rw [if_neg (show ¬ pathExists s'.fs src = true from by rw [← hpe]; exact hex)]

/-- `run_command` on equal statuses and agreeing filesystems: the same
outcome with agreeing filesystems. -/
theorem run_command_agree {P : Path → Bool} {c m : String} {fs2 fs3 : Fs}
    {st1 st2 : Nat} (hst : st2 = st1) (hag : agreeOutside P fs2 fs3)
    (tr tr2 : List TraceEntry) {t : St}
    (h : run_command st1 c m ⟨fs2, tr⟩ = .ok t) :
    ∃ t', run_command st2 c m ⟨fs3, tr2⟩ = .ok t'
      ∧ agreeOutside P t.fs t'.fs := by
  obtain ⟨hz, ht⟩ := run_command_ok_inv h
  subst hst
  subst hz
  refine ⟨⟨fs3, tr2 ++ [⟨c, m, 0⟩]⟩, ?_, ?_⟩
  · show run_command 0 c m ⟨fs3, tr2⟩ = .ok ⟨fs3, tr2 ++ [⟨c, m, 0⟩]⟩
    rfl
  · rw [ht]
    exact hag

theorem cpInto_agree {P : Path → Bool} {src : Path} (hsrc : P src = false)
    {fs g : Fs} (hag : agreeOutside P fs g) (dstDir : Path) :
    agreeOutside P (cpInto fs src dstDir).1 (cpInto g src dstDir).1
    ∧ (cpInto fs src dstDir).2 = (cpInto g src dstDir).2 := by
  have hread := readFile_agree hag hsrc
  unfold cpInto
  rw [← hread]
  cases hr : readFile fs src with
  | some c =>
      simp only [hr]
      exact ⟨agree_writeFile hag _ c, trivial⟩
  | none =>
      simp only [hr]
      exact ⟨hag, trivial⟩

theorem mem_globFiles {fs : Fs} {d : Path} {pred : String → Bool} {p : Path}
    (h : p ∈ globFiles fs d pred) : p.dropLast = d ∧ p ≠ [] := by
  obtain ⟨e, he, hep⟩ := List.mem_filterMap.1 h
  by_cases hc : (!(e.1.isEmpty) && e.1.dropLast == d && pred (baseName e.1)) = true
  · rw [if_pos hc] at hep
    cases hep
    simp only [Bool.and_eq_true, beq_iff_eq, Bool.not_eq_true'] at hc
    refine ⟨hc.1.2, ?_⟩
    intro hnil
    have ha := hc.1.1
    rw [hnil] at ha
    exact absurd ha (by simp)
  · rw [if_neg hc] at hep
    exact absurd hep (by simp)

theorem not_under3_not_GL (cfg : Config) {p : Path} (h : under3 cfg p = false) :
    underGL cfg p = false := by
  cases hg : underGL cfg p with
  | true => exact absurd (underGL_imp_under3 cfg p hg) (by simp [h])
  | false => rfl

theorem not_under3_not_L (cfg : Config) {p : Path} (h : under3 cfg p = false) :
    underL cfg p = false := by
  cases hg : underL cfg p with
  | true =>
      exact absurd (underGL_imp_under3 cfg p (underL_imp_underGL cfg p hg))
        (by simp [h])
  | false => rfl

theorem sim_collectAppDlls {P : Path → Bool} (cfg : Config) (env : Env)
    (hldd : ∀ p ∈ env.lddMatches (app_binary cfg), P p = false) :
    SimOk P (collectAppDlls cfg env) := by
  intro s s' t hag h
  obtain ⟨hagc, hstc⟩ :=
    lddCollect_agree (env.lddMatches (app_binary cfg)) (dlls_dir cfg) hag hldd
  obtain ⟨t', h2, hag2⟩ := run_command_agree hstc.symm hagc s.trace s'.trace h
  exact ⟨t', h2, hag2⟩

theorem sim_collectLoaderDlls {P : Path → Bool} (cfg : Config) (env : Env)
    (loader : Path) (hldd : ∀ p ∈ env.lddMatches loader, P p = false) :
    SimOk P (collectLoaderDlls cfg env loader) := by
  intro s s' t hag h
  obtain ⟨hagc, hstc⟩ := lddCollect_agree (env.lddMatches loader) (dlls_dir cfg) hag hldd
  obtain ⟨t', h2, hag2⟩ := run_command_agree hstc.symm hagc s.trace s'.trace h
  exact ⟨t', h2, hag2⟩

theorem sim_collectAngleDll {P : Path → Bool} (cfg : Config) (env : Env) {angle : Path}
    (hangle : P angle = false)
    (hldd : ∀ p ∈ env.lddMatches angle, P p = false) :
    SimOk P (collectAngleDll cfg env angle) := by
  intro s s' t hag h
  unfold collectAngleDll at h
  obtain ⟨s₁, h1, h2⟩ := bind_ok_inv h
  obtain ⟨hagc, hstc⟩ := cpInto_agree hangle hag (dlls_dir cfg)
  obtain ⟨s₁', h1', hag1⟩ := run_command_agree hstc.symm hagc s.trace s'.trace h1
  obtain ⟨hagl, hstl⟩ := lddCollect_agree (env.lddMatches angle) (dlls_dir cfg) hag1 hldd
  obtain ⟨t', h2', hag2⟩ := run_command_agree hstl.symm hagl s₁.trace s₁'.trace h2
  refine ⟨t', ?_, hag2⟩
  exact (bind_ok_of h1').trans h2'

/-- Lock-step simulation of stage 1: from states agreeing outside the
three working directories, with `dlls/` tidy on both sides, the second
run succeeds as well and the outputs agree outside `gschemas/` and
`locale/`. -/
theorem sim_stageDlls {cfg : Config} {env : Env} (hsep : sepB cfg = true)
    (hldd : ∀ b p, p ∈ env.lddMatches b → under3 cfg p = false)
    {s s' t : St} (hag : agreeOutside (under3 cfg) s.fs s'.fs)
    (ht1 : tidyAt s.fs (dlls_dir cfg) = true) (ht2 : tidyAt s'.fs (dlls_dir cfg) = true)
    (h : stageDlls cfg env s = .ok t) :
    ∃ t', stageDlls cfg env s' = .ok t' ∧ agreeOutside (underGL cfg) t.fs t'.fs := by
  unfold stageDlls at h
  obtain ⟨s₁, h1, h⟩ := bind_ok_inv h
  obtain ⟨s₂, h2, h⟩ := bind_ok_inv h
  obtain ⟨s₃, h3, h⟩ := bind_ok_inv h
  obtain ⟨s₄, h4, h5⟩ := bind_ok_inv h
  obtain ⟨s₁', h1', hagc, hempty1, hempty2⟩ :=
    sim_cleanTree (underD_under3 cfg) hag ht1 ht2 h1
  have hagGL : agreeOutside (underGL cfg) s₁.fs s₁'.fs :=
    agree_shrink hagc (underGL_imp_under3 cfg)
      (fun p h3 hGL => hempty1 p (under3_not_GL cfg h3 hGL))
      (fun p h3 hGL => hempty2 p (under3_not_GL cfg h3 hGL))
  have hparGL : underGL cfg ((dlls_dir cfg).dropLast) = false := by
    rw [show (dlls_dir cfg).dropLast = cfg.build_root from List.dropLast_concat]
    simp only [underGL, gschemas_dir, locale_dir, Bool.or_eq_false_iff]
    exact ⟨not_isUnder_extend _ _, not_isUnder_extend _ _⟩
  obtain ⟨s₂', h2', hagm⟩ := sim_mkdirM hparGL hagGL
    (pathExists_false_of (hempty2 _ (isUnder_refl _)).1 (hempty2 _ (isUnder_refl _)).2) h2
  obtain ⟨s₃', h3', hagA⟩ := sim_collectAppDlls cfg env
    (fun p hp => not_under3_not_GL cfg (hldd _ p hp)) s₂ s₂' s₃ hagm h3
  have hloadreg : ∀ p, isUnder (loaders_dir cfg) p = true → underGL cfg p = false := by
    intro p hp
    have hbep : isUnder cfg.build_environment_path p = true :=
      isUnder_trans (isUnder_self_append _ _) hp
    obtain ⟨-, hg, hl⟩ := sepB_bep_region hsep hbep
    simp only [underGL, Bool.or_eq_false_iff]
    exact ⟨hg, hl⟩
  have hbinreg : ∀ p, isUnder (bin_dir cfg) p = true → underGL cfg p = false := by
    intro p hp
    have hbep : isUnder cfg.build_environment_path p = true :=
      isUnder_trans (isUnder_self_append _ _) hp
    obtain ⟨-, hg, hl⟩ := sepB_bep_region hsep hbep
    simp only [underGL, Bool.or_eq_false_iff]
    exact ⟨hg, hl⟩
  have hglob1 : globFiles s₃.fs (loaders_dir cfg) dllName
      = globFiles s₃'.fs (loaders_dir cfg) dllName := globFiles_agree hagA hloadreg
  obtain ⟨s₄', h4', hagL⟩ := simOk_forEach (globFiles s₃.fs (loaders_dir cfg) dllName)
    (fun loader hl => sim_collectLoaderDlls cfg env loader
      (fun p hp => not_under3_not_GL cfg (hldd _ p hp))) s₃ s₃' s₄ hagA h4
  have hglob2 : globFiles s₄.fs (bin_dir cfg) eglName
      = globFiles s₄'.fs (bin_dir cfg) eglName := globFiles_agree hagL hbinreg
  have hglob3 : globFiles s₄.fs (bin_dir cfg) glesName
      = globFiles s₄'.fs (bin_dir cfg) glesName := globFiles_agree hagL hbinreg
  obtain ⟨t', h5', hagT⟩ := simOk_forEach
    (globFiles s₄.fs (bin_dir cfg) eglName ++ globFiles s₄.fs (bin_dir cfg) glesName)
    (fun angle ha => by
      have hun : isUnder (bin_dir cfg) angle = true := by
        rcases List.mem_append.1 ha with h6 | h6
        · obtain ⟨hd, hne⟩ := mem_globFiles h6
          exact isUnder_of_dropLast hne hd
        · obtain ⟨hd, hne⟩ := mem_globFiles h6
          exact isUnder_of_dropLast hne hd
      exact sim_collectAngleDll cfg env (hbinreg angle hun)
        (fun p hp => not_under3_not_GL cfg (hldd _ p hp)))
    s₄ s₄' t hagL h5
  refine ⟨t', ?_, hagT⟩
  show (cleanTree (dlls_dir cfg) s').bind _ = .ok t'
  rw [bind_ok_of h1']
  show (mkdirM (dlls_dir cfg) s₁').bind _ = .ok t'
  rw [bind_ok_of h2']
  show (collectAppDlls cfg env s₂').bind _ = .ok t'
  rw [bind_ok_of h3']
  show (forEach (collectLoaderDlls cfg env)
      (globFiles s₃'.fs (loaders_dir cfg) dllName) s₃').bind _ = .ok t'
  rw [← hglob1, bind_ok_of h4']
  show forEach (collectAngleDll cfg env)
      (globFiles s₄'.fs (bin_dir cfg) eglName
        ++ globFiles s₄'.fs (bin_dir cfg) glesName) s₄' = .ok t'
  rw [← hglob2, ← hglob3]
  exact h5'

theorem glibCompile_agree {P : Path → Bool} (env : Env) (d : Path) {fs g : Fs}
    (hag : agreeOutside P fs g) (hin : schemaInput fs d = schemaInput g d) :
    agreeOutside P (glibCompile env d fs).1 (glibCompile env d g).1
    ∧ (glibCompile env d fs).2 = (glibCompile env d g).2 := by
  unfold glibCompile
  rw [← hin]
  cases hr : env.compileSchemas (schemaInput fs d) with
  | some c =>
      simp only [hr]
      exact ⟨agree_writeFile hag _ c, trivial⟩
  | none =>
      simp only [hr]
      exact ⟨hag, trivial⟩

/-- Lock-step simulation of stage 2: from states agreeing outside
`gschemas/` and `locale/`, with `gschemas/` tidy on both sides, the
second run succeeds as well and the outputs agree outside `locale/`. -/
theorem sim_stageSchemas {cfg : Config} {env : Env} (hsep : sepB cfg = true)
    {s s' t : St} (hag : agreeOutside (underGL cfg) s.fs s'.fs)
    (ht1 : tidyAt s.fs (gschemas_dir cfg) = true)
    (ht2 : tidyAt s'.fs (gschemas_dir cfg) = true)
    (h : stageSchemas cfg env s = .ok t) :
    ∃ t', stageSchemas cfg env s' = .ok t' ∧ agreeOutside (underL cfg) t.fs t'.fs := by
  have hGL : ∀ q, isUnder (gschemas_dir cfg) q = true → underGL cfg q = true := by
    intro q hq
    simp only [underGL, Bool.or_eq_true]
    exact Or.inl hq
  have hgl : ∀ p, isUnder (gschemas_dir cfg) p = true → underL cfg p = false := by
    intro p hp
    cases hu : isUnder (locale_dir cfg) p with
    | true =>
        exact (isUnder_disjoint (by decide)
          (show isUnder (cfg.build_root ++ "gschemas" :: []) p = true from hp)
          (show isUnder (cfg.build_root ++ "locale" :: []) p = true from hu)).elim
    | false => exact hu
  have hsysreg : ∀ p, isUnder (system_schemas_dir cfg) p = true → underL cfg p = false := by
    intro p hp
    have hbep : isUnder cfg.build_environment_path p = true :=
      isUnder_trans (isUnder_self_append _ _) hp
    exact (sepB_bep_region hsep hbep).2.2
  unfold stageSchemas at h
  obtain ⟨s₁, h1, h⟩ := bind_ok_inv h
  obtain ⟨s₂, h2, h⟩ := bind_ok_inv h
  obtain ⟨s₃, h3, h⟩ := bind_ok_inv h
  obtain ⟨s₄, h4, h5⟩ := bind_ok_inv h
  obtain ⟨s₁', h1', hagc, hempty1, hempty2⟩ := sim_cleanTree hGL hag ht1 ht2 h1
  have hagL : agreeOutside (underL cfg) s₁.fs s₁'.fs :=
    agree_shrink hagc (underL_imp_underGL cfg)
      (fun p hGL2 hL => hempty1 p (underGL_not_L cfg hGL2 hL))
      (fun p hGL2 hL => hempty2 p (underGL_not_L cfg hGL2 hL))
  have hparL : underL cfg ((gschemas_dir cfg).dropLast) = false := by
    rw [show (gschemas_dir cfg).dropLast = cfg.build_root from List.dropLast_concat]
    exact not_isUnder_extend _ _
  obtain ⟨s₂', h2', hagm⟩ := sim_mkdirM hparL hagL
    (pathExists_false_of (hempty2 _ (isUnder_refl _)).1 (hempty2 _ (isUnder_refl _)).2) h2
  have hglob : globFiles s₂.fs (system_schemas_dir cfg) orgGtkName
      = globFiles s₂'.fs (system_schemas_dir cfg) orgGtkName :=
    globFiles_agree hagm hsysreg
  obtain ⟨s₃', h3', hagF⟩ := simOk_forEach
    (globFiles s₂.fs (system_schemas_dir cfg) orgGtkName)
    (fun src hm => by
      have hun : isUnder (system_schemas_dir cfg) src = true := by
        obtain ⟨hd, hne⟩ := mem_globFiles hm
        exact isUnder_of_dropLast hne hd
      exact fun sa sb tc hagx hx =>
        sim_shutilCopy (hsysreg src hun) (hgl _ (isUnder_refl _)) hagx hx)
    s₂ s₂' s₃ hagm h3
  have hschsrc : underL cfg (app_schema_src cfg) = false := by
    refine not_under3_not_L cfg ?_
    show under3 cfg (cfg.build_root
      ++ "crates" :: ["rnote-ui", "data", cfg.app_id ++ ".gschema.xml"]) = false
    exact crates_out3 cfg _
  obtain ⟨s₄', h4', hagS⟩ :=
    sim_shutilCopy hschsrc (hgl _ (isUnder_refl _)) hagF h4
  have hin : schemaInput s₄.fs (gschemas_dir cfg)
      = schemaInput s₄'.fs (gschemas_dir cfg) := schemaInput_agree hagS hgl
  obtain ⟨hagG, hstG⟩ := glibCompile_agree env (gschemas_dir cfg) hagS hin
  obtain ⟨t', h5', hagT⟩ := run_command_agree hstG.symm hagG s₄.trace s₄'.trace h5
  refine ⟨t', ?_, hagT⟩
  show (cleanTree (gschemas_dir cfg) s').bind _ = .ok t'
  rw [bind_ok_of h1']
  show (mkdirM (gschemas_dir cfg) s₁').bind _ = .ok t'
  rw [bind_ok_of h2']
  show (forEach (fun src s => shutilCopy src (gschemas_dir cfg) s)
      (globFiles s₂'.fs (system_schemas_dir cfg) orgGtkName) s₂').bind _ = .ok t'
  rw [← hglob, bind_ok_of h3']
  show (shutilCopy (app_schema_src cfg) (gschemas_dir cfg) s₃').bind _ = .ok t'
  rw [bind_ok_of h4']
  exact h5'

theorem sim_copytreeM_eq {src dst : Path} {s s' t : St}
    (hag : agreeOutside (fun _ => false) s.fs s'.fs)
    (h : copytreeM src dst s = .ok t) :
    ∃ t', copytreeM src dst s' = .ok t'
      ∧ agreeOutside (fun _ => false) t.fs t'.fs := by
  have heq : s.fs = s'.fs := agree_none_eq hag
  obtain ⟨ht, hA, hdir⟩ := copytreeM_ok_fs h
  refine ⟨⟨copytreeFs s'.fs src dst, s'.trace⟩, ?_, ?_⟩
  · unfold copytreeM
    rw [if_neg (by rw [← heq]; simp [hA]), if_pos (by rw [← heq]; exact hdir)]
    rfl
  · rw [ht, ← heq]
    exact agree_refl _ _

theorem sim_localeLangStep_eq (cfg : Config) (lang : String) :
    SimOk (fun _ => false) (localeLangStep cfg lang) := by
  intro s s' t hag h
  have hpe := @pathExists_agree (fun _ => false) s.fs s'.fs hag
    (locale_dir cfg ++ [lang, "LC_MESSAGES"]) rfl
  unfold localeLangStep at h
  obtain ⟨s₁, h1, h⟩ := bind_ok_inv h
  obtain ⟨s₂, h2, h⟩ := bind_ok_inv h
  obtain ⟨s₃, h3, h4⟩ := bind_ok_inv h
  obtain ⟨s₁', h1', hag1⟩ : ∃ s₁',
      (if pathExists s'.fs (locale_dir cfg ++ [lang, "LC_MESSAGES"]) then Step.ok s'
        else mkdirM (locale_dir cfg ++ [lang, "LC_MESSAGES"]) s') = .ok s₁'
      ∧ agreeOutside (fun _ => false) s₁.fs s₁'.fs := by
    split at h1
    · next hex =>
        cases h1
        refine ⟨s', ?_, hag⟩
        rw [if_pos (show pathExists s'.fs _ = true from by rw [← hpe]; exact hex)]
    · next hex =>
        have hex2 : pathExists s'.fs (locale_dir cfg ++ [lang, "LC_MESSAGES"]) = false := by
          rw [← hpe]
          simpa using hex
        obtain ⟨t1, hmk, hagm⟩ := sim_mkdirM rfl hag hex2 h1
        refine ⟨t1, ?_, hagm⟩
        rw [if_neg (by simp [hex2])]
        exact hmk
  obtain ⟨s₂', h2', hag2⟩ := sim_copyIfExists rfl rfl hag1 h2
  obtain ⟨s₃', h3', hag3⟩ := sim_copyIfExists rfl rfl hag2 h3
  obtain ⟨t', h4', hag4⟩ := sim_copyIfExists rfl rfl hag3 h4
  refine ⟨t', ?_, hag4⟩
  show ((if pathExists s'.fs (locale_dir cfg ++ [lang, "LC_MESSAGES"]) then Step.ok s'
      else mkdirM (locale_dir cfg ++ [lang, "LC_MESSAGES"]) s') : Step).bind _ = .ok t'
  rw [bind_ok_of h1']
  show (copyIfExists (system_locale_dir cfg lang ++ ["glib20.mo"])
      (locale_dir cfg ++ [lang, "LC_MESSAGES"]) s₁').bind _ = .ok t'
  rw [bind_ok_of h2']
  show (copyIfExists (system_locale_dir cfg lang ++ ["gtk40.mo"])
      (locale_dir cfg ++ [lang, "LC_MESSAGES"]) s₂').bind _ = .ok t'
  rw [bind_ok_of h3']
  exact h4'

/-- Lock-step simulation of stage 3: from states agreeing outside
`locale/`, with `locale/` tidy on both sides, the second run succeeds
and the outputs are equal as filesystems. -/
theorem sim_stageLocale {cfg : Config} {s s' t : St}
    (hag : agreeOutside (underL cfg) s.fs s'.fs)
    (ht1 : tidyAt s.fs (locale_dir cfg) = true)
    (ht2 : tidyAt s'.fs (locale_dir cfg) = true)
    (h : stageLocale cfg s = .ok t) :
    ∃ t', stageLocale cfg s' = .ok t'
      ∧ agreeOutside (fun _ => false) t.fs t'.fs := by
  unfold stageLocale at h
  obtain ⟨s₁, h1, h⟩ := bind_ok_inv h
  obtain ⟨s₂, h2, h3⟩ := bind_ok_inv h
  obtain ⟨s₁', h1', hagc, hempty1, hempty2⟩ :=
    sim_cleanTree (fun q hq => hq) hag ht1 ht2 h1
  have hagF : agreeOutside (fun _ => false) s₁.fs s₁'.fs :=
    agree_shrink hagc (fun p hp => absurd hp (by simp))
      (fun p hp _ => hempty1 p hp) (fun p hp _ => hempty2 p hp)
  obtain ⟨s₂', h2', hagcp⟩ := sim_copytreeM_eq hagF h2
  have heq2 : s₂.fs = s₂'.fs := agree_none_eq hagcp
  have hdir2 : isDir s₂.fs (app_mo_dir cfg) = true := by
    by_cases hd : isDir s₂.fs (app_mo_dir cfg) = true
    · exact hd
    · rw [if_neg hd] at h3
      exact absurd h3 (by simp)
  have hloop : forEach (localeLangStep cfg) (childrenOf s₂.fs (app_mo_dir cfg)) s₂
      = .ok t := by
    rwa [if_pos hdir2] at h3
  obtain ⟨t', hloop', hagt⟩ := simOk_forEach (childrenOf s₂.fs (app_mo_dir cfg))
    (fun lang hl => sim_localeLangStep_eq cfg lang) s₂ s₂' t hagcp hloop
  refine ⟨t', ?_, hagt⟩
  show (cleanTree (locale_dir cfg) s').bind _ = .ok t'
  rw [bind_ok_of h1']
  show (copytreeM (app_mo_dir cfg) (locale_dir cfg) s₁').bind _ = .ok t'
  rw [bind_ok_of h2']
  show (if isDir s₂'.fs (app_mo_dir cfg) then
      forEach (localeLangStep cfg) (childrenOf s₂'.fs (app_mo_dir cfg)) s₂'
    else Step.exc s₂') = .ok t'
  rw [if_pos (show isDir s₂'.fs (app_mo_dir cfg) = true from by rw [← heq2]; exact hdir2),
    ← heq2]
  exact hloop'

theorem sim_stageIscc {cfg : Config} {env : Env} (P : Path → Bool) {s s' t : St}
    (hag : agreeOutside P s.fs s'.fs) (h : stageIscc cfg env s = .ok t) :
    ∃ t', stageIscc cfg env s' = .ok t' ∧ agreeOutside P t.fs t'.fs := by
  obtain ⟨hz, ht⟩ := run_command_ok_inv h
  refine ⟨⟨s'.fs, s'.trace ++ [⟨isccCmd cfg, "Running ISCC failed", env.isccStatus⟩]⟩,
    ?_, ?_⟩
  · unfold stageIscc run_command
    rw [if_pos (by simp [hz])]
  · rw [ht]
    exact hag

theorem under_sib_disj {r : Path} {x y : String} (hxy : x ≠ y) :
    ∀ p, isUnder (r ++ [x]) p = true → isUnder (r ++ [y]) p = false := by
  intro p hp
  cases hu : isUnder (r ++ [y]) p with
  | true =>
      exact (isUnder_disjoint hxy (show isUnder (r ++ x :: []) p = true from hp)
        (show isUnder (r ++ y :: []) p = true from hu)).elim
  | false => rfl

theorem tidyAt_of_isDir {fs : Fs} {r : Path} (h : isDir fs r = true) :
    tidyAt fs r = true := by
  unfold tidyAt
  rw [if_pos (by simp [pathExists, h])]
  exact h

theorem ancChain_locale_prefixes {cfg : Config} {fs : Fs} (h : ancChain cfg fs = true) :
    ∀ k, k < (locale_dir cfg).length → isDir fs ((locale_dir cfg).take k) = true := by
  intro k hk
  have hlen : (locale_dir cfg).length = cfg.build_root.length + 1 := by
    simp [locale_dir]
  have hk2 : k ≤ cfg.build_root.length := by omega
  rw [show (locale_dir cfg).take k = cfg.build_root.take k from
    List.take_append_of_le_length hk2]
  unfold ancChain at h
  rw [List.all_eq_true] at h
  exact h k (List.mem_range.2 (by omega))

/-- Strong frame of a successful run of stages 1-3: the raw filesystem
lists outside the three working directories are exactly preserved. -/
theorem sf_first3 {cfg : Config} {env : Env} {s t : St}
    (hanc : ∀ k, k < (locale_dir cfg).length →
      isDir s.fs ((locale_dir cfg).take k) = true)
    (h : first3 cfg env s = .ok t) :
    agreeOutside (under3 cfg) s.fs t.fs := by
  unfold first3 at h
  obtain ⟨t₁, h1, h⟩ := bind_ok_inv h
  obtain ⟨t₂, h2, h3⟩ := bind_ok_inv h
  have hf1 := sf_stageDlls h1
  have hf2 := sf_stageSchemas h2
  have hpre : ∀ d : Path, d.length = (locale_dir cfg).length →
      ∀ k, k < (locale_dir cfg).length →
        isUnder d ((locale_dir cfg).take k) = false := by
    intro d hdlen k hk
    cases hu : isUnder d ((locale_dir cfg).take k) with
    | true =>
        have hlen := isUnder_length hu
        rw [List.length_take] at hlen
        have h5 := Nat.min_le_left k (locale_dir cfg).length
        omega
    | false => rfl
  have hanc2 : ∀ k, k < (locale_dir cfg).length →
      isDir t₂.fs ((locale_dir cfg).take k) = true := by
    intro k hk
    rw [← isDir_agree hf2 (hpre _ (by simp [gschemas_dir, locale_dir]) k hk),
      ← isDir_agree hf1 (hpre _ (by simp [dlls_dir, locale_dir]) k hk)]
    exact hanc k hk
  have hf3 := sf_stageLocale hanc2 h3
  exact agree_trans (agree_mono (underD_under3 cfg) hf1)
    (agree_trans (agree_mono (underG_under3 cfg) hf2)
      (agree_mono (underL_under3 cfg) hf3))

/-- Lock-step simulation of stages 1-3: two runs from tidy states that
agree outside the three working directories produce equal
filesystems. -/
theorem sim_first3 {cfg : Config} {env : Env} (hsep : sepB cfg = true)
    (hldd : ∀ b p, p ∈ env.lddMatches b → under3 cfg p = false)
    {s s' t : St} (hag : agreeOutside (under3 cfg) s.fs s'.fs)
    (ht1 : tidy3 cfg s.fs = true) (ht2 : tidy3 cfg s'.fs = true)
    (h : first3 cfg env s = .ok t) :
    ∃ t', first3 cfg env s' = .ok t'
      ∧ agreeOutside (fun _ => false) t.fs t'.fs := by
  simp only [tidy3, Bool.and_eq_true] at ht1 ht2
  unfold first3 at h
  obtain ⟨t₁, h1, h⟩ := bind_ok_inv h
  obtain ⟨t₂, h2, h3⟩ := bind_ok_inv h
  obtain ⟨t₁', h1', hag1⟩ := sim_stageDlls hsep hldd hag ht1.1.1 ht2.1.1 h1
  have hgd : ∀ q, isUnder (gschemas_dir cfg) q = true →
      isUnder (dlls_dir cfg) q = false := under_sib_disj (by decide)
  have htg1 : tidyAt t₁.fs (gschemas_dir cfg) = true := by
    rw [← tidyAt_agree (sf_stageDlls h1) hgd]
    exact ht1.1.2
  have htg2 : tidyAt t₁'.fs (gschemas_dir cfg) = true := by
    rw [← tidyAt_agree (sf_stageDlls h1') hgd]
    exact ht2.1.2
  obtain ⟨t₂', h2', hag2⟩ := sim_stageSchemas hsep hag1 htg1 htg2 h2
  have hld : ∀ q, isUnder (locale_dir cfg) q = true →
      isUnder (dlls_dir cfg) q = false := under_sib_disj (by decide)
  have hlg : ∀ q, isUnder (locale_dir cfg) q = true →
      isUnder (gschemas_dir cfg) q = false := under_sib_disj (by decide)
  have htl1 : tidyAt t₂.fs (locale_dir cfg) = true := by
    rw [← tidyAt_agree (sf_stageSchemas h2) hlg, ← tidyAt_agree (sf_stageDlls h1) hld]
    exact ht1.2
  have htl2 : tidyAt t₂'.fs (locale_dir cfg) = true := by
    rw [← tidyAt_agree (sf_stageSchemas h2') hlg, ← tidyAt_agree (sf_stageDlls h1') hld]
    exact ht2.2
  obtain ⟨t', h3', hag3⟩ := sim_stageLocale hag2 htl1 htl2 h3
  refine ⟨t', ?_, hag3⟩
  show (stageDlls cfg env s').bind _ = .ok t'
  rw [bind_ok_of h1']
  show (stageSchemas cfg env t₁').bind _ = .ok t'
  rw [bind_ok_of h2']
  exact h3'

/-- Lock-step simulation of the whole pipeline. -/
theorem sim_inno_build {cfg : Config} {env : Env} (hsep : sepB cfg = true)
    (hldd : ∀ b p, p ∈ env.lddMatches b → under3 cfg p = false)
    {s s' t : St} (hag : agreeOutside (under3 cfg) s.fs s'.fs)
    (ht1 : tidy3 cfg s.fs = true) (ht2 : tidy3 cfg s'.fs = true)
    (h : inno_build cfg env s = .ok t) :
    ∃ t', inno_build cfg env s' = .ok t' ∧ t'.fs = t.fs := by
  unfold inno_build at h
  obtain ⟨t₃, h3, h4⟩ := bind_ok_inv h
  obtain ⟨t₃', h3', hag3⟩ := sim_first3 hsep hldd hag ht1 ht2 h3
  obtain ⟨t', h4', hag4⟩ := sim_stageIscc (fun _ => false) hag3 h4
  refine ⟨t', ?_, (agree_none_eq hag4).symm⟩
  show (first3 cfg env s').bind _ = .ok t'
  rw [bind_ok_of h3']
  exact h4'

/-- C1: every run of the pipeline removes each working directory
(`dlls/`, `gschemas/`, `locale/`) when present and recreates it before
populating it, so the pipeline's output filesystem is determined by the
input outside those directories alone: re-running the whole pipeline
from a successful run's output (same arguments, same external tools)
succeeds and reproduces that output byte for byte.  The hypotheses say
the runtime environment and the application binary lie outside the
working directories, the link inspector reports only library paths
outside them, the working directories of the starting state are in a
tidy state, and the build root's directory chain exists. -/
theorem c1_idempotent {cfg : Config} {env : Env} {fs : Fs} {s₁ : St}
    (hsep : sepB cfg = true)
    (hldd : ∀ b p, p ∈ env.lddMatches b → under3 cfg p = false)
    (htidy : tidy3 cfg fs = true)
    (hanc : ancChain cfg fs = true)
    (h : inno_build cfg env ⟨fs, []⟩ = .ok s₁) :
    ∃ s₂, inno_build cfg env ⟨s₁.fs, []⟩ = .ok s₂ ∧ s₂.fs = s₁.fs := by
  have h0 := h
  unfold inno_build at h0
  obtain ⟨t₃, h3, h4⟩ := bind_ok_inv h0
  have hfr : agreeOutside (under3 cfg) fs t₃.fs :=
    sf_first3 (ancChain_locale_prefixes hanc) h3
  have hs1fs : s₁.fs = t₃.fs := by
    unfold stageIscc at h4
    obtain ⟨-, ht⟩ := run_command_ok_inv h4
    rw [ht]
  have hag : agreeOutside (under3 cfg) (⟨fs, []⟩ : St).fs (⟨s₁.fs, []⟩ : St).fs := by
    show agreeOutside (under3 cfg) fs s₁.fs
    rw [hs1fs]
    exact hfr
  obtain ⟨hd3, hg3, hl3⟩ := first3_ok_dirs h3
  have htidy1 : tidy3 cfg (⟨s₁.fs, []⟩ : St).fs = true := by
    show tidy3 cfg s₁.fs = true
    rw [hs1fs]
    simp only [tidy3, Bool.and_eq_true]
    exact ⟨⟨tidyAt_of_isDir (List.elem_iff.2 hd3), tidyAt_of_isDir (List.elem_iff.2 hg3)⟩,
      tidyAt_of_isDir (List.elem_iff.2 hl3)⟩
  exact sim_inno_build hsep hldd hag htidy htidy1 h

/-- Witness for C1 at the concrete example configuration and
filesystem: all hypotheses hold concretely and the second run
reproduces the first run's filesystem. -/
theorem c1_witness :
    sepB cfgW = true ∧ tidy3 cfgW fsW = true ∧ ancChain cfgW fsW = true
    ∧ ∃ s₂, inno_build cfgW envW
          ⟨(Step.st (inno_build cfgW envW ⟨fsW, []⟩)).fs, []⟩ = .ok s₂
        ∧ s₂.fs = (Step.st (inno_build cfgW envW ⟨fsW, []⟩)).fs :=
  ⟨by decide, by decide, by decide,
    @c1_idempotent cfgW envW fsW (Step.st (inno_build cfgW envW ⟨fsW, []⟩))
      (by decide) (fun b p hp => absurd hp (List.not_mem_nil p)) (by decide) (by decide)
      (by rfl)⟩

end RnoteBuild
